import Mathlib

/-!
# Haystack blob store (oserr/hs): a shallow embedding

The development follows the C++ sources

* `haystack/needle.hh`, `haystack/needle.cc`  : `NeedleFlags`, `Needle`
* `haystack/haystack.hh`, `haystack/haystack.cc` : `Haystack` (one volume file)
* `haystack/asyncmap.hh` : `AsyncMap`
* `haystack/store.hh`, `haystack/store.cc` : `Store`
* `haystack/directory.hh`, `haystack/directory.cc` : `Directory` (the ids of uploads)
* `haystack/cache.hh`, `haystack/cache.cc` : `Cache::Get`

Conventions.

* `uint64_t` values are natural numbers; every arithmetic operation the source
  performs on them is followed by an explicit reduction modulo `2 ^ 64`.
* A file is the list of its bytes.  `seekp`/`write` past the end of the file
  fill the gap with zero bytes, `read` delivers the bytes that exist.
* `sizeof(NeedleFlags)` is 24 and `offsetof(NeedleFlags, isDeleted)` is 16
  (two `uint64_t` followed by one `char`, 8-byte alignment); the seven padding
  bytes of the object representation are taken to be zero and integers are
  stored little-endian.
* An operation that throws returns the exception together with the state the
  object is left in.  Besides `throw HaystackErr(..)` a call can end in a header
  read past the end of the file or in an out-of-range `hayStacks[i]`, where the
  source reads indeterminate data, or in the `std::ios_base::failure` of a
  `write` whose count is negative as a `std::streamsize`; these are outcomes of
  their own (`Fault`).
* The scan loop of `Haystack::Needles` takes the number of iterations it may
  run; the theorems about it hold for every bound from `currentSize` on.
* The store is modelled sequentially: one request is served after the other.
* The counters of `Directory` are an `int` and a `long long`: integers, reduced
  to 32 and 64 bits (two's complement) after every increment.
* Redis, the database and the store as `Directory` and `Cache` see it over the
  network are outside the program: what they answer is an argument of the
  method, what is sent to them is part of its result.
-/

namespace Hs

/-! ## Bytes, 64-bit arithmetic and files -/

/-- One `char` of a buffer or of a file. -/
abbrev Byte := Fin 256

/-- Reduction of an arithmetic result to `uint64_t`. -/
def wrap64 (n : Nat) : Nat := n % 2 ^ 64

/-- The `uint64_t` difference `a - b`. -/
def sub64 (a b : Nat) : Nat := (a + 2 ^ 64 - b % 2 ^ 64) % 2 ^ 64

/-- Byte `i` of the little-endian representation of `n`. -/
def byteOf (n i : Nat) : Byte := ⟨n / 256 ^ i % 256, Nat.mod_lt _ (by decide)⟩

/-- The eight bytes of a `uint64_t`, least significant first. -/
def le64 (n : Nat) : List Byte :=
  [byteOf n 0, byteOf n 1, byteOf n 2, byteOf n 3, byteOf n 4, byteOf n 5, byteOf n 6, byteOf n 7]

/-- The number stored little-endian in a run of bytes. -/
def fromLe : List Byte → Nat
  | [] => 0
  | b :: bs => b.val + 256 * fromLe bs

/-- The bytes `file.read` delivers when asked for `len` bytes at position `pos`
(fewer than `len` when the file ends first). -/
def readSome (file : List Byte) (pos len : Nat) : List Byte := (file.drop pos).take len

/-- A read of exactly `len` bytes at `pos`; `none` when the file is too short, in
which case the destination object is not completely written. -/
def readAt (file : List Byte) (pos len : Nat) : Option (List Byte) :=
  if pos + len ≤ file.length then some (readSome file pos len) else none

/-- The file after `seekp(pos)` and a `write` of `bytes`. -/
def writeAt (file : List Byte) (pos : Nat) (bytes : List Byte) : List Byte :=
  file.take pos ++ List.replicate (pos - file.length) 0 ++ bytes ++ file.drop (pos + bytes.length)

/-! ## needle.hh -/

/-- The struct `NeedleFlags`: the header of a record. -/
structure NeedleFlags where
  id : Nat
  size : Nat
  isDeleted : Byte
  deriving DecidableEq, Repr

/-- The struct `Needle`. -/
structure Needle where
  haystackId : Nat
  offset : Nat
  flags : NeedleFlags
  deriving DecidableEq, Repr

/-- The constructor `NeedleFlags(id, size)`. -/
def NeedleFlags.new (id size : Nat) : NeedleFlags := ⟨id, size, 0⟩

/-- The constructor `Needle(haystackId, offset, needleId, size)`. -/
def Needle.new (haystackId offset needleId size : Nat) : Needle :=
  ⟨haystackId, offset, NeedleFlags.new needleId size⟩

/-- The value `sizeof(NeedleFlags)`. -/
def kFlagsSize : Nat := 24

/-- The value `offsetof(NeedleFlags, isDeleted)`. -/
def kDeletedOffset : Nat := 16

/-- Object representation of a `NeedleFlags`, as written by
`file.write(reinterpret_cast<char*>(&needle.flags), kFlagsSize)`. -/
def encodeFlags (nf : NeedleFlags) : List Byte :=
  le64 nf.id ++ le64 nf.size ++ [nf.isDeleted] ++ List.replicate 7 0

/-- The `NeedleFlags` obtained by
`file.read(reinterpret_cast<char*>(&nf), kFlagsSize)` from the bytes read. -/
def decodeFlags (bs : List Byte) : NeedleFlags :=
  ⟨fromLe (bs.take 8), fromLe ((bs.drop 8).take 8), bs.getD kDeletedOffset 0⟩

/-! ## haystack.hh, haystack.cc -/

/-- The enum `HsErr`. -/
inductive HsErr where
  | BadNeedle
  | NoFit
  deriving DecidableEq, Repr

/-- The ways a call ends other than by returning. -/
inductive Fault where
  /-- The statement `throw HaystackErr(e)`. -/
  | haystackErr (e : HsErr)
  /-- A header read that ran past the end of the file: `nf` is indeterminate. -/
  | shortRead
  /-- The access `hayStacks[i]` with `i` not below `hayStacks.size()`. -/
  | badIndex
  /-- The scan loop was cut off before `pos < currentSize` became false. -/
  | noFuel
  /-- The exception `std::ios_base::failure`: a `file.write` whose count is negative
  as a `std::streamsize` writes nothing and sets `badbit`, which the constructor
  made throwing with `file.exceptions(std::ios::badbit)`. -/
  | ioFailure
  deriving DecidableEq, Repr

/-- The class `Haystack`: one volume (mutex and file name left out). -/
structure Haystack where
  file : List Byte
  maxSize : Nat
  currentSize : Nat
  id : Nat
  isReadOnly : Bool
  deriving DecidableEq, Repr

/-- The constructor `Haystack(id, path, maxSize, fromFile)`; `disk` is the
content of `haystack_<id>` before the call. -/
def Haystack.new (id : Nat) (disk : List Byte) (maxSize : Nat) (fromFile : Bool) : Haystack :=
  if !fromFile then
    { file := [], maxSize := maxSize, currentSize := 0, id := id, isReadOnly := false }
  else
    { file := disk, maxSize := maxSize, currentSize := disk.length, id := id,
      isReadOnly := decide (disk.length ≥ maxSize) }

/-- The method `Haystack::FreeCount`. -/
def Haystack.FreeCount (h : Haystack) : Nat := sub64 h.maxSize h.currentSize

/-- The method `Haystack::Read`: the bytes copied into `buff`. -/
def Haystack.Read (h : Haystack) (needle : Needle) : Except Fault (List Byte) :=
  if needle.haystackId ≠ h.id ∨ needle.offset ≥ sub64 h.currentSize kFlagsSize then
    .error (.haystackErr .BadNeedle)
  else
    match readAt h.file needle.offset kFlagsSize with
    | none => .error .shortRead
    | some bs =>
      let nf := decodeFlags bs
      if nf.isDeleted ≠ 0 ∨ nf.id ≠ needle.flags.id ∨ nf.size ≠ needle.flags.size then
        .error (.haystackErr .BadNeedle)
      else
        .ok (readSome h.file (needle.offset + kFlagsSize) nf.size)

/-- The method `Haystack::Write`; `buff` holds the bytes the pointer `buff`
points to, of which the first `size` are written.  `file.write(buff, size)` takes
its count as a `std::streamsize`, a signed 64-bit integer: a `size` of `2 ^ 63` or
more arrives negative, the call throws after the header has been written, and
`currentSize` and `isReadOnly` are not updated. -/
def Haystack.Write (h : Haystack) (needleId : Nat) (buff : List Byte) (size : Nat) :
    Except Fault Needle × Haystack :=
  if h.isReadOnly = true ∨ wrap64 (h.currentSize + kFlagsSize + size) > h.maxSize then
    (.error (.haystackErr .NoFit), h)
  else
    let needle := Needle.new h.id h.currentSize needleId size
    let file1 := writeAt h.file h.currentSize (encodeFlags needle.flags)
    if size ≥ 2 ^ 63 then
      (.error .ioFailure, { h with file := file1 })
    else
      let file2 := writeAt file1 (h.currentSize + kFlagsSize) (buff.take size)
      let currentSize := wrap64 (h.currentSize + wrap64 (kFlagsSize + size))
      (.ok needle,
        { h with file := file2, currentSize := currentSize,
                 isReadOnly := decide (currentSize ≥ h.maxSize) })

/-- The method `Haystack::Delete`: the outcome, the caller's needle and the volume
afterwards. -/
def Haystack.Delete (h : Haystack) (needle : Needle) : Except Fault Unit × Needle × Haystack :=
  if needle.haystackId ≠ h.id ∨ wrap64 (needle.offset + kFlagsSize) > h.currentSize then
    (.error (.haystackErr .BadNeedle), needle, h)
  else
    match readAt h.file needle.offset kFlagsSize with
    | none => (.error .shortRead, needle, h)
    | some bs =>
      let nf := decodeFlags bs
      if nf.id ≠ needle.flags.id then
        (.error (.haystackErr .BadNeedle), needle, h)
      else
        let needle1 : Needle := { needle with flags := { needle.flags with isDeleted := 1 } }
        if nf.isDeleted = 0 then
          let offset := wrap64 (needle.offset + kDeletedOffset)
          (.ok (), needle1, { h with file := writeAt h.file offset [needle1.flags.isDeleted] })
        else
          (.ok (), needle1, h)

/-- The loop of `Haystack::Needles`, from position `pos` with the descriptors
`needles` collected so far, for at most `fuel` iterations. -/
def Haystack.NeedlesLoop (h : Haystack) : Nat → Nat → List Needle → Except Fault (List Needle)
  | fuel, pos, needles =>
    if pos < h.currentSize then
      match fuel with
      | 0 => .error .noFuel
      | fuel + 1 =>
        match readAt h.file pos kFlagsSize with
        | none => .error .shortRead
        | some bs =>
          let nf := decodeFlags bs
          Haystack.NeedlesLoop h fuel (wrap64 (pos + wrap64 (kFlagsSize + nf.size)))
            (needles ++ [⟨h.id, pos, nf⟩])
    else
      .ok needles

/-- The method `Haystack::Needles`, its loop bounded by `fuel` iterations. -/
def Haystack.Needles (h : Haystack) (fuel : Nat) : Except Fault (List Needle) :=
  Haystack.NeedlesLoop h fuel 0 []

/-! ## asyncmap.hh -/

/-- The class `AsyncMap<TKey, TValue>`: `hMap` holds the entries of the
`unordered_map` (mutex left out). -/
structure AsyncMap (κ : Type) (ν : Type) where
  hMap : List (κ × ν)

/-- The call `hMap.find(key)`: the entry found, if any. -/
def AsyncMap.find {κ ν : Type} [DecidableEq κ] (m : AsyncMap κ ν) (key : κ) : Option (κ × ν) :=
  m.hMap.find? (fun e => decide (e.1 = key))

/-- The method `AsyncMap::Get`: the returned flag and the content of `value`
afterwards. -/
def AsyncMap.Get {κ ν : Type} [DecidableEq κ] (m : AsyncMap κ ν) (key : κ) (value : ν) : Bool × ν :=
  match m.find key with
  | none => (false, value)
  | some item => (true, item.2)

/-- The method `AsyncMap::Put` (`hMap.emplace(key, value)`): the returned flag and
the map afterwards. -/
def AsyncMap.Put {κ ν : Type} [DecidableEq κ] (m : AsyncMap κ ν) (key : κ) (value : ν) :
    Bool × AsyncMap κ ν :=
  match m.find key with
  | none => (true, ⟨(key, value) :: m.hMap⟩)
  | some _ => (false, m)

/-- The method `AsyncMap::Remove` (`hMap.erase(key)`): the returned flag and the map
afterwards. -/
def AsyncMap.Remove {κ ν : Type} [DecidableEq κ] (m : AsyncMap κ ν) (key : κ) :
    Bool × AsyncMap κ ν :=
  ((m.find key).isSome, ⟨m.hMap.filter (fun e => !decide (e.1 = key))⟩)

/-! ## store.hh, store.cc -/

/-- The constant `Store::kVolumes`. -/
def kVolumes : Nat := 5

/-- The constant `Store::kMaxFileSize` (`1<<20`). -/
def kMaxFileSize : Nat := 2 ^ 20

/-- The constant `Store::kMaxVolumeSize` (`kMaxFileSize<<10`). -/
def kMaxVolumeSize : Nat := kMaxFileSize * 2 ^ 10

/-- The class `Store` (address, port and directory name left out). -/
structure Store where
  needles : AsyncMap Nat Needle
  hayStacks : List Haystack

/-- The default-constructed `Needle()`. -/
def Needle.default : Needle := ⟨0, 0, ⟨0, 0, 0⟩⟩

/-- The state of a constructed `Store` before `Run`. -/
def Store.new : Store := ⟨⟨[]⟩, []⟩

/-- The initialisation at the head of `Store::Run`: the loop that creates the
haystacks; `disk i` is the content of `haystack_<i>` under `hayDir` before the call. -/
def Store.RunInit (s : Store) (disk : Nat → List Byte) : Store :=
  (List.range kVolumes).foldl
    (fun st i => { st with hayStacks := st.hayStacks ++ [Haystack.new i (disk i) kMaxVolumeSize false] })
    s

/-- The method `Store::Put`: the outcome and the store afterwards. -/
def Store.Put (s : Store) (volumeId needleId : Nat) (buf : List Byte) (size : Nat) :
    Except Fault Unit × Store :=
  match s.hayStacks[volumeId]? with
  | none => (.error .badIndex, s)
  | some hs =>
    match hs.Write needleId buf size with
    | (.error e, hs1) => (.error e, { s with hayStacks := s.hayStacks.set volumeId hs1 })
    | (.ok needle, hs1) =>
      match s.needles.Put needleId needle with
      | (true, m) => (.ok (), { needles := m, hayStacks := s.hayStacks.set volumeId hs1 })
      | (false, m) =>
        match hs1.Delete needle with
        | (.error e, _, hs2) => (.error e, { needles := m, hayStacks := s.hayStacks.set volumeId hs2 })
        | (.ok _, _, hs2) =>
          (.error (.haystackErr .NoFit), { needles := m, hayStacks := s.hayStacks.set volumeId hs2 })

/-- The method `Store::Get`: the returned size and the bytes copied into `buf`. -/
def Store.Get (s : Store) (needleId : Nat) : Except Fault (Nat × List Byte) :=
  match s.needles.Get needleId Needle.default with
  | (false, _) => .error (.haystackErr .BadNeedle)
  | (true, needle) =>
    match s.hayStacks[needle.haystackId]? with
    | none => .error .badIndex
    | some hs =>
      match hs.Read needle with
      | .error e => .error e
      | .ok bytes => .ok (needle.flags.size, bytes)

/-- The method `Store::Remove`: the outcome and the store afterwards. -/
def Store.Remove (s : Store) (needleId : Nat) : Except Fault Unit × Store :=
  match s.needles.Get needleId Needle.default with
  | (false, _) => (.error (.haystackErr .BadNeedle), s)
  | (true, needle) =>
    match s.hayStacks[needle.haystackId]? with
    | none => (.error .badIndex, s)
    | some hs =>
      match hs.Delete needle with
      | (outcome, _, hs1) => (outcome, { s with hayStacks := s.hayStacks.set needle.haystackId hs1 })

/-- A request as `Store::HandleConnection` sees it: the command word and the
numbers extracted from the request line, and for `put` the bytes that follow the
line on the connection. -/
inductive Request where
  | get (needleId : Nat)
  | put (volumeId needleId nBytes : Nat) (payload : List Byte)
  | delete (needleId : Nat)
  | other (command : String)

/-- What `Store::HandleConnection` sends back: the text written with `<<` and the
bytes written with `conn->write`. -/
structure Reply where
  text : String
  bytes : List Byte
  deriving DecidableEq, Repr

/-- The reply of the `catch` clauses of `Store::HandleConnection`. -/
def Store.errReply : Fault → Reply
  | .haystackErr .BadNeedle => ⟨"err BadNeedle\n", []⟩
  | .haystackErr .NoFit => ⟨"err NoFit\n", []⟩
  | _ => ⟨"", []⟩

/-- The method `Store::HandleConnection`: the reply sent and the store afterwards. -/
def Store.HandleConnection (s : Store) : Request → Reply × Store
  | .get needleId =>
    match s.Get needleId with
    | .ok (nBytes, buf) => (⟨"ok " ++ toString nBytes ++ "\n", buf.take nBytes⟩, s)
    | .error e => (Store.errReply e, s)
  | .put volumeId needleId nBytes payload =>
    if volumeId ≥ kVolumes then
      (⟨"err BadHaystackId\n", []⟩, s)
    else if nBytes > kMaxFileSize then
      (⟨"err TooManyBytes\n", []⟩, s)
    else
      let buf := payload.take nBytes
      let nBytes := buf.length
      match s.Put volumeId needleId buf nBytes with
      | (.ok _, s1) => (⟨"ok\n", []⟩, s1)
      | (.error e, s1) => (Store.errReply e, s1)
  | .delete needleId =>
    match s.Remove needleId with
    | (.ok _, s1) => (⟨"ok\n", []⟩, s1)
    | (.error e, s1) => (Store.errReply e, s1)
  | .other _ => (⟨"err BadCommand\n", []⟩, s)

/-- The numbers of a request are values of `uint64_t`. -/
def Request.WellTyped : Request → Prop
  | .get needleId => needleId < 2 ^ 64
  | .put volumeId needleId nBytes _ => volumeId < 2 ^ 64 ∧ needleId < 2 ^ 64 ∧ nBytes < 2 ^ 64
  | .delete needleId => needleId < 2 ^ 64
  | .other _ => True

/-- The states of a running `Store`: the one `Run` sets up, and those reached from
it by serving requests. -/
inductive Store.Reachable : Store → Prop where
  | init (disk : Nat → List Byte) : Store.Reachable (Store.new.RunInit disk)
  | step (s : Store) (req : Request) :
      Store.Reachable s → req.WellTyped → Store.Reachable (s.HandleConnection req).2

/-! ## Specification-side definitions: the records of a volume and the invariants -/

/-- A record of a volume file: its header and its payload. -/
abbrev Rec := NeedleFlags × List Byte

/-- The bytes of one record. -/
def recBytes (r : Rec) : List Byte := encodeFlags r.1 ++ r.2

/-- The bytes of a sequence of records, one after the other. -/
def layout : List Rec → List Byte
  | [] => []
  | r :: rs => recBytes r ++ layout rs

/-- A record whose header fields are 64-bit values and whose payload has the
length its header states. -/
def RecOK (r : Rec) : Prop := r.1.id < 2 ^ 64 ∧ r.1.size < 2 ^ 64 ∧ r.2.length = r.1.size

/-- The descriptors a scan starting at `pos` produces for the records `rs`. -/
def descr (id : Nat) : Nat → List Rec → List Needle
  | _, [] => []
  | pos, r :: rs => ⟨id, pos, r.1⟩ :: descr id (pos + kFlagsSize + r.1.size) rs

/-- The record with its header tombstoned. -/
def tomb (r : Rec) : Rec := ({ r.1 with isDeleted := 1 }, r.2)

/-- The header fields a tombstone leaves alone. -/
def shape (r : Rec) : Nat × Nat := (r.1.id, r.1.size)

/-- The number of bytes records of the given ids and sizes occupy. -/
def span : List (Nat × Nat) → Nat
  | [] => 0
  | p :: ps => kFlagsSize + p.2 + span ps

/-- The record as `Haystack::Delete` leaves it. -/
def tombIf (r : Rec) : Rec := if r.1.isDeleted = 0 then tomb r else r

/-- The volume after a record has been appended by `Haystack::Write`. -/
def Haystack.grown (h : Haystack) (r : Rec) : Haystack :=
  { h with file := h.file ++ recBytes r,
           currentSize := h.currentSize + kFlagsSize + r.1.size,
           isReadOnly := decide (h.currentSize + kFlagsSize + r.1.size ≥ h.maxSize) }

/-- A volume of the store whose file consists of the records `rs`. -/
structure VolInv (h : Haystack) (rs : List Rec) : Prop where
  file : h.file = layout rs
  len : h.file.length = h.currentSize
  le : h.currentSize ≤ h.maxSize
  max : h.maxSize = kMaxVolumeSize
  ok : ∀ r ∈ rs, RecOK r
  ro : h.isReadOnly = decide (h.currentSize ≥ h.maxSize)

/-- The descriptor `n` addresses one of the records `rs` and carries its id and size. -/
def PointsTo (rs : List Rec) (n : Needle) : Prop :=
  ∃ pre post, rs.map shape = pre ++ (n.flags.id, n.flags.size) :: post ∧ n.offset = span pre

/-- The store holds `kVolumes` volumes, volume `i` has id `i` and consists of the
records `g i`, and every descriptor of the index addresses a record of its volume. -/
structure Store.Inv (s : Store) (g : Nat → List Rec) : Prop where
  size : s.hayStacks.length = kVolumes
  vol : ∀ i hs, s.hayStacks[i]? = some hs → hs.id = i ∧ VolInv hs (g i)
  idx : ∀ e ∈ s.needles.hMap,
    e.2.haystackId < kVolumes ∧ PointsTo (g e.2.haystackId) e.2 ∧ e.2.flags.id = e.1

/-! ## Specification-side definitions: the history of one volume -/

/-- The needles `n` and `m` describe the same record: they agree on everything but
the `isDeleted` flag. -/
def Needle.sameRecord (n m : Needle) : Prop :=
  n.haystackId = m.haystackId ∧ n.offset = m.offset ∧ n.flags.id = m.flags.id ∧
    n.flags.size = m.flags.size

/-- The needles returned so far, the one at `offset` now marked as deleted. -/
def markDeleted (offset : Nat) (ns : List Needle) : List Needle :=
  ns.map fun m => if m.offset = offset then { m with flags := { m.flags with isDeleted := 1 } } else m

/-- The volume `h` was created empty with id `id` and maximum size `M` and has since
seen successful `Write`s, each of a payload of `size` bytes and leaving a file
whose length a `uint64_t` can hold, and successful `Delete`s of needles those
`Write`s returned; `ns` lists the needles the `Write`s returned, in order, with
`isDeleted = 1` for the deleted ones.  (Calls that throw a `HaystackErr`, `Read`,
`Needles` and `FreeCount` leave the volume as it is.) -/
inductive Haystack.Hist (id M : Nat) : Haystack → List Needle → Prop where
  | create (disk : List Byte) : Haystack.Hist id M (Haystack.new id disk M false) []
  | write (h : Haystack) (ns : List Needle) (needleId : Nat) (buff : List Byte) (size : Nat)
      (n : Needle) (h1 : Haystack) :
      Haystack.Hist id M h ns → needleId < 2 ^ 64 → size ≤ buff.length →
      h.Write needleId buff size = (.ok n, h1) → h1.file.length < 2 ^ 64 →
      Haystack.Hist id M h1 (ns ++ [n])
  | delete (h : Haystack) (ns : List Needle) (n m n1 : Needle) (h1 : Haystack) :
      Haystack.Hist id M h ns → m ∈ ns → n.sameRecord m →
      h.Delete n = (.ok (), n1, h1) →
      Haystack.Hist id M h1 (markDeleted n.offset ns)

/-- A volume whose file consists of the records `rs`. -/
structure Tiled (h : Haystack) (rs : List Rec) : Prop where
  file : h.file = layout rs
  len : h.file.length = h.currentSize
  cs : h.currentSize < 2 ^ 64
  ok : ∀ r ∈ rs, RecOK r

/-- The descriptors `ds` tile `[start, stop)`: each begins where the record before it
ends. -/
def Tiles : Nat → List Needle → Nat → Prop
  | start, [], stop => start = stop
  | start, d :: ds, stop => d.offset = start ∧ Tiles (start + kFlagsSize + d.flags.size) ds stop

/-! ## Sequences of calls on one volume -/

/-- A call of one of the public methods of `Haystack`. -/
inductive Op where
  | Write (needleId : Nat) (buff : List Byte) (size : Nat)
  | Read (needle : Needle)
  | Delete (needle : Needle)
  | Needles (fuel : Nat)
  | FreeCount

/-- The volume after a call (`Read`, `Needles` and `FreeCount` do not change it). -/
def Haystack.step (h : Haystack) : Op → Haystack
  | .Write needleId buff size => (h.Write needleId buff size).2
  | .Delete needle => (h.Delete needle).2.2
  | .Read _ => h
  | .Needles _ => h
  | .FreeCount => h

/-- The volume after a sequence of calls. -/
def Haystack.run (h : Haystack) (ops : List Op) : Haystack := ops.foldl Haystack.step h

/-! ## AsyncMap against a reference map -/

/-- The reference map of the specification: a finite map, given by the value it
holds for each key. -/
abbrev RefMap (κ ν : Type) := κ → Option ν

/-- The reference `Get(k, out)`: true and `m[k]` in `out` when `k` is present, false
and `out` untouched when it is absent. -/
def RefMap.Get {κ ν : Type} (m : RefMap κ ν) (k : κ) (out : ν) : Bool × ν :=
  match m k with
  | some v => (true, v)
  | none => (false, out)

/-- The reference `Put(k, v)`: true and `m[k] = v` when `k` is absent, otherwise false
and the map unchanged. -/
def RefMap.Put {κ ν : Type} [DecidableEq κ] (m : RefMap κ ν) (k : κ) (v : ν) :
    Bool × RefMap κ ν :=
  match m k with
  | none => (true, fun x => if x = k then some v else m x)
  | some _ => (false, m)

/-- The reference `Remove(k)`: true and `k` erased when `k` is present, false
otherwise. -/
def RefMap.Remove {κ ν : Type} [DecidableEq κ] (m : RefMap κ ν) (k : κ) :
    Bool × RefMap κ ν :=
  match m k with
  | some _ => (true, fun x => if x = k then none else m x)
  | none => (false, m)

/-- A call of one of the methods of a map. -/
inductive MapCall (κ ν : Type) where
  | Get (key : κ) (value : ν)
  | Put (key : κ) (value : ν)
  | Remove (key : κ)

/-- What a call of a map hands back: the returned flag, and for `Get` the content of
`value` afterwards. -/
inductive MapReturn (ν : Type) where
  | Get (found : Bool) (value : ν)
  | Put (inserted : Bool)
  | Remove (removed : Bool)
  deriving DecidableEq, Repr

/-- One call on an `AsyncMap`. -/
def AsyncMap.call {κ ν : Type} [DecidableEq κ] (m : AsyncMap κ ν) :
    MapCall κ ν → MapReturn ν × AsyncMap κ ν
  | .Get key value => (.Get (m.Get key value).1 (m.Get key value).2, m)
  | .Put key value => (.Put (m.Put key value).1, (m.Put key value).2)
  | .Remove key => (.Remove (m.Remove key).1, (m.Remove key).2)

/-- A sequence of calls on an `AsyncMap`: what they hand back, and the map afterwards. -/
def AsyncMap.calls {κ ν : Type} [DecidableEq κ] (m : AsyncMap κ ν) :
    List (MapCall κ ν) → List (MapReturn ν) × AsyncMap κ ν
  | [] => ([], m)
  | c :: cs => ((m.call c).1 :: ((m.call c).2.calls cs).1, ((m.call c).2.calls cs).2)

/-- One call on the reference map. -/
def RefMap.call {κ ν : Type} [DecidableEq κ] (m : RefMap κ ν) :
    MapCall κ ν → MapReturn ν × RefMap κ ν
  | .Get key value => (.Get (RefMap.Get m key value).1 (RefMap.Get m key value).2, m)
  | .Put key value => (.Put (RefMap.Put m key value).1, (RefMap.Put m key value).2)
  | .Remove key => (.Remove (RefMap.Remove m key).1, (RefMap.Remove m key).2)

/-- A sequence of calls on the reference map. -/
def RefMap.calls {κ ν : Type} [DecidableEq κ] (m : RefMap κ ν) :
    List (MapCall κ ν) → List (MapReturn ν) × RefMap κ ν
  | [] => ([], m)
  | c :: cs =>
    ((RefMap.call m c).1 :: (RefMap.calls (RefMap.call m c).2 cs).1,
      (RefMap.calls (RefMap.call m c).2 cs).2)

/-- The reference map an `AsyncMap` stands for. -/
def AsyncMap.toRef {κ ν : Type} [DecidableEq κ] (m : AsyncMap κ ν) : RefMap κ ν :=
  fun k => (m.find k).map Prod.snd

/-! ## directory.hh, directory.cc -/

/-- The class `Directory`: its two counters, a `std::atomic_int` and a
`std::atomic_llong` (addresses and database names left out). -/
structure Directory where
  volumeCounter : Int
  idCounter : Int
  deriving DecidableEq, Repr

/-- The constant `Directory::kVolumes`. -/
def Directory.kVolumes : Nat := 5

/-- The constructor of `Directory`. -/
def Directory.new : Directory := ⟨0, 0⟩

/-- What `redisCommand` hands back: a null pointer, a reply of type
`REDIS_REPLY_STRING` with its bytes, or a reply of another type. -/
inductive RedisReply where
  | null
  | string (str : List Byte)
  | other
  deriving DecidableEq, Repr

/-- A command sent to Redis. -/
inductive RedisCommand where
  | GET (key : String)
  | SET (key : String) (value : List Byte)
  | DEL (key : String)
  deriving DecidableEq, Repr

/-- What the store sends back to `get <needleId>`: the first line, the status word
and the number `iss >> status >> nBytes` extracts from it, and the bytes that
follow the line. -/
structure StoreAnswer where
  line : String
  status : String
  nBytes : Nat
  payload : List Byte

/-- What one call of `Cache::Get` does: its reply to the client, the commands it sends
to Redis, and the request lines it sends to the store. -/
structure CacheTrace where
  reply : Reply
  redis : List RedisCommand
  store : List String
  deriving DecidableEq, Repr

/-- The constant `Cache::kBuffSize`. -/
def Cache.kBuffSize : Nat := 2 ^ 20

/-- The method `Cache::Get`.  `connected` tells whether `ConnectToRedis` returns a
context (it throws otherwise), `rp` is what Redis hands back for `GET`, and
`answer` is what the store sends back when it is asked. -/
def Cache.Get (connected : Bool) (rp : RedisReply) (answer : StoreAnswer) (needleId : String) :
    CacheTrace :=
  if !connected then
    ⟨⟨"err Unknown\n", []⟩, [], []⟩
  else
    match rp with
    | .null => ⟨⟨"err RedisErr\n", []⟩, [.GET needleId], []⟩
    | .string str => ⟨⟨"ok " ++ toString str.length ++ "\n", str⟩, [.GET needleId], []⟩
    | .other =>
      if answer.status ≠ "ok" then
        ⟨⟨answer.line ++ "\n", []⟩, [.GET needleId], ["get " ++ needleId ++ "\n"]⟩
      else if answer.nBytes > Cache.kBuffSize then
        ⟨⟨"err TooBig\n", []⟩, [.GET needleId], ["get " ++ needleId ++ "\n"]⟩
      else
        ⟨⟨"ok " ++ toString answer.nBytes ++ "\n", answer.payload.take answer.nBytes⟩,
          [.GET needleId, .SET needleId (answer.payload.take answer.nBytes)],
          ["get " ++ needleId ++ "\n"]⟩

/-! ## Bytes and files: basic facts -/

theorem wrap64_of_lt {n : Nat} (h : n < 2 ^ 64) : wrap64 n = n := Nat.mod_eq_of_lt h

theorem sub64_of_le {a b : Nat} (hb : b ≤ a) (ha : a < 2 ^ 64) : sub64 a b = a - b := by
  unfold sub64
  have h1 : b % 2 ^ 64 = b := Nat.mod_eq_of_lt (by omega)
  rw [h1]
  omega

theorem fromLe_le64 {n : Nat} (h : n < 2 ^ 64) : fromLe (le64 n) = n := by
  simp only [le64, fromLe, byteOf]
  norm_num at h ⊢
  omega

theorem le64_length (n : Nat) : (le64 n).length = 8 := rfl

theorem encodeFlags_length (nf : NeedleFlags) : (encodeFlags nf).length = kFlagsSize := rfl

theorem decodeFlags_encodeFlags (nf : NeedleFlags) (hid : nf.id < 2 ^ 64) (hsz : nf.size < 2 ^ 64) :
    decodeFlags (encodeFlags nf) = nf := by
  have h1 : fromLe (le64 nf.id) = nf.id := fromLe_le64 hid
  have h2 : fromLe (le64 nf.size) = nf.size := fromLe_le64 hsz
  cases nf with
  | mk id size del =>
    simp only [decodeFlags, encodeFlags, le64, kDeletedOffset] at *
    simp only [List.cons_append, List.nil_append, List.take_succ_cons, List.take_zero,
      List.drop_succ_cons, List.drop_zero, List.getD_cons_succ, List.getD_cons_zero]
    rw [h1, h2]

/-- Reading the header back after the `isDeleted` byte has been overwritten. -/
theorem decodeFlags_writeAt (nf : NeedleFlags) (b : Byte) (hid : nf.id < 2 ^ 64)
    (hsz : nf.size < 2 ^ 64) :
    decodeFlags (writeAt (encodeFlags nf) kDeletedOffset [b]) = { nf with isDeleted := b } := by
  have h := decodeFlags_encodeFlags { nf with isDeleted := b } hid hsz
  have e : writeAt (encodeFlags nf) kDeletedOffset [b] = encodeFlags { nf with isDeleted := b } := by
    simp [writeAt, encodeFlags, le64, kDeletedOffset]
  rw [e, h]

theorem writeAt_length_eq (f : List Byte) (bs : List Byte) : writeAt f f.length bs = f ++ bs := by
  simp [writeAt]

theorem writeAt_append (pre mid post bs : List Byte) (h : bs.length = mid.length) :
    writeAt (pre ++ mid ++ post) pre.length bs = pre ++ bs ++ post := by
  simp [writeAt, h]

theorem writeAt_mid (A M B : List Byte) (k : Nat) (bs : List Byte)
    (h : k + bs.length ≤ M.length) :
    writeAt (A ++ M ++ B) (A.length + k) bs = A ++ writeAt M k bs ++ B := by
  have hk : k ≤ M.length := by omega
  have t1 : List.take (A.length + k) (A ++ M ++ B) = A ++ List.take k M := by
    rw [List.append_assoc, List.take_append, List.take_append_of_le_length hk]
  have d1 : List.drop (A.length + k + bs.length) (A ++ M ++ B)
      = List.drop (k + bs.length) M ++ B := by
    rw [List.append_assoc, Nat.add_assoc, List.drop_append, List.drop_append_of_le_length h]
  have r1 : A.length + k - (A ++ M ++ B).length = 0 := by
    simp only [List.length_append]; omega
  have r2 : k - M.length = 0 := by omega
  unfold writeAt
  rw [t1, d1, r1, r2]
  simp

theorem readAt_append (pre mid post : List Byte) :
    readAt (pre ++ mid ++ post) pre.length mid.length = some mid := by
  simp [readAt, readSome]

theorem layout_append (xs ys : List Rec) : layout (xs ++ ys) = layout xs ++ layout ys := by
  induction xs with
  | nil => rfl
  | cons x xs ih => simp [layout, ih]

theorem recBytes_length (r : Rec) (h : RecOK r) : (recBytes r).length = kFlagsSize + r.1.size := by
  simp [recBytes, encodeFlags_length, h.2.2]

theorem descr_append (id pos : Nat) (xs ys : List Rec) (hx : ∀ r ∈ xs, RecOK r) :
    descr id pos (xs ++ ys) = descr id pos xs ++ descr id (pos + (layout xs).length) ys := by
  induction xs generalizing pos with
  | nil => simp [descr, layout]
  | cons x xs ih =>
    have hx1 : RecOK x := hx x (List.mem_cons_self _ _)
    have hx2 : ∀ r ∈ xs, RecOK r := fun r hr => hx r (List.mem_cons_of_mem _ hr)
    show descr id pos (x :: (xs ++ ys)) = _
    simp only [descr, layout, List.length_append, recBytes_length x hx1]
    rw [ih _ hx2]
    simp [Nat.add_assoc]

/-! ## Haystack operations on a file with known content -/

theorem Haystack.Write_noFit (h : Haystack) (needleId : Nat) (buff : List Byte) (size : Nat)
    (hg : h.isReadOnly = true ∨ wrap64 (h.currentSize + kFlagsSize + size) > h.maxSize) :
    h.Write needleId buff size = (.error (.haystackErr .NoFit), h) := by
  unfold Haystack.Write
  rw [if_pos hg]

theorem Haystack.Write_fits (h : Haystack) (needleId : Nat) (buff : List Byte) (size : Nat)
    (hro : h.isReadOnly = false) (hfit : h.currentSize + kFlagsSize + size ≤ h.maxSize)
    (hmax : h.maxSize < 2 ^ 64) (hlen : h.file.length = h.currentSize) (hsz : size < 2 ^ 63) :
    h.Write needleId buff size =
      (.ok (Needle.new h.id h.currentSize needleId size),
        { h with file := h.file ++ encodeFlags (NeedleFlags.new needleId size) ++ buff.take size,
                 currentSize := h.currentSize + kFlagsSize + size,
                 isReadOnly := decide (h.currentSize + kFlagsSize + size ≥ h.maxSize) }) := by
  have w1 : wrap64 (h.currentSize + kFlagsSize + size) = h.currentSize + kFlagsSize + size :=
    wrap64_of_lt (by omega)
  have w2 : wrap64 (kFlagsSize + size) = kFlagsSize + size := wrap64_of_lt (by omega)
  have w3 : wrap64 (h.currentSize + (kFlagsSize + size)) = h.currentSize + kFlagsSize + size := by
    rw [← Nat.add_assoc]; exact w1
  have hg : ¬ (h.isReadOnly = true ∨ wrap64 (h.currentSize + kFlagsSize + size) > h.maxSize) := by
    rw [w1, hro]; simp; omega
  unfold Haystack.Write
  rw [if_neg hg, if_neg (Nat.not_le.mpr hsz)]
  simp only [w2, w3, Needle.new]
  have f1 : writeAt h.file h.currentSize (encodeFlags (NeedleFlags.new needleId size))
      = h.file ++ encodeFlags (NeedleFlags.new needleId size) := by
    rw [← hlen]; exact writeAt_length_eq _ _
  have f2 : writeAt (h.file ++ encodeFlags (NeedleFlags.new needleId size))
      (h.currentSize + kFlagsSize) (buff.take size)
      = h.file ++ encodeFlags (NeedleFlags.new needleId size) ++ buff.take size := by
    have : (h.file ++ encodeFlags (NeedleFlags.new needleId size)).length
        = h.currentSize + kFlagsSize := by
      simp [hlen, encodeFlags_length]
    rw [← this]; exact writeAt_length_eq _ _
  rw [f1, f2]

theorem Haystack.Read_at (h : Haystack) (n : Needle) (A B : List Byte) (nf : NeedleFlags)
    (hfile : h.file = A ++ encodeFlags nf ++ B) (hoff : n.offset = A.length)
    (hid : n.haystackId = h.id) (hlen : h.file.length = h.currentSize)
    (hcs : h.currentSize < 2 ^ 64) (h1 : nf.id < 2 ^ 64) (h2 : nf.size < 2 ^ 64) :
    h.Read n =
      if B = [] ∨ nf.isDeleted ≠ 0 ∨ nf.id ≠ n.flags.id ∨ nf.size ≠ n.flags.size then
        .error (.haystackErr .BadNeedle)
      else .ok (B.take nf.size) := by
  have hl : h.currentSize = A.length + kFlagsSize + B.length := by
    rw [← hlen, hfile]; simp only [List.length_append, encodeFlags_length]
  have hs : sub64 h.currentSize kFlagsSize = A.length + B.length := by
    rw [sub64_of_le (by omega) hcs]; omega
  have hr : readAt h.file n.offset kFlagsSize = some (encodeFlags nf) := by
    rw [hfile, hoff, ← encodeFlags_length nf]; exact readAt_append _ _ _
  have hp : readSome h.file (n.offset + kFlagsSize) nf.size = B.take nf.size := by
    rw [hfile, hoff]
    simp [readSome, encodeFlags_length]
  unfold Haystack.Read
  by_cases hB : B = []
  · have : n.haystackId ≠ h.id ∨ n.offset ≥ sub64 h.currentSize kFlagsSize := by
      right; rw [hs, hoff, hB]; simp
    rw [if_pos this, if_pos (Or.inl hB)]
  · have hBl : 0 < B.length := List.length_pos.mpr hB
    have : ¬ (n.haystackId ≠ h.id ∨ n.offset ≥ sub64 h.currentSize kFlagsSize) := by
      rw [hs, hoff]
      intro hc
      rcases hc with hc | hc
      · exact hc hid
      · omega
    rw [if_neg this, hr]
    simp only [decodeFlags_encodeFlags nf h1 h2, hp, hB, false_or]

theorem Haystack.Delete_at (h : Haystack) (n : Needle) (A B : List Byte) (nf : NeedleFlags)
    (hfile : h.file = A ++ encodeFlags nf ++ B) (hoff : n.offset = A.length)
    (hid : n.haystackId = h.id) (hlen : h.file.length = h.currentSize)
    (hcs : h.currentSize < 2 ^ 64) (h1 : nf.id < 2 ^ 64) (h2 : nf.size < 2 ^ 64)
    (hnid : nf.id = n.flags.id) :
    h.Delete n =
      (.ok (), { n with flags := { n.flags with isDeleted := 1 } },
        { h with file := if nf.isDeleted = 0 then A ++ encodeFlags { nf with isDeleted := 1 } ++ B
                         else h.file }) := by
  have hl : h.currentSize = A.length + kFlagsSize + B.length := by
    rw [← hlen, hfile]; simp only [List.length_append, encodeFlags_length]
  have hk : kFlagsSize = 24 := rfl
  have hd : kDeletedOffset = 16 := rfl
  have w1 : wrap64 (n.offset + kFlagsSize) = n.offset + kFlagsSize := wrap64_of_lt (by omega)
  have w2 : wrap64 (n.offset + kDeletedOffset) = n.offset + kDeletedOffset :=
    wrap64_of_lt (by omega)
  have hr : readAt h.file n.offset kFlagsSize = some (encodeFlags nf) := by
    rw [hfile, hoff, ← encodeFlags_length nf]; exact readAt_append _ _ _
  have hg : ¬ (n.haystackId ≠ h.id ∨ wrap64 (n.offset + kFlagsSize) > h.currentSize) := by
    rw [w1, hoff]
    intro hc
    rcases hc with hc | hc
    · exact hc hid
    · omega
  have hi : ¬ ((decodeFlags (encodeFlags nf)).id ≠ n.flags.id) := by
    rw [decodeFlags_encodeFlags nf h1 h2]; exact fun hc => hc hnid
  unfold Haystack.Delete
  rw [if_neg hg, hr]
  simp only [if_neg hi, w2]
  rw [decodeFlags_encodeFlags nf h1 h2]
  by_cases hz : nf.isDeleted = 0
  · simp only [hz, if_true]
    have : writeAt h.file (n.offset + kDeletedOffset) [1]
        = A ++ encodeFlags { nf with isDeleted := 1 } ++ B := by
      rw [hfile, hoff, writeAt_mid A (encodeFlags nf) B kDeletedOffset [1]
        (by rw [encodeFlags_length]; decide)]
      have e : writeAt (encodeFlags nf) kDeletedOffset [1]
          = encodeFlags { nf with isDeleted := 1 } := by
        simp [writeAt, encodeFlags, le64, kDeletedOffset]
      rw [e]
    rw [this]
  · simp only [hz, if_false]

theorem Haystack.NeedlesLoop_layout (h : Haystack) (rs : List Rec) :
    ∀ (A : List Byte) (fuel : Nat) (acc : List Needle),
      h.file = A ++ layout rs → (∀ r ∈ rs, RecOK r) → h.file.length = h.currentSize →
      h.currentSize < 2 ^ 64 → rs.length ≤ fuel →
      h.NeedlesLoop fuel A.length acc = .ok (acc ++ descr h.id A.length rs) := by
  induction rs with
  | nil =>
    intro A fuel acc hfile _ hlen _ _
    have hl : h.currentSize = A.length := by rw [← hlen, hfile]; simp [layout]
    unfold Haystack.NeedlesLoop
    rw [if_neg (by omega)]
    simp [descr]
  | cons r rs ih =>
    intro A fuel acc hfile hok hlen hcs hfuel
    have hr : RecOK r := hok r (List.mem_cons_self _ _)
    have hrs : ∀ x ∈ rs, RecOK x := fun x hx => hok x (List.mem_cons_of_mem _ hx)
    have hfile2 : h.file = A ++ encodeFlags r.1 ++ (r.2 ++ layout rs) := by
      rw [hfile]; simp [layout, recBytes]
    have hfile3 : h.file = (A ++ recBytes r) ++ layout rs := by
      rw [hfile]; simp [layout]
    have hl : h.currentSize = A.length + (kFlagsSize + r.1.size) + (layout rs).length := by
      rw [← hlen, hfile3]
      simp only [List.length_append, recBytes_length r hr]
    have hread : readAt h.file A.length kFlagsSize = some (encodeFlags r.1) := by
      rw [hfile2, ← encodeFlags_length r.1]; exact readAt_append _ _ _
    have hk : kFlagsSize = 24 := rfl
    obtain ⟨fuel1, rfl⟩ : ∃ k, fuel = k + 1 := ⟨fuel - 1, by simp at hfuel; omega⟩
    have w1 : wrap64 (kFlagsSize + r.1.size) = kFlagsSize + r.1.size := wrap64_of_lt (by omega)
    have w2 : wrap64 (A.length + (kFlagsSize + r.1.size)) = A.length + (kFlagsSize + r.1.size) :=
      wrap64_of_lt (by omega)
    have hnext : A.length + (kFlagsSize + r.1.size) = (A ++ recBytes r).length := by
      simp only [List.length_append, recBytes_length r hr]
    unfold Haystack.NeedlesLoop
    rw [if_pos (by omega)]
    simp only [hread, decodeFlags_encodeFlags r.1 hr.1 hr.2.1, w1, w2]
    rw [hnext, ih (A ++ recBytes r) fuel1 _ hfile3 hrs hlen hcs (by simp at hfuel; omega)]
    simp only [descr, List.append_assoc, List.singleton_append, ← hnext, Nat.add_assoc]

theorem Haystack.Needles_layout (h : Haystack) (rs : List Rec) (fuel : Nat)
    (hfile : h.file = layout rs) (hok : ∀ r ∈ rs, RecOK r) (hlen : h.file.length = h.currentSize)
    (hcs : h.currentSize < 2 ^ 64) (hfuel : rs.length ≤ fuel) :
    h.Needles fuel = .ok (descr h.id 0 rs) := by
  have := Haystack.NeedlesLoop_layout h rs [] fuel [] (by simpa using hfile) hok hlen hcs hfuel
  simpa [Haystack.Needles] using this

theorem kMaxVolumeSize_lt : kMaxVolumeSize < 2 ^ 64 := by
  norm_num [kMaxVolumeSize, kMaxFileSize]

theorem kMaxVolumeSize_twice : kMaxVolumeSize + kMaxVolumeSize + kFlagsSize < 2 ^ 64 := by
  norm_num [kMaxVolumeSize, kMaxFileSize, kFlagsSize]

theorem kMaxFileSize_le : kMaxFileSize ≤ kMaxVolumeSize := by
  norm_num [kMaxVolumeSize, kMaxFileSize]

theorem layout_length (rs : List Rec) (hok : ∀ r ∈ rs, RecOK r) :
    (layout rs).length = span (rs.map shape) := by
  induction rs with
  | nil => rfl
  | cons r rs ih =>
    have hr : RecOK r := hok r (List.mem_cons_self _ _)
    have hrs : ∀ x ∈ rs, RecOK x := fun x hx => hok x (List.mem_cons_of_mem _ hx)
    simp only [layout, List.length_append, recBytes_length r hr, List.map_cons, span, ih hrs,
      shape]

theorem shape_tombIf (r : Rec) : shape (tombIf r) = shape r := by
  unfold tombIf
  split <;> rfl

theorem RecOK_tombIf (r : Rec) (h : RecOK r) : RecOK (tombIf r) := by
  unfold tombIf
  split
  · exact h
  · exact h

theorem PointsTo.split {rs : List Rec} {n : Needle} (hp : PointsTo rs n)
    (hok : ∀ r ∈ rs, RecOK r) :
    ∃ pre r post, rs = pre ++ r :: post ∧ n.offset = (layout pre).length ∧
      r.1.id = n.flags.id ∧ r.1.size = n.flags.size := by
  obtain ⟨sp, spost, hmap, hoff⟩ := hp
  obtain ⟨pre, rest, hrs, hpre, hrest⟩ := List.map_eq_append_iff.mp hmap
  obtain ⟨r, post, hr, hshape, _⟩ := List.map_eq_cons_iff.mp hrest
  refine ⟨pre, r, post, by rw [hrs, hr], ?_, ?_, ?_⟩
  · have hokpre : ∀ x ∈ pre, RecOK x := fun x hx => hok x (by rw [hrs]; simp [hx])
    rw [layout_length pre hokpre, hpre, hoff]
  · exact congrArg Prod.fst hshape
  · exact congrArg Prod.snd hshape

theorem VolInv.cs_lt {h : Haystack} {rs : List Rec} (hv : VolInv h rs) :
    h.currentSize < 2 ^ 64 := by
  have := hv.le
  have := hv.max
  have := kMaxVolumeSize_lt
  omega

theorem VolInv.Delete {h : Haystack} {rs : List Rec} (hv : VolInv h rs) (n : Needle)
    (pre : List Rec) (r : Rec) (post : List Rec) (hrs : rs = pre ++ r :: post)
    (hoff : n.offset = (layout pre).length) (hid : n.haystackId = h.id)
    (hnid : r.1.id = n.flags.id) :
    h.Delete n = (.ok (), { n with flags := { n.flags with isDeleted := 1 } },
        { h with file := layout (pre ++ tombIf r :: post) }) ∧
      VolInv { h with file := layout (pre ++ tombIf r :: post) } (pre ++ tombIf r :: post) := by
  have hr : RecOK r := hv.ok r (by rw [hrs]; simp)
  have hfile : h.file = layout pre ++ encodeFlags r.1 ++ (r.2 ++ layout post) := by
    rw [hv.file, hrs, layout_append]; simp [layout, recBytes]
  have hD := Haystack.Delete_at h n (layout pre) (r.2 ++ layout post) r.1 hfile hoff hid hv.len
    hv.cs_lt hr.1 hr.2.1 hnid
  have hnew : (if r.1.isDeleted = 0 then
        layout pre ++ encodeFlags { r.1 with isDeleted := 1 } ++ (r.2 ++ layout post)
      else h.file) = layout (pre ++ tombIf r :: post) := by
    unfold tombIf
    split
    · rw [layout_append]; simp [layout, recBytes, tomb]
    · rw [hfile, layout_append]; simp [layout, recBytes]
  rw [hnew] at hD
  have hok' : ∀ x ∈ pre ++ tombIf r :: post, RecOK x := by
    intro x hx
    rcases List.mem_append.mp hx with hx | hx
    · exact hv.ok x (by rw [hrs]; simp [hx])
    · rcases List.mem_cons.mp hx with hx | hx
      · rw [hx]; exact RecOK_tombIf r hr
      · exact hv.ok x (by rw [hrs]; simp [hx])
  have hlen' : (layout (pre ++ tombIf r :: post)).length = h.currentSize := by
    rw [layout_length _ hok', ← hv.len, hv.file, layout_length _ hv.ok, hrs]
    simp [shape_tombIf]
  exact ⟨hD, ⟨rfl, hlen', hv.le, hv.max, hok', hv.ro⟩⟩

theorem VolInv.grown {h : Haystack} {rs : List Rec} (hv : VolInv h rs) (r : Rec) (hr : RecOK r)
    (hfit : h.currentSize + kFlagsSize + r.1.size ≤ h.maxSize) :
    VolInv (h.grown r) (rs ++ [r]) := by
  refine ⟨?_, ?_, hfit, hv.max, ?_, rfl⟩
  · show h.file ++ recBytes r = _
    rw [hv.file, layout_append]; simp [layout]
  · show (h.file ++ recBytes r).length = h.currentSize + kFlagsSize + r.1.size
    rw [List.length_append, recBytes_length r hr, hv.len]; omega
  · intro x hx
    rcases List.mem_append.mp hx with hx | hx
    · exact hv.ok x hx
    · rw [List.mem_singleton.mp hx]; exact hr

/-- What `Haystack::Write` does to a volume of the store. -/
theorem VolInv.Write {h : Haystack} {rs : List Rec} (hv : VolInv h rs) (needleId : Nat)
    (buff : List Byte) (size : Nat) (hsmall : size ≤ kMaxVolumeSize) :
    h.Write needleId buff size =
      if h.isReadOnly = true ∨ h.currentSize + kFlagsSize + size > h.maxSize then
        (.error (.haystackErr .NoFit), h)
      else
        (.ok (Needle.new h.id h.currentSize needleId size),
          h.grown (NeedleFlags.new needleId size, buff.take size)) := by
  have h1 := hv.le
  have h2 := hv.max
  have h3 := kMaxVolumeSize_twice
  have w1 : wrap64 (h.currentSize + kFlagsSize + size) = h.currentSize + kFlagsSize + size :=
    wrap64_of_lt (by omega)
  by_cases hg : h.isReadOnly = true ∨ h.currentSize + kFlagsSize + size > h.maxSize
  · rw [if_pos hg, Haystack.Write_noFit h needleId buff size (by rw [w1]; exact hg)]
  · rw [if_neg hg]
    have hro : h.isReadOnly = false := by
      cases hb : h.isReadOnly
      · rfl
      · exact absurd (Or.inl hb) hg
    have hfit : h.currentSize + kFlagsSize + size ≤ h.maxSize := by
      by_contra hc
      exact hg (Or.inr (by omega))
    rw [Haystack.Write_fits h needleId buff size hro hfit (by omega) hv.len (by omega)]
    simp [Haystack.grown, recBytes, NeedleFlags.new]

/-! ## The index -/

theorem AsyncMap.find_some {κ ν : Type} [DecidableEq κ] {m : AsyncMap κ ν} {key : κ} {e : κ × ν}
    (h : m.find key = some e) : e ∈ m.hMap ∧ e.1 = key := by
  unfold AsyncMap.find at h
  exact ⟨List.mem_of_find?_eq_some h, by simpa using List.find?_some h⟩

theorem AsyncMap.Get_none {κ ν : Type} [DecidableEq κ] {m : AsyncMap κ ν} {key : κ} (d : ν)
    (h : m.find key = none) : m.Get key d = (false, d) := by
  simp [AsyncMap.Get, h]

theorem AsyncMap.Get_some {κ ν : Type} [DecidableEq κ] {m : AsyncMap κ ν} {key : κ} (d : ν)
    {e : κ × ν} (h : m.find key = some e) : m.Get key d = (true, e.2) := by
  simp [AsyncMap.Get, h]

theorem AsyncMap.find_cons_self {κ ν : Type} [DecidableEq κ] (l : List (κ × ν)) (key : κ) (v : ν) :
    (AsyncMap.mk ((key, v) :: l)).find key = some (key, v) := by
  simp [AsyncMap.find]

theorem list_set_same {α : Type} (l : List α) (i : Nat) (a : α) (h : l[i]? = some a) :
    l.set i a = l := by
  apply List.ext_getElem?
  intro j
  rw [List.getElem?_set]
  by_cases hij : i = j
  · subst hij
    obtain ⟨hlt, _⟩ := List.getElem?_eq_some.mp h
    simp [hlt, h]
  · simp [hij]

/-! ## The invariant of the store -/

theorem Store.Inv.getVol {s : Store} {g : Nat → List Rec} (hI : s.Inv g) {i : Nat}
    (hi : i < kVolumes) : ∃ hs, s.hayStacks[i]? = some hs ∧ hs.id = i ∧ VolInv hs (g i) := by
  have hlt : i < s.hayStacks.length := by rw [hI.size]; exact hi
  exact ⟨s.hayStacks[i], List.getElem?_eq_getElem hlt, hI.vol i _ (List.getElem?_eq_getElem hlt)⟩

/-- Replacing volume `i` and its records keeps the volume part of the invariant. -/
theorem Store.Inv.setVol {s : Store} {g : Nat → List Rec} (hI : s.Inv g) (i : Nat)
    (hs1 : Haystack) (rs : List Rec) (hid : hs1.id = i) (hv : VolInv hs1 rs) :
    (s.hayStacks.set i hs1).length = kVolumes ∧
      ∀ j hs, (s.hayStacks.set i hs1)[j]? = some hs →
        hs.id = j ∧ VolInv hs (Function.update g i rs j) := by
  refine ⟨by rw [List.length_set]; exact hI.size, ?_⟩
  intro j hs hj
  rw [List.getElem?_set] at hj
  by_cases hij : i = j
  · subst hij
    rw [if_pos rfl] at hj
    split at hj
    · cases hj
      rw [Function.update_same]
      exact ⟨hid, hv⟩
    · cases hj
  · rw [if_neg hij] at hj
    rw [Function.update_noteq (Ne.symm hij)]
    exact hI.vol j hs hj

theorem PointsTo.append {rs : List Rec} {n : Needle} (hp : PointsTo rs n) (extra : List Rec) :
    PointsTo (rs ++ extra) n := by
  obtain ⟨pre, post, hmap, hoff⟩ := hp
  exact ⟨pre, post ++ extra.map shape, by rw [List.map_append, hmap]; simp, hoff⟩

theorem PointsTo.congr {rs rs1 : List Rec} {n : Needle} (hp : PointsTo rs n)
    (h : rs1.map shape = rs.map shape) : PointsTo rs1 n := by
  obtain ⟨pre, post, hmap, hoff⟩ := hp
  exact ⟨pre, post, by rw [h, hmap], hoff⟩

/-! ## The operations of the store under the invariant -/

theorem tomb_new_grown (hs : Haystack) (rs : List Rec) (hv : VolInv hs rs) (needleId size : Nat)
    (p : List Byte) :
    ({ hs.grown (NeedleFlags.new needleId size, p) with
        file := layout (rs ++ [tombIf (NeedleFlags.new needleId size, p)]) } : Haystack)
      = hs.grown (tomb (NeedleFlags.new needleId size, p)) := by
  have e : tombIf (NeedleFlags.new needleId size, p) = tomb (NeedleFlags.new needleId size, p) := by
    simp [tombIf, NeedleFlags.new]
  rw [e, layout_append]
  simp [Haystack.grown, layout, hv.file, tomb]

/-- What `Store::Put` does in a state satisfying the invariant. -/
theorem Store.Put_eq {s : Store} {g : Nat → List Rec} (hI : s.Inv g) (volumeId needleId : Nat)
    (buf : List Byte) (size : Nat) (hvol : volumeId < kVolumes) (hid : needleId < 2 ^ 64)
    (hsz : size ≤ buf.length) (hsmall : size ≤ kMaxVolumeSize) :
    ∃ hs, s.hayStacks[volumeId]? = some hs ∧ hs.id = volumeId ∧ VolInv hs (g volumeId) ∧
      s.Put volumeId needleId buf size =
        if hs.isReadOnly = true ∨ hs.currentSize + kFlagsSize + size > hs.maxSize then
          (.error (.haystackErr .NoFit), s)
        else
          match s.needles.find needleId with
          | none =>
            (.ok (),
              { needles := ⟨(needleId, Needle.new volumeId hs.currentSize needleId size)
                  :: s.needles.hMap⟩,
                hayStacks := s.hayStacks.set volumeId
                  (hs.grown (NeedleFlags.new needleId size, buf.take size)) })
          | some _ =>
            (.error (.haystackErr .NoFit),
              { needles := s.needles,
                hayStacks := s.hayStacks.set volumeId
                  (hs.grown (tomb (NeedleFlags.new needleId size, buf.take size))) }) := by
  obtain ⟨hs, hget, hhid, hv⟩ := hI.getVol hvol
  refine ⟨hs, hget, hhid, hv, ?_⟩
  have hW := hv.Write needleId buf size hsmall
  unfold Store.Put
  rw [hget]
  simp only []
  by_cases hg : hs.isReadOnly = true ∨ hs.currentSize + kFlagsSize + size > hs.maxSize
  · rw [if_pos hg] at hW
    rw [if_pos hg, hW]
    simp only [list_set_same _ _ _ hget]
  · rw [if_neg hg] at hW
    rw [if_neg hg, hW]
    simp only []
    have hfit : hs.currentSize + kFlagsSize + size ≤ hs.maxSize := by
      by_contra hc
      exact hg (Or.inr (by omega))
    have hnew : RecOK (NeedleFlags.new needleId size, buf.take size) := by
      have := kMaxVolumeSize_twice
      refine ⟨hid, ?_, ?_⟩
      · show size < 2 ^ 64
        omega
      · show (buf.take size).length = size
        rw [List.length_take]; omega
    have hv1 := hv.grown (NeedleFlags.new needleId size, buf.take size) hnew hfit
    cases hf : s.needles.find needleId with
    | none =>
      simp only [AsyncMap.Put, hf, hhid]
    | some e =>
      simp only [AsyncMap.Put, hf]
      have hD := hv1.Delete (Needle.new hs.id hs.currentSize needleId size) (g volumeId)
        (NeedleFlags.new needleId size, buf.take size) [] rfl
        (by show hs.currentSize = _; rw [← hv.len, hv.file]) rfl rfl
      rw [hD.1]
      simp only [tomb_new_grown hs (g volumeId) hv]

/-- The call `Store::Put` keeps the invariant. -/
theorem Store.Inv.Put {s : Store} {g : Nat → List Rec} (hI : s.Inv g) (volumeId needleId : Nat)
    (buf : List Byte) (size : Nat) (hvol : volumeId < kVolumes) (hid : needleId < 2 ^ 64)
    (hsz : size ≤ buf.length) (hsmall : size ≤ kMaxVolumeSize) :
    ∃ g1, (s.Put volumeId needleId buf size).2.Inv g1 := by
  obtain ⟨hs, hget, hhid, hv, hP⟩ := Store.Put_eq hI volumeId needleId buf size hvol hid hsz hsmall
  rw [hP]
  by_cases hg : hs.isReadOnly = true ∨ hs.currentSize + kFlagsSize + size > hs.maxSize
  · rw [if_pos hg]
    exact ⟨g, hI⟩
  · rw [if_neg hg]
    have hfit : hs.currentSize + kFlagsSize + size ≤ hs.maxSize := by
      by_contra hc
      exact hg (Or.inr (by omega))
    have hnew : RecOK (NeedleFlags.new needleId size, buf.take size) := by
      have := kMaxVolumeSize_twice
      refine ⟨hid, ?_, ?_⟩
      · show size < 2 ^ 64
        omega
      · show (buf.take size).length = size
        rw [List.length_take]; omega
    have hold : ∀ (x : Rec), ∀ e ∈ s.needles.hMap, e.2.haystackId < kVolumes ∧
        PointsTo (Function.update g volumeId (g volumeId ++ [x]) e.2.haystackId) e.2 ∧
        e.2.flags.id = e.1 := by
      intro x e he
      obtain ⟨h1, h2, h3⟩ := hI.idx e he
      refine ⟨h1, ?_, h3⟩
      by_cases hev : e.2.haystackId = volumeId
      · rw [hev, Function.update_same]
        rw [hev] at h2
        exact h2.append _
      · rw [Function.update_noteq hev]
        exact h2
    cases hf : s.needles.find needleId with
    | none =>
      dsimp only
      have hv1 := hv.grown (NeedleFlags.new needleId size, buf.take size) hnew hfit
      obtain ⟨hsize, hvols⟩ := hI.setVol volumeId (hs.grown _) _ hhid hv1
      refine ⟨Function.update g volumeId (g volumeId ++ [(NeedleFlags.new needleId size,
        buf.take size)]), hsize, hvols, ?_⟩
      intro e he
      rcases List.mem_cons.mp he with he | he
      · subst he
        refine ⟨hvol, ?_, rfl⟩
        show PointsTo (Function.update g volumeId _ volumeId) _
        rw [Function.update_same]
        refine ⟨(g volumeId).map shape, [], by simp [shape, Needle.new], ?_⟩
        show hs.currentSize = _
        rw [← hv.len, hv.file, layout_length _ hv.ok]
      · exact hold _ e he
    | some e0 =>
      dsimp only
      have htomb : RecOK (tomb (NeedleFlags.new needleId size, buf.take size)) := hnew
      have hv1 := hv.grown (tomb (NeedleFlags.new needleId size, buf.take size)) htomb hfit
      obtain ⟨hsize, hvols⟩ := hI.setVol volumeId (hs.grown _) _ hhid hv1
      exact ⟨Function.update g volumeId (g volumeId ++ [tomb (NeedleFlags.new needleId size,
        buf.take size)]), hsize, hvols, hold _⟩

theorem Store.Remove_absent (s : Store) (needleId : Nat) (hf : s.needles.find needleId = none) :
    s.Remove needleId = (.error (.haystackErr .BadNeedle), s) := by
  simp [Store.Remove, AsyncMap.Get_none _ hf]

theorem Store.Get_absent (s : Store) (needleId : Nat) (hf : s.needles.find needleId = none) :
    s.Get needleId = .error (.haystackErr .BadNeedle) := by
  simp [Store.Get, AsyncMap.Get_none _ hf]

/-- What `Store::Remove` does for an id of the index in a state satisfying the
invariant. -/
theorem Store.Remove_present {s : Store} {g : Nat → List Rec} (hI : s.Inv g) (needleId : Nat)
    (e : Nat × Needle) (hf : s.needles.find needleId = some e) :
    ∃ hs pre r post, s.hayStacks[e.2.haystackId]? = some hs ∧ hs.id = e.2.haystackId ∧
      VolInv hs (g e.2.haystackId) ∧
      g e.2.haystackId = pre ++ r :: post ∧ e.2.offset = (layout pre).length ∧
      r.1.id = e.2.flags.id ∧ r.1.size = e.2.flags.size ∧
      s.Remove needleId = (.ok (), ⟨s.needles, s.hayStacks.set e.2.haystackId
        { hs with file := layout (pre ++ tombIf r :: post) }⟩) ∧
      Store.Inv ⟨s.needles, s.hayStacks.set e.2.haystackId
        { hs with file := layout (pre ++ tombIf r :: post) }⟩
        (Function.update g e.2.haystackId (pre ++ tombIf r :: post)) := by
  obtain ⟨hmem, _⟩ := AsyncMap.find_some hf
  obtain ⟨hlt, hpt, _⟩ := hI.idx e hmem
  obtain ⟨hs, hget, hhid, hv⟩ := hI.getVol hlt
  obtain ⟨pre, r, post, hrs, hoff, hrid, hrsz⟩ := hpt.split hv.ok
  have hD := hv.Delete e.2 pre r post hrs hoff hhid.symm hrid
  refine ⟨hs, pre, r, post, hget, hhid, hv, hrs, hoff, hrid, hrsz, ?_, ?_⟩
  · simp only [Store.Remove, AsyncMap.Get_some _ hf, hget, hD.1]
  · obtain ⟨hsize, hvols⟩ := hI.setVol e.2.haystackId
      ({ hs with file := layout (pre ++ tombIf r :: post) } : Haystack) _ hhid hD.2
    refine ⟨hsize, hvols, ?_⟩
    intro e1 he1
    obtain ⟨h1, h2, h3⟩ := hI.idx e1 he1
    refine ⟨h1, ?_, h3⟩
    by_cases hev : e1.2.haystackId = e.2.haystackId
    · rw [hev, Function.update_same]
      rw [hev] at h2
      exact h2.congr (by rw [hrs]; simp [shape_tombIf])
    · rw [Function.update_noteq hev]
      exact h2

/-- What `Store::Get` does for a descriptor of the index that addresses the record `r`. -/
theorem Store.Get_at {s : Store} {g : Nat → List Rec} (hI : s.Inv g) (needleId : Nat)
    (e : Nat × Needle) (hf : s.needles.find needleId = some e) (pre : List Rec) (r : Rec)
    (post : List Rec) (hrs : g e.2.haystackId = pre ++ r :: post)
    (hoff : e.2.offset = (layout pre).length) :
    s.Get needleId =
      if r.2 ++ layout post = [] ∨ r.1.isDeleted ≠ 0 ∨ r.1.id ≠ e.2.flags.id ∨
          r.1.size ≠ e.2.flags.size then .error (.haystackErr .BadNeedle)
      else .ok (e.2.flags.size, r.2) := by
  obtain ⟨hmem, _⟩ := AsyncMap.find_some hf
  obtain ⟨hlt, _, _⟩ := hI.idx e hmem
  obtain ⟨hs, hget, hhid, hv⟩ := hI.getVol hlt
  have hr : RecOK r := hv.ok r (by rw [hrs]; simp)
  have hfile : hs.file = layout pre ++ encodeFlags r.1 ++ (r.2 ++ layout post) := by
    rw [hv.file, hrs, layout_append]; simp [layout, recBytes]
  have hR := Haystack.Read_at hs e.2 (layout pre) (r.2 ++ layout post) r.1 hfile hoff hhid.symm
    hv.len hv.cs_lt hr.1 hr.2.1
  have htake : (r.2 ++ layout post).take r.1.size = r.2 := by
    rw [← hr.2.2]; simp
  simp only [Store.Get, AsyncMap.Get_some _ hf, hget, hR]
  by_cases hc : r.2 ++ layout post = [] ∨ r.1.isDeleted ≠ 0 ∨ r.1.id ≠ e.2.flags.id ∨
      r.1.size ≠ e.2.flags.size
  · simp only [if_pos hc]
  · simp only [if_neg hc, htake]

/-- What `Store::Get` does for an id of the index in a state satisfying the invariant. -/
theorem Store.Get_present {s : Store} {g : Nat → List Rec} (hI : s.Inv g) (needleId : Nat)
    (e : Nat × Needle) (hf : s.needles.find needleId = some e) :
    ∃ pre r post, g e.2.haystackId = pre ++ r :: post ∧ e.2.offset = (layout pre).length ∧
      r.1.id = e.2.flags.id ∧ r.1.size = e.2.flags.size ∧
      s.Get needleId =
        if r.2 ++ layout post = [] ∨ r.1.isDeleted ≠ 0 then .error (.haystackErr .BadNeedle)
        else .ok (r.1.size, r.2) := by
  obtain ⟨hmem, _⟩ := AsyncMap.find_some hf
  obtain ⟨hlt, hpt, _⟩ := hI.idx e hmem
  obtain ⟨hs, hget, hhid, hv⟩ := hI.getVol hlt
  obtain ⟨pre, r, post, hrs, hoff, hrid, hrsz⟩ := hpt.split hv.ok
  refine ⟨pre, r, post, hrs, hoff, hrid, hrsz, ?_⟩
  rw [Store.Get_at hI needleId e hf pre r post hrs hoff]
  by_cases hc : r.2 ++ layout post = [] ∨ r.1.isDeleted ≠ 0
  · have hc2 : r.2 ++ layout post = [] ∨ r.1.isDeleted ≠ 0 ∨ r.1.id ≠ e.2.flags.id ∨
        r.1.size ≠ e.2.flags.size := by
      rcases hc with hc | hc
      · exact Or.inl hc
      · exact Or.inr (Or.inl hc)
    rw [if_pos hc, if_pos hc2]
  · have hc2 : ¬ (r.2 ++ layout post = [] ∨ r.1.isDeleted ≠ 0 ∨ r.1.id ≠ e.2.flags.id ∨
        r.1.size ≠ e.2.flags.size) := by
      intro h
      rcases h with h | h | h | h
      · exact hc (Or.inl h)
      · exact hc (Or.inr h)
      · exact h hrid
      · exact h hrsz
    rw [if_neg hc, if_neg hc2, hrsz]

/-- The store `Store::Run` sets up: five empty volumes and an empty index. -/
theorem Store.RunInit_new (disk : Nat → List Byte) :
    Store.new.RunInit disk =
      ⟨⟨[]⟩, [⟨[], kMaxVolumeSize, 0, 0, false⟩, ⟨[], kMaxVolumeSize, 0, 1, false⟩,
        ⟨[], kMaxVolumeSize, 0, 2, false⟩, ⟨[], kMaxVolumeSize, 0, 3, false⟩,
        ⟨[], kMaxVolumeSize, 0, 4, false⟩]⟩ := rfl

theorem VolInv.fresh (i : Nat) : VolInv ⟨[], kMaxVolumeSize, 0, i, false⟩ [] :=
  ⟨rfl, rfl, Nat.zero_le _, rfl, fun _ h => absurd h (List.not_mem_nil _), by
    simp [kMaxVolumeSize, kMaxFileSize]⟩

theorem Store.Inv.init (disk : Nat → List Byte) : (Store.new.RunInit disk).Inv (fun _ => []) := by
  rw [Store.RunInit_new]
  refine ⟨rfl, ?_, ?_⟩
  · intro i hs h
    match i, h with
    | 0, h => cases h; exact ⟨rfl, VolInv.fresh 0⟩
    | 1, h => cases h; exact ⟨rfl, VolInv.fresh 1⟩
    | 2, h => cases h; exact ⟨rfl, VolInv.fresh 2⟩
    | 3, h => cases h; exact ⟨rfl, VolInv.fresh 3⟩
    | 4, h => cases h; exact ⟨rfl, VolInv.fresh 4⟩
    | n + 5, h => simp at h
  · intro e he
    exact absurd he (List.not_mem_nil _)

theorem Store.HandleConnection_get_state (s : Store) (needleId : Nat) :
    (s.HandleConnection (.get needleId)).2 = s := by
  show (match s.Get needleId with
    | .ok (nBytes, buf) => ((⟨"ok " ++ toString nBytes ++ "\n", buf.take nBytes⟩ : Reply), s)
    | .error e => (Store.errReply e, s)).2 = s
  split <;> rfl

theorem Store.HandleConnection_delete_state (s : Store) (needleId : Nat) :
    (s.HandleConnection (.delete needleId)).2 = (s.Remove needleId).2 := by
  show (match s.Remove needleId with
    | (.ok _, s1) => ((⟨"ok\n", []⟩ : Reply), s1)
    | (.error e, s1) => (Store.errReply e, s1)).2 = _
  split <;> simp_all

theorem Store.HandleConnection_put_state (s : Store) (volumeId needleId nBytes : Nat)
    (payload : List Byte) :
    (s.HandleConnection (.put volumeId needleId nBytes payload)).2 =
      if volumeId ≥ kVolumes ∨ nBytes > kMaxFileSize then s
      else (s.Put volumeId needleId (payload.take nBytes) (payload.take nBytes).length).2 := by
  show (if volumeId ≥ kVolumes then ((⟨"err BadHaystackId\n", []⟩ : Reply), s)
    else if nBytes > kMaxFileSize then ((⟨"err TooManyBytes\n", []⟩ : Reply), s)
    else
      match s.Put volumeId needleId (payload.take nBytes) (payload.take nBytes).length with
      | (.ok _, s1) => ((⟨"ok\n", []⟩ : Reply), s1)
      | (.error e, s1) => (Store.errReply e, s1)).2 = _
  by_cases h1 : volumeId ≥ kVolumes
  · rw [if_pos h1, if_pos (Or.inl h1)]
  · rw [if_neg h1]
    by_cases h2 : nBytes > kMaxFileSize
    · rw [if_pos h2, if_pos (Or.inr h2)]
    · rw [if_neg h2, if_neg (by simp [h1, h2])]
      split <;> simp_all

/-- Serving a request keeps the invariant. -/
theorem Store.Inv.HandleConnection {s : Store} {g : Nat → List Rec} (hI : s.Inv g) (req : Request)
    (hreq : req.WellTyped) : ∃ g1, (s.HandleConnection req).2.Inv g1 := by
  cases req with
  | get needleId =>
    rw [Store.HandleConnection_get_state]
    exact ⟨g, hI⟩
  | put volumeId needleId nBytes payload =>
    rw [Store.HandleConnection_put_state]
    by_cases h1 : volumeId ≥ kVolumes ∨ nBytes > kMaxFileSize
    · rw [if_pos h1]; exact ⟨g, hI⟩
    · rw [if_neg h1]
      have hlen : (payload.take nBytes).length ≤ kMaxVolumeSize := by
        have := kMaxFileSize_le
        rw [List.length_take]
        omega
      exact hI.Put volumeId needleId (payload.take nBytes)
        (payload.take nBytes).length (by omega) hreq.2.1 (Nat.le_refl _) hlen
  | delete needleId =>
    rw [Store.HandleConnection_delete_state]
    cases hf : s.needles.find needleId with
    | none =>
      rw [Store.Remove_absent s needleId hf]
      exact ⟨g, hI⟩
    | some e =>
      obtain ⟨hs, pre, r, post, _, _, _, _, _, _, _, hR, hInv⟩ :=
        Store.Remove_present hI needleId e hf
      rw [hR]
      exact ⟨_, hInv⟩
  | other command => exact ⟨g, hI⟩

/-- Every state of a running store satisfies the invariant. -/
theorem Store.Reachable.inv {s : Store} (h : s.Reachable) : ∃ g, s.Inv g := by
  induction h with
  | init disk => exact ⟨_, Store.Inv.init disk⟩
  | step s req _ hreq ih =>
    obtain ⟨g, hI⟩ := ih
    exact hI.HandleConnection req hreq

/-! ## Store: put, get and delete -/

theorem Store.HandleConnection_get_reply (s : Store) (needleId : Nat) (e : Fault)
    (h : s.Get needleId = .error e) :
    (s.HandleConnection (.get needleId)).1 = Store.errReply e := by
  show (match s.Get needleId with
    | .ok (nBytes, buf) => ((⟨"ok " ++ toString nBytes ++ "\n", buf.take nBytes⟩ : Reply), s)
    | .error e => (Store.errReply e, s)).1 = _
  rw [h]

theorem tombIf_deleted (r : Rec) : (tombIf r).1.isDeleted ≠ 0 := by
  unfold tombIf
  split
  · simp [tomb]
  · assumption

/-- C1 (the defect): in the store `Run` sets up, `Put(0, 7, buf, 0)` succeeds and the
`Get(7)` that follows throws `BadNeedle`: `Haystack::Read` rejects the record that
ends the file when its payload is empty. -/
theorem Store.put_get_empty_payload :
    ((Store.new.RunInit (fun _ => [])).Put 0 7 [] 0).1 = .ok () ∧
      ((Store.new.RunInit (fun _ => [])).Put 0 7 [] 0).2.Get 7
        = .error (.haystackErr .BadNeedle) :=
  ⟨rfl, rfl⟩

/-- Round trip for a payload that is not empty: a successful `Put` is followed by a
`Get` that returns the size and the bytes. -/
theorem Store.put_get_nonempty (s : Store) (hs : s.Reachable) (volumeId needleId : Nat)
    (payload : List Byte) (hvol : volumeId < kVolumes) (hid : needleId < 2 ^ 64)
    (hpos : 0 < payload.length) (hmax : payload.length ≤ kMaxFileSize)
    (hok : (s.Put volumeId needleId payload payload.length).1 = .ok ()) :
    (s.Put volumeId needleId payload payload.length).2.Get needleId
      = .ok (payload.length, payload) := by
  obtain ⟨g, hI⟩ := hs.inv
  have hle := kMaxFileSize_le
  obtain ⟨g1, hI1⟩ := hI.Put volumeId needleId payload payload.length hvol hid (Nat.le_refl _)
    (by omega)
  obtain ⟨h, hget, hhid, hv, hP⟩ := Store.Put_eq hI volumeId needleId payload payload.length
    hvol hid (Nat.le_refl _) (by omega)
  rw [List.take_length] at hP
  rw [hP] at hok hI1 ⊢
  by_cases hg : h.isReadOnly = true ∨ h.currentSize + kFlagsSize + payload.length > h.maxSize
  · rw [if_pos hg] at hok
    cases hok
  · rw [if_neg hg] at hok hI1 ⊢
    cases hf : s.needles.find needleId with
    | some e0 =>
      rw [hf] at hok
      cases hok
    | none =>
      rw [hf] at hI1
      dsimp only at hI1 ⊢
      have hlt : volumeId < s.hayStacks.length := by rw [hI.size]; exact hvol
      have hvol1 := (hI1.vol volumeId _ (List.getElem?_set_self hlt)).2
      have hfind := AsyncMap.find_cons_self s.needles.hMap needleId
        (Needle.new volumeId h.currentSize needleId payload.length)
      have hfile : (h.grown (NeedleFlags.new needleId payload.length, payload)).file
            = h.file ++ encodeFlags (NeedleFlags.new needleId payload.length) ++ payload := by
        simp [Haystack.grown, recBytes]
      have hR := Haystack.Read_at _ (Needle.new volumeId h.currentSize needleId payload.length)
        h.file payload (NeedleFlags.new needleId payload.length) hfile
        (by show h.currentSize = _; exact hv.len.symm) hhid.symm hvol1.len hvol1.cs_lt hid
        (by show payload.length < 2 ^ 64; have := kMaxVolumeSize_lt; omega)
      have hne : payload ≠ [] := List.length_pos.mp hpos
      simp only [Store.Get, AsyncMap.Get_some _ hfind]
      show (match (s.hayStacks.set volumeId _)[volumeId]? with
        | none => _
        | some hs => _) = _
      rw [List.getElem?_set_self hlt]
      dsimp only
      rw [hR]
      simp [Needle.new, NeedleFlags.new, hne]

/-- C2: in every state of a running store, when `Remove(needleId)` succeeds the
`Get(needleId)` that follows throws `BadNeedle`, and the reply to `get` is
`err BadNeedle`. -/
theorem Store.delete_hides (s : Store) (hs : s.Reachable) (needleId : Nat)
    (hok : (s.Remove needleId).1 = .ok ()) :
    (s.Remove needleId).2.Get needleId = .error (.haystackErr .BadNeedle) ∧
      ((s.Remove needleId).2.HandleConnection (.get needleId)).1 = ⟨"err BadNeedle\n", []⟩ := by
  obtain ⟨g, hI⟩ := hs.inv
  have key : (s.Remove needleId).2.Get needleId = .error (.haystackErr .BadNeedle) := by
    cases hf : s.needles.find needleId with
    | none =>
      rw [Store.Remove_absent s needleId hf] at hok
      cases hok
    | some e =>
      obtain ⟨h, pre, r, post, _, _, _, _, hoff, _, _, hR, hInv⟩ :=
        Store.Remove_present hI needleId e hf
      rw [hR]
      have hG := Store.Get_at hInv needleId e hf pre (tombIf r) post
        (by rw [Function.update_same]) hoff
      rw [hG, if_pos (Or.inr (Or.inl (tombIf_deleted r)))]
  exact ⟨key, Store.HandleConnection_get_reply _ _ _ key⟩

theorem Store.delete_hides_witness :
    (((Store.new.RunInit (fun _ => [])).HandleConnection (.put 0 7 3 [1, 2, 3])).2.Remove 7).1
        = .ok () ∧
      ((((Store.new.RunInit (fun _ => [])).HandleConnection (.put 0 7 3 [1, 2, 3])).2.Remove 7).2.Get 7
          = .error (.haystackErr .BadNeedle) ∧
        ((((Store.new.RunInit (fun _ => [])).HandleConnection
          (.put 0 7 3 [1, 2, 3])).2.Remove 7).2.HandleConnection (.get 7)).1
          = ⟨"err BadNeedle\n", []⟩) :=
  ⟨rfl,
    Store.delete_hides _
      (Store.Reachable.step _ (.put 0 7 3 [1, 2, 3]) (Store.Reachable.init _)
        ⟨by decide, by decide, by decide⟩) 7 rfl⟩

/-- C3 (the defect): after `put 0 7 3`, the request `delete 7` is answered `ok`, and
so is the `delete 7` that follows; the index still holds needle 7, because
`Store::Remove` never calls `needles.Remove`. -/
theorem Store.delete_twice :
    (((Store.new.RunInit (fun _ => [])).HandleConnection (.put 0 7 3 [1, 2, 3])).2.HandleConnection
        (.delete 7)).1 = ⟨"ok\n", []⟩ ∧
      ((((Store.new.RunInit (fun _ => [])).HandleConnection
        (.put 0 7 3 [1, 2, 3])).2.HandleConnection (.delete 7)).2.HandleConnection
        (.delete 7)).1 = ⟨"ok\n", []⟩ ∧
      ((((Store.new.RunInit (fun _ => [])).HandleConnection
        (.put 0 7 3 [1, 2, 3])).2.HandleConnection (.delete 7)).2.needles.Get 7 Needle.default).1
        = true :=
  ⟨rfl, rfl, rfl⟩

/-- In every state of a running store a `Remove` that succeeds can be repeated: the
second call succeeds as well and the id stays in the index. -/
theorem Store.remove_again (s : Store) (hs : s.Reachable) (needleId : Nat)
    (hok : (s.Remove needleId).1 = .ok ()) :
    ((s.Remove needleId).2.Remove needleId).1 = .ok () ∧
      (s.Remove needleId).2.needles.hMap = s.needles.hMap := by
  obtain ⟨g, hI⟩ := hs.inv
  cases hf : s.needles.find needleId with
  | none =>
    rw [Store.Remove_absent s needleId hf] at hok
    cases hok
  | some e =>
    obtain ⟨h, pre, r, post, _, _, _, _, _, _, _, hR, hInv⟩ :=
      Store.Remove_present hI needleId e hf
    rw [hR]
    obtain ⟨h2, pre2, r2, post2, _, _, _, _, _, _, _, hR2, _⟩ :=
      Store.Remove_present hInv needleId e hf
    rw [hR2]
    exact ⟨rfl, rfl⟩

theorem rec_count_le (rs : List Rec) (hok : ∀ r ∈ rs, RecOK r) : rs.length ≤ (layout rs).length := by
  induction rs with
  | nil => exact Nat.le_refl _
  | cons r rs ih =>
    have hr : RecOK r := hok r (List.mem_cons_self _ _)
    have hrs : ∀ x ∈ rs, RecOK x := fun x hx => hok x (List.mem_cons_of_mem _ hx)
    have := ih hrs
    have hk : kFlagsSize = 24 := rfl
    simp only [layout, List.length_append, List.length_cons, recBytes_length r hr]
    omega

/-- C4: in every state of a running store in which `needleId` is in the index, a
`Put` of that id into a volume with room for the record throws `NoFit`, leaves the
index as it was, and leaves the appended record tombstoned: the last descriptor of
the volume's `Needles()` has this id, the offset of the appended record and
`isDeleted = 1`. -/
theorem Store.duplicate_put (s : Store) (hs : s.Reachable) (volumeId needleId : Nat)
    (buf : List Byte) (size : Nat) (h : Haystack) (hvol : volumeId < kVolumes)
    (hid : needleId < 2 ^ 64) (hsz : size ≤ buf.length)
    (hget : s.hayStacks[volumeId]? = some h) (hro : h.isReadOnly = false)
    (hfit : h.currentSize + kFlagsSize + size ≤ h.maxSize)
    (hdup : (s.needles.Get needleId Needle.default).1 = true) :
    (s.Put volumeId needleId buf size).1 = .error (.haystackErr .NoFit) ∧
      (s.Put volumeId needleId buf size).2.needles.hMap = s.needles.hMap ∧
      (s.Put volumeId needleId buf size).2.needles.Get needleId Needle.default
        = s.needles.Get needleId Needle.default ∧
      ∃ h1, (s.Put volumeId needleId buf size).2.hayStacks[volumeId]? = some h1 ∧
        ∀ fuel, h1.currentSize ≤ fuel → ∃ ns, h1.Needles fuel = .ok ns ∧
          ns.getLast? = some ⟨volumeId, h.currentSize, ⟨needleId, size, 1⟩⟩ := by
  obtain ⟨g, hI⟩ := hs.inv
  have hv0 := (hI.vol volumeId h hget).2
  have hsmall : size ≤ kMaxVolumeSize := by
    have := hv0.max
    omega
  obtain ⟨h', hget', hhid, hv, hP⟩ := Store.Put_eq hI volumeId needleId buf size hvol hid hsz hsmall
  rw [hget] at hget'
  cases hget'
  have hg : ¬ (h.isReadOnly = true ∨ h.currentSize + kFlagsSize + size > h.maxSize) := by
    rw [hro]
    intro hc
    rcases hc with hc | hc
    · cases hc
    · omega
  rw [if_neg hg] at hP
  cases hf : s.needles.find needleId with
  | none =>
    rw [AsyncMap.Get_none _ hf] at hdup
    cases hdup
  | some e =>
    rw [hf] at hP
    rw [hP]
    refine ⟨rfl, rfl, rfl, h.grown (tomb (NeedleFlags.new needleId size, buf.take size)), ?_, ?_⟩
    · have hlt : volumeId < s.hayStacks.length := by rw [hI.size]; exact hvol
      exact List.getElem?_set_self hlt
    · intro fuel hfuel
      have hnew : RecOK (tomb (NeedleFlags.new needleId size, buf.take size)) := by
        have := kMaxVolumeSize_lt
        refine ⟨hid, ?_, ?_⟩
        · show size < 2 ^ 64
          omega
        · show (buf.take size).length = size
          rw [List.length_take]; omega
      have hv1 := hv.grown _ hnew hfit
      have hcount := rec_count_le _ hv1.ok
      rw [← hv1.file, hv1.len] at hcount
      have hN := Haystack.Needles_layout _ _ fuel hv1.file hv1.ok hv1.len hv1.cs_lt
        (Nat.le_trans hcount hfuel)
      refine ⟨_, hN, ?_⟩
      rw [descr_append _ _ _ _ hv.ok, ← hv.file, hv.len]
      simp only [descr, List.getLast?_concat, Nat.zero_add]
      show some (Needle.mk h.id h.currentSize ⟨needleId, size, 1⟩) = _
      rw [hhid]

theorem Store.duplicate_put_witness :
    (0 < kVolumes ∧ 7 < 2 ^ 64 ∧ 2 ≤ ([4, 5] : List Byte).length) ∧
      (((Store.new.RunInit (fun _ => [])).HandleConnection (.put 1 7 3 [1, 2, 3])).2.Put
          0 7 [4, 5] 2).1 = .error (.haystackErr .NoFit) := by
  have h := Store.duplicate_put
    ((Store.new.RunInit (fun _ => [])).HandleConnection (.put 1 7 3 [1, 2, 3])).2
    (Store.Reachable.step _ (.put 1 7 3 [1, 2, 3]) (Store.Reachable.init _)
      ⟨by decide, by decide, by decide⟩)
    0 7 [4, 5] 2 ⟨[], kMaxVolumeSize, 0, 0, false⟩ (by decide) (by decide) (by decide) rfl rfl
    (by decide) rfl
  exact ⟨⟨by decide, by decide, by decide⟩, h.1⟩

/-- C5: a `put` request whose volume id is not below `kVolumes` (5) is answered
`err BadHaystackId`; otherwise one whose size exceeds `kMaxFileSize` (1 MiB) is
answered `err TooManyBytes`; in both cases the store (index and volumes) is left as
it was. -/
theorem Store.put_validation (s : Store) (volumeId needleId nBytes : Nat) (payload : List Byte)
    (h : volumeId ≥ kVolumes ∨ nBytes > kMaxFileSize) :
    s.HandleConnection (.put volumeId needleId nBytes payload) =
        ((if volumeId ≥ kVolumes then ⟨"err BadHaystackId\n", []⟩
          else ⟨"err TooManyBytes\n", []⟩ : Reply), s) ∧
      kVolumes = 5 ∧ kMaxFileSize = 1048576 := by
  refine ⟨?_, rfl, rfl⟩
  show (if volumeId ≥ kVolumes then ((⟨"err BadHaystackId\n", []⟩ : Reply), s)
    else if nBytes > kMaxFileSize then ((⟨"err TooManyBytes\n", []⟩ : Reply), s)
    else
      match s.Put volumeId needleId (payload.take nBytes) (payload.take nBytes).length with
      | (.ok _, s1) => ((⟨"ok\n", []⟩ : Reply), s1)
      | (.error e, s1) => (Store.errReply e, s1)) = _
  by_cases h1 : volumeId ≥ kVolumes
  · rw [if_pos h1, if_pos h1]
  · have h2 : nBytes > kMaxFileSize := by
      rcases h with h | h
      · exact absurd h h1
      · exact h
    rw [if_neg h1, if_pos h2, if_neg h1]

theorem Store.put_validation_witness :
    ((0 : Nat) ≥ kVolumes ∨ 1048577 > kMaxFileSize) ∧
      ((Store.new.RunInit (fun _ => [])).HandleConnection (.put 0 0 1048577 []) =
          ((if (0 : Nat) ≥ kVolumes then ⟨"err BadHaystackId\n", []⟩
            else ⟨"err TooManyBytes\n", []⟩ : Reply), Store.new.RunInit (fun _ => [])) ∧
        kVolumes = 5 ∧ kMaxFileSize = 1048576) :=
  ⟨Or.inr (by decide),
    Store.put_validation (Store.new.RunInit (fun _ => [])) 0 0 1048577 [] (Or.inr (by decide))⟩

/-- C6 (as stated, refuted): `haystack_0` holds one live record (id 7, payload `[9]`),
as the scan and the read of the file opened with `fromFile = true` show, yet after the
initialisation of `Store::Run` the index is empty, the file is truncated and
`Get(7)` throws `BadNeedle`. -/
theorem Store.no_recovery_example :
    (Haystack.new 0 (encodeFlags ⟨7, 1, 0⟩ ++ [9]) kMaxVolumeSize true).Needles 1
        = .ok [⟨0, 0, ⟨7, 1, 0⟩⟩] ∧
      (Haystack.new 0 (encodeFlags ⟨7, 1, 0⟩ ++ [9]) kMaxVolumeSize true).Read ⟨0, 0, ⟨7, 1, 0⟩⟩
        = .ok [9] ∧
      (Store.new.RunInit (fun _ => encodeFlags ⟨7, 1, 0⟩ ++ [9])).needles.hMap = [] ∧
      (Store.new.RunInit (fun _ => encodeFlags ⟨7, 1, 0⟩ ++ [9])).hayStacks[0]?
        = some ⟨[], kMaxVolumeSize, 0, 0, false⟩ ∧
      (Store.new.RunInit (fun _ => encodeFlags ⟨7, 1, 0⟩ ++ [9])).Get 7
        = .error (.haystackErr .BadNeedle) :=
  ⟨rfl, rfl, rfl, rfl, rfl⟩

/-- C6 (amended): whatever the directory holds, the initialisation of `Store::Run`
creates the five volumes empty (an existing `haystack_i` is truncated) and leaves
the index empty, so `Get` of every id throws `BadNeedle`. -/
theorem Store.RunInit_empty (disk : Nat → List Byte) (needleId : Nat) :
    (Store.new.RunInit disk).needles.hMap = [] ∧
      (Store.new.RunInit disk).hayStacks.length = kVolumes ∧
      (∀ i hs, (Store.new.RunInit disk).hayStacks[i]? = some hs →
        hs = Haystack.new i (disk i) kMaxVolumeSize false ∧ hs.file = [] ∧ hs.currentSize = 0) ∧
      (Store.new.RunInit disk).Get needleId = .error (.haystackErr .BadNeedle) := by
  refine ⟨rfl, rfl, ?_, rfl⟩
  intro i hs h
  rw [Store.RunInit_new] at h
  match i, h with
  | 0, h => cases h; exact ⟨rfl, rfl, rfl⟩
  | 1, h => cases h; exact ⟨rfl, rfl, rfl⟩
  | 2, h => cases h; exact ⟨rfl, rfl, rfl⟩
  | 3, h => cases h; exact ⟨rfl, rfl, rfl⟩
  | 4, h => cases h; exact ⟨rfl, rfl, rfl⟩
  | n + 5, h => simp at h

/-! ## Haystack: Write -/

theorem writeAt_head_length (f : List Byte) (p : Nat) :
    (f.take p ++ List.replicate (p - f.length) 0).length = p := by
  simp only [List.length_append, List.length_take, List.length_replicate]
  omega

theorem writeAt_length (f : List Byte) (p : Nat) (bs : List Byte) :
    (writeAt f p bs).length = max f.length (p + bs.length) := by
  simp only [writeAt, List.length_append, List.length_take, List.length_replicate,
    List.length_drop]
  omega

theorem writeAt_writeAt (f : List Byte) (p : Nat) (a b : List Byte) :
    writeAt (writeAt f p a) (p + a.length) b = writeAt f p (a ++ b) := by
  have hp := writeAt_head_length f p
  have e1 : writeAt f p a
      = (f.take p ++ List.replicate (p - f.length) 0) ++ a ++ f.drop (p + a.length) := rfl
  have e2 : writeAt f p (a ++ b)
      = (f.take p ++ List.replicate (p - f.length) 0) ++ (a ++ b)
        ++ f.drop (p + (a ++ b).length) := rfl
  rw [e1, e2]
  generalize f.take p ++ List.replicate (p - f.length) 0 = P at hp
  have hPa : (P ++ a).length = p + a.length := by rw [List.length_append, hp]
  have t : List.take (p + a.length) (P ++ a ++ f.drop (p + a.length)) = P ++ a := by
    rw [← hPa, List.take_left']
    rfl
  have d : List.drop (p + a.length + b.length) (P ++ a ++ f.drop (p + a.length))
      = f.drop (p + (a ++ b).length) := by
    rw [← hPa, List.drop_append, List.drop_drop, hPa, List.length_append]
    congr 1
    omega
  have r : p + a.length - (P ++ a ++ f.drop (p + a.length)).length = 0 := by
    rw [List.length_append, hPa]; omega
  unfold writeAt
  rw [t, d, r]
  simp

/-- The call `Haystack::Write` throws `NoFit` exactly when its guard holds. -/
theorem Haystack.Write_noFit_iff (h : Haystack) (needleId : Nat) (buff : List Byte) (size : Nat) :
    (h.Write needleId buff size).1 = .error (.haystackErr .NoFit) ↔
      (h.isReadOnly = true ∨ wrap64 (h.currentSize + kFlagsSize + size) > h.maxSize) := by
  unfold Haystack.Write
  constructor
  · intro hW
    by_contra hg
    rw [if_neg hg] at hW
    split at hW <;> cases hW
  · intro hg
    rw [if_pos hg]

/-- C8: a `Write` that throws `NoFit` leaves the volume as it was: the same
`currentSize`, `isReadOnly` flag and file. -/
theorem Haystack.Write_noFit_unchanged (h : Haystack) (needleId : Nat) (buff : List Byte)
    (size : Nat) (hW : (h.Write needleId buff size).1 = .error (.haystackErr .NoFit)) :
    (h.Write needleId buff size).2 = h ∧
      (h.Write needleId buff size).2.currentSize = h.currentSize ∧
      (h.Write needleId buff size).2.isReadOnly = h.isReadOnly ∧
      (h.Write needleId buff size).2.file = h.file := by
  have hg := (Haystack.Write_noFit_iff h needleId buff size).mp hW
  rw [Haystack.Write_noFit h needleId buff size hg]
  exact ⟨rfl, rfl, rfl, rfl⟩

theorem Haystack.Write_noFit_unchanged_witness :
    ((Haystack.new 0 [] 20 false).Write 1 [5] 1).1 = .error (.haystackErr .NoFit) ∧
      ((Haystack.new 0 [] 20 false).Write 1 [5] 1).2 = Haystack.new 0 [] 20 false :=
  ⟨rfl, (Haystack.Write_noFit_unchanged (Haystack.new 0 [] 20 false) 1 [5] 1 rfl).1⟩

/-- C9 (the defect): on an empty volume with `maxSize = 1000`, `Write` with
`size = 2 ^ 64 - 24` does not throw `NoFit` although `currentSize + kFlagsSize + size`
exceeds `maxSize`: the guard computes the sum modulo `2 ^ 64`, which is 0.  The
call goes on, writes the header of the needle into the file, and ends in the
`std::ios_base::failure` of the payload write. -/
theorem Haystack.Write_fit_check_wraps (buff : List Byte) :
    (Haystack.new 0 [] 1000 false).currentSize + kFlagsSize + (2 ^ 64 - 24)
        > (Haystack.new 0 [] 1000 false).maxSize ∧
      2 ^ 64 - 24 < 2 ^ 64 ∧
      ((Haystack.new 0 [] 1000 false).Write 1 buff (2 ^ 64 - 24)).1 = .error .ioFailure ∧
      ((Haystack.new 0 [] 1000 false).Write 1 buff (2 ^ 64 - 24)).1
        ≠ .error (.haystackErr .NoFit) ∧
      ((Haystack.new 0 [] 1000 false).Write 1 buff (2 ^ 64 - 24)).2.file
        = encodeFlags ⟨1, 2 ^ 64 - 24, 0⟩ := by
  refine ⟨by decide, by decide, rfl, ?_, rfl⟩
  intro hc
  have e : ((Haystack.new 0 [] 1000 false).Write 1 buff (2 ^ 64 - 24)).1
      = .error .ioFailure := rfl
  rw [e] at hc
  cases hc

/-- C10 (the defect): a volume created empty with `maxSize = 0` has
`currentSize >= maxSize` and is not read-only, and `Write` with `size = 2 ^ 64 - 24`
does not throw `NoFit` on it: it passes the gate, writes the header of the needle
into the file, and ends in the `std::ios_base::failure` of the payload write. -/
theorem Haystack.Write_read_only_gate_open (buff : List Byte) :
    (Haystack.new 0 [] 0 false).currentSize ≥ (Haystack.new 0 [] 0 false).maxSize ∧
      (Haystack.new 0 [] 0 false).isReadOnly = false ∧
      ((Haystack.new 0 [] 0 false).Write 1 buff (2 ^ 64 - 24)).1 = .error .ioFailure ∧
      ((Haystack.new 0 [] 0 false).Write 1 buff (2 ^ 64 - 24)).1
        ≠ .error (.haystackErr .NoFit) ∧
      ((Haystack.new 0 [] 0 false).Write 1 buff (2 ^ 64 - 24)).2.file
        = encodeFlags ⟨1, 2 ^ 64 - 24, 0⟩ := by
  refine ⟨by decide, rfl, rfl, ?_, rfl⟩
  intro hc
  have e : ((Haystack.new 0 [] 0 false).Write 1 buff (2 ^ 64 - 24)).1
      = .error .ioFailure := rfl
  rw [e] at hc
  cases hc

/-! ## Haystack: Read and Delete on an arbitrary file -/

theorem readAt_some {f : List Byte} {p len : Nat} {bs : List Byte}
    (h : readAt f p len = some bs) :
    f = f.take p ++ bs ++ f.drop (p + len) ∧ (f.take p).length = p ∧ bs.length = len ∧
      p + len ≤ f.length := by
  unfold readAt at h
  by_cases hle : p + len ≤ f.length
  · rw [if_pos hle] at h
    simp only [Option.some.injEq, readSome] at h
    subst h
    refine ⟨?_, ?_, ?_, hle⟩
    · rw [List.append_assoc, ← List.drop_drop, List.take_append_drop, List.take_append_drop]
    · rw [List.length_take]; omega
    · rw [List.length_take, List.length_drop]; omega
  · rw [if_neg hle] at h
    cases h

/-- The header read from 24 bytes of which the `isDeleted` byte has been overwritten. -/
theorem decodeFlags_setDeleted (bs : List Byte) (hb : bs.length = kFlagsSize) (b : Byte) :
    (writeAt bs kDeletedOffset [b]).length = kFlagsSize ∧
      decodeFlags (writeAt bs kDeletedOffset [b]) = { decodeFlags bs with isDeleted := b } := by
  have hk : kFlagsSize = 24 := rfl
  rw [hk] at hb
  match bs, hb with
  | [b0, b1, b2, b3, b4, b5, b6, b7, b8, b9, b10, b11, b12, b13, b14, b15, b16, b17, b18, b19,
      b20, b21, b22, b23], _ =>
    exact ⟨rfl, rfl⟩

theorem writeAt_one (f : List Byte) (q : Nat) (b : Byte) (h : q < f.length) :
    writeAt f q [b] = f.set q b := by
  rw [List.set_eq_take_cons_drop b h]
  have : q - f.length = 0 := by omega
  simp [writeAt, this]

theorem decodeFlags_isDeleted (bs : List Byte) (hb : bs.length = kFlagsSize) :
    bs[kDeletedOffset]? = some (decodeFlags bs).isDeleted := by
  have hk : kFlagsSize = 24 := rfl
  rw [hk] at hb
  match bs, hb with
  | [b0, b1, b2, b3, b4, b5, b6, b7, b8, b9, b10, b11, b12, b13, b14, b15, b16, b17, b18, b19,
      b20, b21, b22, b23], _ => rfl

/-- What a `Delete` that returns has found and done. -/
theorem Haystack.Delete_ok_inv (h h1 : Haystack) (n n1 : Needle) (hlen : h.file.length < 2 ^ 64)
    (hD : h.Delete n = (.ok (), n1, h1)) :
    ∃ A bs B, h.file = A ++ bs ++ B ∧ A.length = n.offset ∧ bs.length = kFlagsSize ∧
      readAt h.file n.offset kFlagsSize = some bs ∧
      n.haystackId = h.id ∧ wrap64 (n.offset + kFlagsSize) ≤ h.currentSize ∧
      (decodeFlags bs).id = n.flags.id ∧
      n1 = { n with flags := { n.flags with isDeleted := 1 } } ∧
      h1 = { h with file := if (decodeFlags bs).isDeleted = 0 then
                                A ++ writeAt bs kDeletedOffset [1] ++ B
                              else h.file } ∧
      h1.file = (if (decodeFlags bs).isDeleted = 0 then h.file.set (n.offset + kDeletedOffset) 1
                 else h.file) := by
  unfold Haystack.Delete at hD
  by_cases hg : n.haystackId ≠ h.id ∨ wrap64 (n.offset + kFlagsSize) > h.currentSize
  · rw [if_pos hg] at hD
    cases hD
  · rw [if_neg hg] at hD
    cases hr : readAt h.file n.offset kFlagsSize with
    | none =>
      rw [hr] at hD
      cases hD
    | some bs =>
      rw [hr] at hD
      dsimp only at hD
      obtain ⟨hsplit, hA, hbs, hle⟩ := readAt_some hr
      have hk : kFlagsSize = 24 := rfl
      have hd : kDeletedOffset = 16 := rfl
      have w : wrap64 (n.offset + kDeletedOffset) = n.offset + kDeletedOffset :=
        wrap64_of_lt (by omega)
      have hid : n.haystackId = h.id := by
        by_contra hc
        exact hg (Or.inl hc)
      have hcs : wrap64 (n.offset + kFlagsSize) ≤ h.currentSize := by
        by_contra hc
        exact hg (Or.inr (by omega))
      by_cases hi : (decodeFlags bs).id ≠ n.flags.id
      · rw [if_pos hi] at hD
        cases hD
      · rw [if_neg hi] at hD
        have hi2 : (decodeFlags bs).id = n.flags.id := by
          by_contra hc
          exact hi hc
        have hw : writeAt h.file (n.offset + kDeletedOffset) [1]
            = h.file.take n.offset ++ writeAt bs kDeletedOffset [1]
              ++ h.file.drop (n.offset + kFlagsSize) := by
          have := writeAt_mid (h.file.take n.offset) bs (h.file.drop (n.offset + kFlagsSize))
            kDeletedOffset [1] (by rw [hbs]; decide)
          rw [← hsplit, hA] at this
          exact this
        have hs : writeAt h.file (n.offset + kDeletedOffset) [1]
            = h.file.set (n.offset + kDeletedOffset) 1 := writeAt_one _ _ _ (by omega)
        refine ⟨h.file.take n.offset, bs, h.file.drop (n.offset + kFlagsSize), hsplit, hA, hbs,
          rfl, hid, hcs, hi2, ?_⟩
        by_cases hz : (decodeFlags bs).isDeleted = 0
        · rw [if_pos hz, w] at hD
          simp only [Prod.mk.injEq, true_and] at hD
          obtain ⟨hn, hh⟩ := hD
          refine ⟨hn.symm, ?_, ?_⟩
          · rw [if_pos hz, ← hw, ← hh]
          · rw [if_pos hz, ← hs, ← hh]
        · rw [if_neg hz] at hD
          simp only [Prod.mk.injEq, true_and] at hD
          obtain ⟨hn, hh⟩ := hD
          refine ⟨hn.symm, ?_, ?_⟩
          · rw [if_neg hz, ← hh]
          · rw [if_neg hz, ← hh]

/-- The call `Haystack::Read` throws `BadNeedle` for a needle of another volume and for
a stored header that is tombstoned or carries another id or size. -/
theorem Haystack.Read_refuses (h : Haystack) (n : Needle) :
    (n.haystackId ≠ h.id → h.Read n = .error (.haystackErr .BadNeedle)) ∧
      (∀ bs, readAt h.file n.offset kFlagsSize = some bs →
        ((decodeFlags bs).isDeleted ≠ 0 ∨ (decodeFlags bs).id ≠ n.flags.id ∨
          (decodeFlags bs).size ≠ n.flags.size) →
        h.Read n = .error (.haystackErr .BadNeedle)) := by
  constructor
  · intro hid
    unfold Haystack.Read
    rw [if_pos (Or.inl hid)]
  · intro bs hr hbad
    unfold Haystack.Read
    by_cases hg : n.haystackId ≠ h.id ∨ n.offset ≥ sub64 h.currentSize kFlagsSize
    · rw [if_pos hg]
    · rw [if_neg hg, hr]
      dsimp only
      rw [if_pos hbad]

/-- After a `Delete` that returned, the stored header at the needle's offset is
tombstoned and keeps its id. -/
theorem Haystack.Delete_ok_header (h h1 : Haystack) (n n1 : Needle)
    (hlen : h.file.length < 2 ^ 64) (hD : h.Delete n = (.ok (), n1, h1)) :
    ∃ bs1, readAt h1.file n.offset kFlagsSize = some bs1 ∧ (decodeFlags bs1).isDeleted ≠ 0 ∧
      (decodeFlags bs1).id = n.flags.id ∧ h1.file.length = h.file.length ∧
      h1.currentSize = h.currentSize ∧ h1.id = h.id ∧ h1.maxSize = h.maxSize ∧
      h1.isReadOnly = h.isReadOnly := by
  obtain ⟨A, bs, B, hsplit, hA, hbs, hr, hid, hcs, hi, hn, hh, _⟩ :=
    Haystack.Delete_ok_inv h h1 n n1 hlen hD
  by_cases hz : (decodeFlags bs).isDeleted = 0
  · rw [if_pos hz] at hh
    obtain ⟨hl1, hdec⟩ := decodeFlags_setDeleted bs hbs 1
    refine ⟨writeAt bs kDeletedOffset [1], ?_, ?_, ?_, ?_, ?_⟩
    · rw [hh, ← hA, ← hl1]
      exact readAt_append _ _ _
    · rw [hdec]
      show (1 : Byte) ≠ 0
      decide
    · rw [hdec]; exact hi
    · rw [hh, hsplit]
      simp only [List.length_append, hl1, hbs]
    · rw [hh]; exact ⟨rfl, rfl, rfl, rfl⟩
  · rw [if_neg hz] at hh
    refine ⟨bs, ?_, hz, hi, ?_, ?_⟩
    · rw [hh]; exact hr
    · rw [hh]
    · rw [hh]; exact ⟨rfl, rfl, rfl, rfl⟩

/-- When `offset + kFlagsSize` does not wrap around and `currentSize` is the length of
the file, `Delete` throws `BadNeedle` exactly for a needle of another volume, an
offset out of range, or a stored header with another id; a differing size does
not matter, and a `Delete` that throws leaves descriptor and volume as they were. -/
theorem Haystack.Delete_badNeedle_iff (h : Haystack) (n : Needle)
    (hlen : h.file.length = h.currentSize) (hoff : n.offset + kFlagsSize < 2 ^ 64) :
    ((h.Delete n).1 = .error (.haystackErr .BadNeedle) ↔
        (n.haystackId ≠ h.id ∨ n.offset + kFlagsSize > h.currentSize ∨
          ∃ bs, readAt h.file n.offset kFlagsSize = some bs ∧
            (decodeFlags bs).id ≠ n.flags.id)) ∧
      (∀ e, (h.Delete n).1 = .error e → (h.Delete n).2 = (n, h)) := by
  have w : wrap64 (n.offset + kFlagsSize) = n.offset + kFlagsSize := wrap64_of_lt hoff
  unfold Haystack.Delete
  rw [w]
  by_cases hg : n.haystackId ≠ h.id ∨ n.offset + kFlagsSize > h.currentSize
  · rw [if_pos hg]
    refine ⟨⟨fun _ => ?_, fun _ => rfl⟩, fun _ _ => rfl⟩
    rcases hg with hg | hg
    · exact Or.inl hg
    · exact Or.inr (Or.inl hg)
  · rw [if_neg hg]
    have hle : n.offset + kFlagsSize ≤ h.file.length := by
      rw [hlen]
      by_contra hc
      exact hg (Or.inr (by omega))
    have hr : readAt h.file n.offset kFlagsSize
        = some (readSome h.file n.offset kFlagsSize) := by
      unfold readAt
      rw [if_pos hle]
    rw [hr]
    dsimp only
    by_cases hi : (decodeFlags (readSome h.file n.offset kFlagsSize)).id ≠ n.flags.id
    · rw [if_pos hi]
      exact ⟨⟨fun _ => Or.inr (Or.inr ⟨_, rfl, hi⟩), fun _ => rfl⟩, fun _ _ => rfl⟩
    · rw [if_neg hi]
      constructor
      · constructor
        · intro hc
          split at hc <;> cases hc
        · intro hc
          rcases hc with hc | hc | ⟨bs, hbs, hne⟩
          · exact absurd (Or.inl hc) hg
          · exact absurd (Or.inr hc) hg
          · simp only [Option.some.injEq] at hbs
            rw [← hbs] at hne
            exact absurd hne hi
      · intro e hc
        split at hc <;> cases hc

/-- A `Delete` repeated on the volume it left behind, with the needle as the caller
holds it then or before: it returns again and changes nothing. -/
theorem Haystack.Delete_again (h h1 : Haystack) (n n1 : Needle) (m : Needle)
    (hlen : h.file.length < 2 ^ 64) (hD : h.Delete n = (.ok (), n1, h1))
    (hm : m.haystackId = n.haystackId ∧ m.offset = n.offset ∧ m.flags.id = n.flags.id ∧
      m.flags.size = n1.flags.size) :
    h1.Delete m = (.ok (), n1, h1) := by
  obtain ⟨A, bs, B, _, _, _, _, hid, hcs, _, hn, _, _⟩ :=
    Haystack.Delete_ok_inv h h1 n n1 hlen hD
  obtain ⟨bs1, hr1, hdel, hid1, _, hcs1, hhid, _, _⟩ :=
    Haystack.Delete_ok_header h h1 n n1 hlen hD
  obtain ⟨m1, m2, m3, m4⟩ := hm
  have hg : ¬ (m.haystackId ≠ h1.id ∨ wrap64 (m.offset + kFlagsSize) > h1.currentSize) := by
    rw [m1, m2, hhid, hcs1]
    intro hc
    rcases hc with hc | hc
    · exact hc hid
    · omega
  have hi : ¬ ((decodeFlags bs1).id ≠ m.flags.id) := by
    rw [hid1, m3]
    exact fun hc => hc rfl
  unfold Haystack.Delete
  rw [if_neg hg, m2, hr1]
  dsimp only
  rw [if_neg hi, if_neg hdel, hn]
  rw [hn] at m4
  cases m with
  | mk mh mo mf =>
    cases mf with
    | mk mi ms md =>
      simp only at m1 m2 m3 m4
      subst m1 m2 m3 m4
      rfl

/-- C13: `Read` throws `BadNeedle` when the needle names another volume, when the
header stored at its offset is tombstoned or carries a different id or size, and
when the volume is the one a successful `Delete` of this needle left behind. -/
theorem Haystack.Read_badNeedle (h : Haystack) (n : Needle)
    (hbad : n.haystackId ≠ h.id ∨
      (∃ bs, readAt h.file n.offset kFlagsSize = some bs ∧
        ((decodeFlags bs).isDeleted ≠ 0 ∨ (decodeFlags bs).id ≠ n.flags.id ∨
          (decodeFlags bs).size ≠ n.flags.size)) ∨
      (∃ (h0 : Haystack) (n0 : Needle), h0.file.length < 2 ^ 64 ∧ h0.Delete n0 = (.ok (), n, h)) ∨
      (∃ (h0 : Haystack) (n1 : Needle), h0.file.length < 2 ^ 64 ∧
        h0.Delete n = (.ok (), n1, h))) :
    h.Read n = .error (.haystackErr .BadNeedle) := by
  rcases hbad with hid | ⟨bs, hr, hb⟩ | ⟨h0, n0, hlen, hD⟩ | ⟨h0, n1, hlen, hD⟩
  · exact (Haystack.Read_refuses h n).1 hid
  · exact (Haystack.Read_refuses h n).2 bs hr hb
  · obtain ⟨bs1, hr1, hdel, _⟩ := Haystack.Delete_ok_header h0 h n0 n hlen hD
    obtain ⟨_, _, _, _, _, _, _, _, _, _, hn, _, _⟩ := Haystack.Delete_ok_inv h0 h n0 n hlen hD
    have hoff : n.offset = n0.offset := by rw [hn]
    rw [← hoff] at hr1
    exact (Haystack.Read_refuses h n).2 bs1 hr1 (Or.inl hdel)
  · obtain ⟨bs1, hr1, hdel, _⟩ := Haystack.Delete_ok_header h0 h n n1 hlen hD
    exact (Haystack.Read_refuses h n).2 bs1 hr1 (Or.inl hdel)

theorem Haystack.Read_badNeedle_witness :
    ((Haystack.new 0 [] 1000 false).Write 42 [1, 2, 3] 3).2.file.length < 2 ^ 64 ∧
      (((Haystack.new 0 [] 1000 false).Write 42 [1, 2, 3] 3).2.Delete ⟨0, 0, ⟨42, 3, 0⟩⟩).1
        = .ok () ∧
      (((Haystack.new 0 [] 1000 false).Write 42 [1, 2, 3] 3).2.Delete
        ⟨0, 0, ⟨42, 3, 0⟩⟩).2.2.Read ⟨0, 0, ⟨42, 3, 0⟩⟩ = .error (.haystackErr .BadNeedle) :=
  ⟨by decide, rfl,
    Haystack.Read_badNeedle _ ⟨0, 0, ⟨42, 3, 0⟩⟩
      (Or.inr (Or.inr (Or.inr ⟨((Haystack.new 0 [] 1000 false).Write 42 [1, 2, 3] 3).2,
        ⟨0, 0, ⟨42, 3, 1⟩⟩, by decide, rfl⟩)))⟩

/-- C14 (the defect): on an empty volume, and on a volume of three bytes, `Read` of a
needle at offset 0 passes the range check although `offset + kFlagsSize` exceeds
`currentSize`, and goes on to read a header the file does not hold:
`currentSize - kFlagsSize` wraps around in `uint64_t`. -/
theorem Haystack.Read_range_check_wraps :
    0 + kFlagsSize > (Haystack.new 0 [] 1000 false).currentSize ∧
      (Haystack.new 0 [] 1000 false).Read ⟨0, 0, ⟨1, 0, 0⟩⟩ = .error .shortRead ∧
      0 + kFlagsSize > (Haystack.new 0 [1, 2, 3] 1000 true).currentSize ∧
      (Haystack.new 0 [1, 2, 3] 1000 true).Read ⟨0, 0, ⟨1, 0, 0⟩⟩ = .error .shortRead ∧
      sub64 (Haystack.new 0 [] 1000 false).currentSize kFlagsSize = 2 ^ 64 - 24 :=
  ⟨by decide, rfl, by decide, rfl, rfl⟩

/-- C15 (as stated, refuted): a volume opened over a file whose one header has the
`isDeleted` byte 2; `Delete` succeeds and leaves that byte at 2, not 1. -/
theorem Haystack.Delete_keeps_flag_example :
    (Haystack.new 0 (encodeFlags ⟨7, 0, 2⟩) 1000 true).Delete ⟨0, 0, ⟨7, 0, 0⟩⟩
        = (.ok (), ⟨0, 0, ⟨7, 0, 1⟩⟩, Haystack.new 0 (encodeFlags ⟨7, 0, 2⟩) 1000 true) ∧
      (Haystack.new 0 (encodeFlags ⟨7, 0, 2⟩) 1000 true).file[0 + kDeletedOffset]? = some 2 :=
  ⟨rfl, rfl⟩

/-- C15 (amended): after a `Delete` that succeeds the caller's descriptor has
`isDeleted = 1`; the file byte at `offset + offsetof(isDeleted)` is 1 if it was 0
and is left as it was (not 0) otherwise; every other byte of the file, its length,
`currentSize`, `isReadOnly`, `maxSize` and the id are unchanged. -/
theorem Haystack.Delete_effect (h h1 : Haystack) (n n1 : Needle) (hlen : h.file.length < 2 ^ 64)
    (hD : h.Delete n = (.ok (), n1, h1)) :
    n1 = { n with flags := { n.flags with isDeleted := 1 } } ∧
      (∃ b, h.file[n.offset + kDeletedOffset]? = some b ∧
        h1.file[n.offset + kDeletedOffset]? = some (if b = 0 then 1 else b)) ∧
      (∀ i, i ≠ n.offset + kDeletedOffset → h1.file[i]? = h.file[i]?) ∧
      h1.file.length = h.file.length ∧ h1.currentSize = h.currentSize ∧
      h1.isReadOnly = h.isReadOnly ∧ h1.maxSize = h.maxSize ∧ h1.id = h.id := by
  obtain ⟨A, bs, B, hsplit, hA, hbs, hr, hid, hcs, hi, hn, hh, hset⟩ :=
    Haystack.Delete_ok_inv h h1 n n1 hlen hD
  obtain ⟨_, _, _, _, hl1, hcs1, hid1, hmax1, hro1⟩ :=
    Haystack.Delete_ok_header h h1 n n1 hlen hD
  obtain ⟨_, _, _, hle⟩ := readAt_some hr
  have hk : kFlagsSize = 24 := rfl
  have hd : kDeletedOffset = 16 := rfl
  have hb : h.file[n.offset + kDeletedOffset]? = some (decodeFlags bs).isDeleted := by
    rw [hsplit, List.append_assoc, List.getElem?_append_right (by omega),
      List.getElem?_append_left (by omega), hA, Nat.add_sub_cancel_left]
    exact decodeFlags_isDeleted bs hbs
  refine ⟨hn, ⟨(decodeFlags bs).isDeleted, hb, ?_⟩, ?_, hl1, hcs1, hro1, hmax1, hid1⟩
  · by_cases hz : (decodeFlags bs).isDeleted = 0
    · rw [hset, if_pos hz, if_pos hz, List.getElem?_set_self (by omega)]
    · rw [hset, if_neg hz, if_neg hz, hb]
  · intro i hne
    by_cases hz : (decodeFlags bs).isDeleted = 0
    · rw [hset, if_pos hz, List.getElem?_set_ne (Ne.symm hne)]
    · rw [hset, if_neg hz]

theorem Haystack.Delete_effect_witness :
    ((Haystack.new 0 [] 1000 false).Write 42 [1, 2, 3] 3).2.file.length < 2 ^ 64 ∧
      (((Haystack.new 0 [] 1000 false).Write 42 [1, 2, 3] 3).2.Delete ⟨0, 0, ⟨42, 3, 0⟩⟩).2.2.file.length
        = ((Haystack.new 0 [] 1000 false).Write 42 [1, 2, 3] 3).2.file.length :=
  ⟨by decide,
    (Haystack.Delete_effect ((Haystack.new 0 [] 1000 false).Write 42 [1, 2, 3] 3).2
      (((Haystack.new 0 [] 1000 false).Write 42 [1, 2, 3] 3).2.Delete ⟨0, 0, ⟨42, 3, 0⟩⟩).2.2
      ⟨0, 0, ⟨42, 3, 0⟩⟩ ⟨0, 0, ⟨42, 3, 1⟩⟩ (by decide) rfl).2.2.2.1⟩

/-- C16 (the defect): on a volume holding one record (`currentSize = 27`), `Delete` of a
needle with `offset = 2 ^ 64 - 24` passes the range check although
`offset + kFlagsSize` exceeds `currentSize`, and goes on to read a header the file
does not hold: the sum wraps around to 0 in `uint64_t`. -/
theorem Haystack.Delete_range_check_wraps :
    ((Haystack.new 0 [] 1000 false).Write 42 [1, 2, 3] 3).2.currentSize = 27 ∧
      (2 ^ 64 - 24) + kFlagsSize > ((Haystack.new 0 [] 1000 false).Write 42 [1, 2, 3] 3).2.currentSize ∧
      2 ^ 64 - 24 < 2 ^ 64 ∧
      (((Haystack.new 0 [] 1000 false).Write 42 [1, 2, 3] 3).2.Delete
        ⟨0, 2 ^ 64 - 24, ⟨42, 3, 0⟩⟩).1 = .error .shortRead :=
  ⟨rfl, by decide, by decide, rfl⟩

/-- C17: a `Delete` that has succeeded can be repeated, with the descriptor as the
first call left it or as it was before: the second call succeeds and leaves the
volume (file, `currentSize`, flags) and the descriptor as they were after the
first. -/
theorem Haystack.Delete_idempotent (h h1 : Haystack) (n n1 : Needle)
    (hlen : h.file.length < 2 ^ 64) (hD : h.Delete n = (.ok (), n1, h1)) :
    h1.Delete n1 = (.ok (), n1, h1) ∧ h1.Delete n = (.ok (), n1, h1) := by
  obtain ⟨_, _, _, _, _, _, _, _, _, _, hn, _, _⟩ := Haystack.Delete_ok_inv h h1 n n1 hlen hD
  constructor
  · exact Haystack.Delete_again h h1 n n1 n1 hlen hD (by rw [hn]; exact ⟨rfl, rfl, rfl, rfl⟩)
  · exact Haystack.Delete_again h h1 n n1 n hlen hD (by rw [hn]; exact ⟨rfl, rfl, rfl, rfl⟩)

theorem Haystack.Delete_idempotent_witness :
    ((Haystack.new 0 [] 1000 false).Write 42 [1, 2, 3] 3).2.file.length < 2 ^ 64 ∧
      (((Haystack.new 0 [] 1000 false).Write 42 [1, 2, 3] 3).2.Delete ⟨0, 0, ⟨42, 3, 0⟩⟩).2.2.Delete
          ⟨0, 0, ⟨42, 3, 1⟩⟩
        = (.ok (), ⟨0, 0, ⟨42, 3, 1⟩⟩,
          (((Haystack.new 0 [] 1000 false).Write 42 [1, 2, 3] 3).2.Delete ⟨0, 0, ⟨42, 3, 0⟩⟩).2.2) :=
  ⟨by decide,
    (Haystack.Delete_idempotent ((Haystack.new 0 [] 1000 false).Write 42 [1, 2, 3] 3).2
      (((Haystack.new 0 [] 1000 false).Write 42 [1, 2, 3] 3).2.Delete ⟨0, 0, ⟨42, 3, 0⟩⟩).2.2
      ⟨0, 0, ⟨42, 3, 0⟩⟩ ⟨0, 0, ⟨42, 3, 1⟩⟩ (by decide) rfl).1⟩

/-! ## The history of one volume -/

/-- What a `Write` that returns has checked and done. -/
theorem Haystack.Write_ok_inv (h h1 : Haystack) (needleId : Nat) (buff : List Byte) (size : Nat)
    (n : Needle) (hsz : size ≤ buff.length)
    (hW : h.Write needleId buff size = (.ok n, h1)) (hfile : h1.file.length < 2 ^ 64) :
    h.isReadOnly = false ∧ h.currentSize + kFlagsSize + size ≤ h.maxSize ∧
      n = Needle.new h.id h.currentSize needleId size ∧
      h1 = { h with
        file := writeAt h.file h.currentSize
          (encodeFlags (NeedleFlags.new needleId size) ++ buff.take size),
        currentSize := h.currentSize + kFlagsSize + size,
        isReadOnly := decide (h.currentSize + kFlagsSize + size ≥ h.maxSize) } := by
  unfold Haystack.Write at hW
  by_cases hg : h.isReadOnly = true ∨ wrap64 (h.currentSize + kFlagsSize + size) > h.maxSize
  · rw [if_pos hg] at hW
    cases hW
  · rw [if_neg hg] at hW
    by_cases hbad : size ≥ 2 ^ 63
    · rw [if_pos hbad] at hW
      cases hW
    rw [if_neg hbad] at hW
    simp only [Prod.mk.injEq, Except.ok.injEq] at hW
    obtain ⟨hn, hh⟩ := hW
    have hk : (encodeFlags (Needle.new h.id h.currentSize needleId size).flags).length
        = kFlagsSize := encodeFlags_length _
    have hfile2 : h1.file = writeAt h.file h.currentSize
        (encodeFlags (NeedleFlags.new needleId size) ++ buff.take size) := by
      rw [← hh]
      show writeAt (writeAt h.file h.currentSize _) (h.currentSize + kFlagsSize) _ = _
      rw [← hk, writeAt_writeAt]
      rfl
    have hlen : (encodeFlags (NeedleFlags.new needleId size) ++ buff.take size).length
        = kFlagsSize + size := by
      rw [List.length_append, encodeFlags_length, List.length_take]
      omega
    have hbig : h.currentSize + kFlagsSize + size < 2 ^ 64 := by
      have := writeAt_length h.file h.currentSize
        (encodeFlags (NeedleFlags.new needleId size) ++ buff.take size)
      rw [← hfile2, hlen] at this
      omega
    have w0 : wrap64 (h.currentSize + kFlagsSize + size) = h.currentSize + kFlagsSize + size :=
      wrap64_of_lt hbig
    have w1 : wrap64 (kFlagsSize + size) = kFlagsSize + size := wrap64_of_lt (by omega)
    have w2 : wrap64 (h.currentSize + (kFlagsSize + size)) = h.currentSize + kFlagsSize + size := by
      rw [← Nat.add_assoc]; exact w0
    rw [w0] at hg
    have hro : h.isReadOnly = false := by
      cases hb : h.isReadOnly
      · rfl
      · exact absurd (Or.inl hb) hg
    have hfit : h.currentSize + kFlagsSize + size ≤ h.maxSize := by
      by_contra hc
      exact hg (Or.inr (by omega))
    refine ⟨hro, hfit, hn.symm, ?_⟩
    rw [← hh]
    simp only [w1, w2]
    congr 1
    show writeAt (writeAt h.file h.currentSize _) (h.currentSize + kFlagsSize) _ = _
    rw [← hk, writeAt_writeAt]
    rfl

theorem descr_offsets (id : Nat) (rs : List Rec) (hok : ∀ r ∈ rs, RecOK r) :
    ∀ p, ∀ d ∈ descr id p rs, p ≤ d.offset ∧ d.offset < p + (layout rs).length := by
  induction rs with
  | nil =>
    intro p d hd
    simp [descr] at hd
  | cons r rs ih =>
    intro p d hd
    have hr : RecOK r := hok r (List.mem_cons_self _ _)
    have hrs : ∀ x ∈ rs, RecOK x := fun x hx => hok x (List.mem_cons_of_mem _ hx)
    have hk : kFlagsSize = 24 := rfl
    simp only [descr, List.mem_cons] at hd
    simp only [layout, List.length_append, recBytes_length r hr]
    rcases hd with hd | hd
    · subst hd
      simp only
      omega
    · have := ih hrs _ d hd
      omega

theorem mem_descr (id : Nat) (rs : List Rec) (hok : ∀ r ∈ rs, RecOK r) :
    ∀ p m, m ∈ descr id p rs →
      ∃ pre r post, rs = pre ++ r :: post ∧ m = ⟨id, p + (layout pre).length, r.1⟩ := by
  induction rs with
  | nil =>
    intro p m hm
    simp [descr] at hm
  | cons r rs ih =>
    intro p m hm
    have hr : RecOK r := hok r (List.mem_cons_self _ _)
    have hrs : ∀ x ∈ rs, RecOK x := fun x hx => hok x (List.mem_cons_of_mem _ hx)
    simp only [descr, List.mem_cons] at hm
    rcases hm with hm | hm
    · exact ⟨[], r, rs, rfl, by rw [hm]; simp [layout]⟩
    · obtain ⟨pre, r1, post, hsplit, hm1⟩ := ih hrs _ m hm
      refine ⟨r :: pre, r1, post, by rw [hsplit]; rfl, ?_⟩
      rw [hm1]
      simp only [layout, List.length_append, recBytes_length r hr, Needle.mk.injEq, and_true,
        true_and]
      omega

theorem markDeleted_of_ne (off : Nat) (ds : List Needle) (h : ∀ d ∈ ds, d.offset ≠ off) :
    markDeleted off ds = ds := by
  unfold markDeleted
  induction ds with
  | nil => rfl
  | cons d ds ih =>
    have h1 : d.offset ≠ off := h d (List.mem_cons_self _ _)
    have h2 : ∀ x ∈ ds, x.offset ≠ off := fun x hx => h x (List.mem_cons_of_mem _ hx)
    rw [List.map_cons, if_neg h1, ih h2]

theorem descr_tombIf (id p : Nat) (pre : List Rec) (r : Rec) (post : List Rec)
    (hok : ∀ x ∈ pre ++ r :: post, RecOK x) (hr01 : r.1.isDeleted = 0 ∨ r.1.isDeleted = 1) :
    descr id p (pre ++ tombIf r :: post)
      = markDeleted (p + (layout pre).length) (descr id p (pre ++ r :: post)) := by
  have hpre : ∀ x ∈ pre, RecOK x := fun x hx => hok x (by simp [hx])
  have hr : RecOK r := hok r (by simp)
  have hpost : ∀ x ∈ post, RecOK x := fun x hx => hok x (by simp [hx])
  have hk : kFlagsSize = 24 := rfl
  rw [descr_append _ _ _ _ hpre, descr_append _ _ _ _ hpre]
  have e1 : markDeleted (p + (layout pre).length) (descr id p pre) = descr id p pre := by
    apply markDeleted_of_ne
    intro d hd
    have := descr_offsets id pre hpre p d hd
    omega
  have e2 : markDeleted (p + (layout pre).length)
      (descr id (p + (layout pre).length + kFlagsSize + r.1.size) post)
      = descr id (p + (layout pre).length + kFlagsSize + r.1.size) post := by
    apply markDeleted_of_ne
    intro d hd
    have := descr_offsets id post hpost _ d hd
    omega
  have hsz : (tombIf r).1.size = r.1.size := congrArg Prod.snd (shape_tombIf r)
  have hfl : (tombIf r).1 = { r.1 with isDeleted := 1 } := by
    unfold tombIf
    split
    · rfl
    · rcases hr01 with h0 | h1
      · contradiction
      · cases r with
        | mk f pl =>
          cases f with
          | mk i s d =>
            simp only at h1
            subst h1
            rfl
  have hmd : ∀ (a b : List Needle), markDeleted (p + (layout pre).length) (a ++ b)
      = markDeleted (p + (layout pre).length) a ++ markDeleted (p + (layout pre).length) b := by
    intro a b
    simp [markDeleted]
  rw [hmd, e1]
  congr 1
  simp only [descr, hsz]
  show _ = markDeleted _ (_ :: _)
  have hcons : ∀ (d : Needle) (ds : List Needle), markDeleted (p + (layout pre).length) (d :: ds)
      = (if d.offset = p + (layout pre).length then
          { d with flags := { d.flags with isDeleted := 1 } } else d)
        :: markDeleted (p + (layout pre).length) ds := by
    intro d ds
    simp [markDeleted]
  rw [hcons, e2, if_pos rfl, hfl]

theorem Tiled.delete_record {h : Haystack} {rs : List Rec} (hv : Tiled h rs) (n : Needle)
    (pre : List Rec) (r : Rec) (post : List Rec) (hrs : rs = pre ++ r :: post)
    (hoff : n.offset = (layout pre).length) (hid : n.haystackId = h.id)
    (hnid : r.1.id = n.flags.id) :
    h.Delete n = (.ok (), { n with flags := { n.flags with isDeleted := 1 } },
        { h with file := layout (pre ++ tombIf r :: post) }) ∧
      Tiled { h with file := layout (pre ++ tombIf r :: post) } (pre ++ tombIf r :: post) := by
  have hr : RecOK r := hv.ok r (by rw [hrs]; simp)
  have hfile : h.file = layout pre ++ encodeFlags r.1 ++ (r.2 ++ layout post) := by
    rw [hv.file, hrs, layout_append]; simp [layout, recBytes]
  have hD := Haystack.Delete_at h n (layout pre) (r.2 ++ layout post) r.1 hfile hoff hid hv.len
    hv.cs hr.1 hr.2.1 hnid
  have hnew : (if r.1.isDeleted = 0 then
        layout pre ++ encodeFlags { r.1 with isDeleted := 1 } ++ (r.2 ++ layout post)
      else h.file) = layout (pre ++ tombIf r :: post) := by
    unfold tombIf
    split
    · rw [layout_append]; simp [layout, recBytes, tomb]
    · rw [hfile, layout_append]; simp [layout, recBytes]
  rw [hnew] at hD
  have hok1 : ∀ x ∈ pre ++ tombIf r :: post, RecOK x := by
    intro x hx
    rcases List.mem_append.mp hx with hx | hx
    · exact hv.ok x (by rw [hrs]; simp [hx])
    · rcases List.mem_cons.mp hx with hx | hx
      · rw [hx]; exact RecOK_tombIf r hr
      · exact hv.ok x (by rw [hrs]; simp [hx])
  have hlen1 : (layout (pre ++ tombIf r :: post)).length = h.currentSize := by
    rw [layout_length _ hok1, ← hv.len, hv.file, layout_length _ hv.ok, hrs]
    simp [shape_tombIf]
  exact ⟨hD, ⟨rfl, hlen1, hv.cs, hok1⟩⟩

/-- The invariant of a volume with a history: its file consists of records, one per
returned needle, and its fields are as the constructor and `Write` set them. -/
theorem Haystack.Hist.tiled {id M : Nat} {h : Haystack} {ns : List Needle}
    (hH : Haystack.Hist id M h ns) (hM : M < 2 ^ 64) :
    ∃ rs, Tiled h rs ∧ ns = descr id 0 rs ∧ h.id = id ∧ h.maxSize = M ∧ h.currentSize ≤ M ∧
      (∀ r ∈ rs, r.1.isDeleted = 0 ∨ r.1.isDeleted = 1) ∧
      (0 < M → h.isReadOnly = decide (h.currentSize ≥ M)) ∧
      (rs = [] → h.isReadOnly = false) := by
  induction hH with
  | create disk =>
    refine ⟨[], ⟨rfl, rfl, by show 0 < 2 ^ 64; decide, fun _ hr => absurd hr (List.not_mem_nil _)⟩,
      rfl, rfl, rfl, Nat.zero_le _, fun _ hr => absurd hr (List.not_mem_nil _), ?_, fun _ => rfl⟩
    intro hpos
    show false = decide (0 ≥ M)
    simp
    omega
  | write h ns needleId buff size n h1 _ hid hsz hW hfile ih =>
    obtain ⟨rs, hT, hns, hhid, hmax, hle, h01, hro, _⟩ := ih
    obtain ⟨_, hfit, hn, hh⟩ := Haystack.Write_ok_inv h h1 needleId buff size n hsz hW hfile
    have hnew : RecOK (NeedleFlags.new needleId size, buff.take size) := by
      refine ⟨hid, ?_, ?_⟩
      · show size < 2 ^ 64
        omega
      · show (buff.take size).length = size
        rw [List.length_take]; omega
    have hwr : writeAt h.file h.currentSize
        (encodeFlags (NeedleFlags.new needleId size) ++ buff.take size)
        = layout (rs ++ [(NeedleFlags.new needleId size, buff.take size)]) := by
      rw [← hT.len, writeAt_length_eq, hT.file, layout_append]
      simp [layout, recBytes]
    have hok1 : ∀ x ∈ rs ++ [(NeedleFlags.new needleId size, buff.take size)], RecOK x := by
      intro x hx
      rcases List.mem_append.mp hx with hx | hx
      · exact hT.ok x hx
      · rw [List.mem_singleton.mp hx]; exact hnew
    refine ⟨rs ++ [(NeedleFlags.new needleId size, buff.take size)], ⟨?_, ?_, ?_, hok1⟩, ?_, ?_, ?_,
      ?_, ?_, ?_, ?_⟩
    · rw [hh]; exact hwr
    · rw [hh]
      show (writeAt h.file h.currentSize _).length = h.currentSize + kFlagsSize + size
      rw [hwr, layout_append, List.length_append, ← hT.file, hT.len]
      simp only [layout, List.append_nil, recBytes_length _ hnew]
      show h.currentSize + (kFlagsSize + size) = _
      omega
    · rw [hh]
      show h.currentSize + kFlagsSize + size < 2 ^ 64
      omega
    · rw [descr_append _ _ _ _ hT.ok, ← hns, hn, ← hT.file, hT.len, hhid]
      simp [descr, Needle.new]
    · rw [hh]; exact hhid
    · rw [hh]; exact hmax
    · rw [hh]
      show h.currentSize + kFlagsSize + size ≤ M
      omega
    · intro r hr
      rcases List.mem_append.mp hr with hr | hr
      · exact h01 r hr
      · rw [List.mem_singleton.mp hr]
        exact Or.inl rfl
    · intro _
      rw [hh]
      show decide (h.currentSize + kFlagsSize + size ≥ h.maxSize)
        = decide (h.currentSize + kFlagsSize + size ≥ M)
      rw [hmax]
    · intro hnil
      simp at hnil
  | delete h ns n m n1 h1 _ hm hsame hD ih =>
    obtain ⟨rs, hT, hns, hhid, hmax, hle, h01, hro, hro0⟩ := ih
    rw [hns] at hm
    obtain ⟨pre, r, post, hrs, hmeq⟩ := mem_descr id rs hT.ok 0 m hm
    obtain ⟨s1, s2, s3, _⟩ := hsame
    have hoff : n.offset = (layout pre).length := by
      rw [s2, hmeq]; simp
    have hid : n.haystackId = h.id := by
      rw [s1, hmeq, hhid]
    have hnid : r.1.id = n.flags.id := by
      rw [s3, hmeq]
    obtain ⟨hD2, hT2⟩ := hT.delete_record n pre r post hrs hoff hid hnid
    rw [hD2] at hD
    simp only [Prod.mk.injEq, true_and] at hD
    obtain ⟨_, hh⟩ := hD
    have hr01 : r.1.isDeleted = 0 ∨ r.1.isDeleted = 1 := h01 r (by rw [hrs]; simp)
    refine ⟨pre ++ tombIf r :: post, ?_, ?_, ?_, ?_, ?_, ?_, ?_, ?_⟩
    · rw [← hh]; exact hT2
    · rw [hns, hrs, hoff, descr_tombIf id 0 pre r post (by rw [← hrs]; exact hT.ok) hr01]
      simp
    · rw [← hh]; exact hhid
    · rw [← hh]; exact hmax
    · rw [← hh]; exact hle
    · intro x hx
      rcases List.mem_append.mp hx with hx | hx
      · exact h01 x (by rw [hrs]; simp [hx])
      · rcases List.mem_cons.mp hx with hx | hx
        · rw [hx]
          unfold tombIf
          split
          · exact Or.inr rfl
          · exact hr01
        · exact h01 x (by rw [hrs]; simp [hx])
    · intro hpos
      rw [← hh]
      exact hro hpos
    · intro hnil
      simp at hnil

theorem Tiles_descr (id : Nat) (rs : List Rec) :
    ∀ p, Tiles p (descr id p rs) (p + (rs.map fun r => kFlagsSize + r.1.size).sum) := by
  induction rs with
  | nil =>
    intro p
    show p = p + 0
    rfl
  | cons r rs ih =>
    intro p
    refine ⟨rfl, ?_⟩
    have := ih (p + kFlagsSize + r.1.size)
    simp only [List.map_cons, List.sum_cons]
    rw [show p + (kFlagsSize + r.1.size + (rs.map fun r => kFlagsSize + r.1.size).sum)
      = p + kFlagsSize + r.1.size + (rs.map fun r => kFlagsSize + r.1.size).sum by omega]
    exact this

theorem layout_length_sum (rs : List Rec) (hok : ∀ r ∈ rs, RecOK r) :
    (layout rs).length = (rs.map fun r => kFlagsSize + r.1.size).sum := by
  induction rs with
  | nil => rfl
  | cons r rs ih =>
    have hr : RecOK r := hok r (List.mem_cons_self _ _)
    have hrs : ∀ x ∈ rs, RecOK x := fun x hx => hok x (List.mem_cons_of_mem _ hx)
    simp only [layout, List.length_append, recBytes_length r hr, List.map_cons, List.sum_cons,
      ih hrs]

theorem Tiles.head {p e : Nat} {ds : List Needle} (h : Tiles p ds e) (d : Needle)
    (hd : ds.head? = some d) : d.offset = p := by
  cases ds with
  | nil => cases hd
  | cons x xs =>
    simp only [List.head?_cons, Option.some.injEq] at hd
    subst hd
    exact h.1

theorem Tiles.next {ds : List Needle} :
    ∀ {p e : Nat}, Tiles p ds e → ∀ (i : Nat) (d x : Needle), ds[i]? = some d →
      ds[i + 1]? = some x → x.offset = d.offset + kFlagsSize + d.flags.size := by
  induction ds with
  | nil =>
    intro p e _ i d x hd _
    cases hd
  | cons a as ih =>
    intro p e h i d x hd hx
    cases i with
    | zero =>
      simp only [List.getElem?_cons_zero, Option.some.injEq] at hd
      subst hd
      rw [List.getElem?_cons_succ] at hx
      have := h.2.head x (by rw [List.head?_eq_getElem?]; exact hx)
      rw [this, h.1]
    | succ j =>
      rw [List.getElem?_cons_succ] at hd hx
      exact ih h.2 j d x hd hx

theorem Tiles.last {ds : List Needle} :
    ∀ {p e : Nat}, Tiles p ds e → ∀ d, ds.getLast? = some d →
      d.offset + kFlagsSize + d.flags.size = e := by
  induction ds with
  | nil =>
    intro p e _ d hd
    cases hd
  | cons a as ih =>
    intro p e h d hd
    cases as with
    | nil =>
      simp only [List.getLast?_singleton, Option.some.injEq] at hd
      subst hd
      have h2 : a.offset = p := h.1
      have h3 : p + kFlagsSize + a.flags.size = e := h.2
      omega
    | cons b bs =>
      rw [List.getLast?_cons_cons] at hd
      exact ih h.2 d hd

/-- The scan of a volume with a history returns the needles of the history. -/
theorem Haystack.Hist.Needles {id M : Nat} {h : Haystack} {ns : List Needle}
    (hH : Haystack.Hist id M h ns) (hM : M < 2 ^ 64) (fuel : Nat) (hfuel : h.currentSize ≤ fuel) :
    h.Needles fuel = .ok ns ∧ Tiles 0 ns h.currentSize := by
  obtain ⟨rs, hT, hns, hhid, _, _, _, _, _⟩ := hH.tiled hM
  have hcount := rec_count_le rs hT.ok
  rw [← hT.file, hT.len] at hcount
  have hN := Haystack.Needles_layout h rs fuel hT.file hT.ok hT.len hT.cs
    (Nat.le_trans hcount hfuel)
  rw [hhid, ← hns] at hN
  refine ⟨hN, ?_⟩
  have := Tiles_descr id rs 0
  rw [← hns, ← layout_length_sum rs hT.ok, ← hT.file, hT.len, Nat.zero_add] at this
  exact this

/-- C18: for a volume created empty, after successful `Write`s of payloads that fit and
successful `Delete`s of needles these `Write`s returned, `Needles()` returns the
needles the `Write`s returned, in order, one per `Write`, each with `isDeleted = 1`
if it was deleted and 0 otherwise. -/
theorem Haystack.Needles_returns_written (id M : Nat) (h : Haystack) (ns : List Needle)
    (hM : M < 2 ^ 64) (hH : Haystack.Hist id M h ns) (fuel : Nat) (hfuel : h.currentSize ≤ fuel) :
    h.Needles fuel = .ok ns :=
  (hH.Needles hM fuel hfuel).1

theorem Haystack.Needles_returns_written_witness :
    (1000 < 2 ^ 64 ∧
      Haystack.Hist 0 1000
        (((Haystack.new 0 [] 1000 false).Write 42 [1, 2, 3] 3).2.Delete ⟨0, 0, ⟨42, 3, 0⟩⟩).2.2
        (markDeleted 0 ([] ++ [⟨0, 0, ⟨42, 3, 0⟩⟩])) ∧
      (((Haystack.new 0 [] 1000 false).Write 42 [1, 2, 3] 3).2.Delete
        ⟨0, 0, ⟨42, 3, 0⟩⟩).2.2.currentSize ≤ 27) ∧
      (((Haystack.new 0 [] 1000 false).Write 42 [1, 2, 3] 3).2.Delete
        ⟨0, 0, ⟨42, 3, 0⟩⟩).2.2.Needles 27 = .ok [⟨0, 0, ⟨42, 3, 1⟩⟩] :=
  have hH : Haystack.Hist 0 1000
      (((Haystack.new 0 [] 1000 false).Write 42 [1, 2, 3] 3).2.Delete ⟨0, 0, ⟨42, 3, 0⟩⟩).2.2
      (markDeleted 0 ([] ++ [⟨0, 0, ⟨42, 3, 0⟩⟩])) :=
    Haystack.Hist.delete _ _ ⟨0, 0, ⟨42, 3, 0⟩⟩ ⟨0, 0, ⟨42, 3, 0⟩⟩ ⟨0, 0, ⟨42, 3, 1⟩⟩ _
      (Haystack.Hist.write _ _ 42 [1, 2, 3] 3 ⟨0, 0, ⟨42, 3, 0⟩⟩ _
        (Haystack.Hist.create []) (by decide) (by decide) rfl (by decide))
      (by simp) ⟨rfl, rfl, rfl, rfl⟩ rfl
  ⟨⟨by decide, hH, by decide⟩,
    Haystack.Needles_returns_written 0 1000 _ _ (by decide) hH 27 (by decide)⟩

/-! ## Scans after a `Delete` of a descriptor no `Write` returned -/

theorem Haystack.NeedlesLoop_zero (h : Haystack) (pos : Nat) (acc : List Needle)
    (hp : pos < h.currentSize) : h.NeedlesLoop 0 pos acc = .error .noFuel := by
  unfold Haystack.NeedlesLoop
  rw [if_pos hp]

theorem Haystack.NeedlesLoop_succ (h : Haystack) (fuel pos : Nat) (acc : List Needle)
    (bs : List Byte) (hp : pos < h.currentSize) (hr : readAt h.file pos kFlagsSize = some bs) :
    h.NeedlesLoop (fuel + 1) pos acc
      = h.NeedlesLoop fuel (wrap64 (pos + wrap64 (kFlagsSize + (decodeFlags bs).size)))
          (acc ++ [⟨h.id, pos, decodeFlags bs⟩]) := by
  rw [Haystack.NeedlesLoop, if_pos hp]
  simp only [hr]

/-- A scan that starts in a set of positions below `currentSize` which the step of the
loop does not leave is cut off by every bound: the loop of the source does not end. -/
theorem Haystack.NeedlesLoop_trapped (h : Haystack) (S : Nat → Prop)
    (hS : ∀ p, S p → p < h.currentSize ∧ ∃ bs, readAt h.file p kFlagsSize = some bs ∧
      S (wrap64 (p + wrap64 (kFlagsSize + (decodeFlags bs).size)))) :
    ∀ (fuel pos : Nat) (acc : List Needle), S pos →
      h.NeedlesLoop fuel pos acc = .error .noFuel := by
  intro fuel
  induction fuel with
  | zero =>
    intro pos acc hpos
    exact Haystack.NeedlesLoop_zero h pos acc (hS pos hpos).1
  | succ fuel ih =>
    intro pos acc hpos
    obtain ⟨hp, bs, hr, hnext⟩ := hS pos hpos
    rw [Haystack.NeedlesLoop_succ h fuel pos acc bs hp hr]
    exact ih _ _ hnext

set_option maxRecDepth 8192 in
/-- C19 (as stated, refuted): a volume created empty, after `Write(1, ..., 8)` of eight
zero bytes and `Write(2, ..., 3)`, has `currentSize = 59`.  `Delete` of the
descriptor (offset 25, id `2^57`) succeeds, because the eight bytes at offset 25
are seven zero payload bytes and the low byte of the second id, and sets the
byte at offset 41, the second byte of the size field of the second header.
`Needles()` then returns the second descriptor with size 259, which ends at
`32 + 24 + 259 = 315`, not at `currentSize`. -/
theorem Haystack.Needles_tile_example :
    ((Haystack.new 0 [] 1000 false).run
        [.Write 1 (List.replicate 8 0) 8, .Write 2 [7, 8, 9] 3]).currentSize = 59 ∧
      (((Haystack.new 0 [] 1000 false).run
        [.Write 1 (List.replicate 8 0) 8, .Write 2 [7, 8, 9] 3]).Delete
          ⟨0, 25, ⟨2 ^ 57, 0, 0⟩⟩).1 = .ok () ∧
      ((Haystack.new 0 [] 1000 false).run
        [.Write 1 (List.replicate 8 0) 8, .Write 2 [7, 8, 9] 3,
          .Delete ⟨0, 25, ⟨2 ^ 57, 0, 0⟩⟩]).currentSize = 59 ∧
      ((Haystack.new 0 [] 1000 false).run
        [.Write 1 (List.replicate 8 0) 8, .Write 2 [7, 8, 9] 3,
          .Delete ⟨0, 25, ⟨2 ^ 57, 0, 0⟩⟩]).Needles 59
        = .ok [⟨0, 0, ⟨1, 8, 0⟩⟩, ⟨0, 32, ⟨2, 259, 0⟩⟩] ∧
      32 + kFlagsSize + 259 ≠ 59 := by
  refine ⟨rfl, rfl, rfl, rfl, by decide⟩

/-- C19 (amended): for a volume created empty, after successful `Write`s and successful
`Delete`s of needles these `Write`s returned (no other `Delete` has succeeded),
the descriptors of `Needles()` tile the file: the first is at offset 0,
each next one at the previous offset plus `kFlagsSize` plus the previous size (so
offsets increase strictly), and the last one ends at `currentSize`. -/
theorem Haystack.Needles_tile (id M : Nat) (h : Haystack) (ns : List Needle)
    (hM : M < 2 ^ 64) (hH : Haystack.Hist id M h ns) (fuel : Nat) (hfuel : h.currentSize ≤ fuel) :
    ∃ ds, h.Needles fuel = .ok ds ∧
      (∀ d, ds.head? = some d → d.offset = 0) ∧
      (∀ (i : Nat) (d x : Needle), ds[i]? = some d → ds[i + 1]? = some x →
        x.offset = d.offset + kFlagsSize + d.flags.size ∧ d.offset < x.offset) ∧
      (∀ d, ds.getLast? = some d → d.offset + kFlagsSize + d.flags.size = h.currentSize) ∧
      (ds = [] → h.currentSize = 0) := by
  obtain ⟨hN, hT⟩ := hH.Needles hM fuel hfuel
  refine ⟨ns, hN, fun d hd => hT.head d hd, ?_, fun d hd => hT.last d hd, ?_⟩
  · intro i d x hd hx
    have := hT.next i d x hd hx
    have hk : kFlagsSize = 24 := rfl
    exact ⟨this, by omega⟩
  · intro hnil
    rw [hnil] at hT
    exact hT.symm

theorem Haystack.Needles_tile_witness :
    (1000 < 2 ^ 64 ∧
      Haystack.Hist 0 1000 ((Haystack.new 0 [] 1000 false).Write 42 [1, 2, 3] 3).2
        ([] ++ [⟨0, 0, ⟨42, 3, 0⟩⟩]) ∧
      ((Haystack.new 0 [] 1000 false).Write 42 [1, 2, 3] 3).2.currentSize ≤ 27) ∧
      ∃ ds, ((Haystack.new 0 [] 1000 false).Write 42 [1, 2, 3] 3).2.Needles 27 = .ok ds ∧
        (∀ d, ds.head? = some d → d.offset = 0) ∧
        (∀ (i : Nat) (d x : Needle), ds[i]? = some d → ds[i + 1]? = some x →
          x.offset = d.offset + kFlagsSize + d.flags.size ∧ d.offset < x.offset) ∧
        (∀ d, ds.getLast? = some d → d.offset + kFlagsSize + d.flags.size
          = ((Haystack.new 0 [] 1000 false).Write 42 [1, 2, 3] 3).2.currentSize) ∧
        (ds = [] → ((Haystack.new 0 [] 1000 false).Write 42 [1, 2, 3] 3).2.currentSize = 0) :=
  have hH : Haystack.Hist 0 1000 ((Haystack.new 0 [] 1000 false).Write 42 [1, 2, 3] 3).2
      ([] ++ [⟨0, 0, ⟨42, 3, 0⟩⟩]) :=
    Haystack.Hist.write _ _ 42 [1, 2, 3] 3 ⟨0, 0, ⟨42, 3, 0⟩⟩ _
      (Haystack.Hist.create []) (by decide) (by decide) rfl (by decide)
  ⟨⟨by decide, hH, by decide⟩,
    Haystack.Needles_tile 0 1000 _ _ (by decide) hH 27 (by decide)⟩

/-! ## Reopening a volume, and its capacity -/

theorem Haystack.NeedlesLoop_congr (h k : Haystack) (hf : k.file = h.file)
    (hc : k.currentSize = h.currentSize) (hi : k.id = h.id) :
    ∀ fuel pos acc, k.NeedlesLoop fuel pos acc = h.NeedlesLoop fuel pos acc := by
  intro fuel
  induction fuel with
  | zero =>
    intro pos acc
    unfold Haystack.NeedlesLoop
    rw [hc]
  | succ fuel ih =>
    intro pos acc
    unfold Haystack.NeedlesLoop
    rw [hc, hf, hi]
    by_cases hp : pos < h.currentSize
    · rw [if_pos hp, if_pos hp]
      cases readAt h.file pos kFlagsSize with
      | none => rfl
      | some bs => exact ih _ _
    · rw [if_neg hp, if_neg hp]

theorem Haystack.Read_congr (h k : Haystack) (hf : k.file = h.file)
    (hc : k.currentSize = h.currentSize) (hi : k.id = h.id) (n : Needle) :
    k.Read n = h.Read n := by
  unfold Haystack.Read
  rw [hc, hf, hi]

/-- Reopening a volume with a history over its file: everything but the read-only flag
is as before, and the flag is too unless the volume is still empty. -/
theorem Haystack.Hist.reopen {id M : Nat} {h : Haystack} {ns : List Needle}
    (hH : Haystack.Hist id M h ns) (hM : M < 2 ^ 64) :
    h.file.length = h.currentSize ∧
      Haystack.new id h.file M true
        = { h with isReadOnly := decide (h.currentSize ≥ M) } ∧
      (0 < M ∨ ns ≠ [] → Haystack.new id h.file M true = h) := by
  obtain ⟨rs, hT, hns, hhid, hmax, _, _, hro, hro0⟩ := hH.tiled hM
  have e : Haystack.new id h.file M true
      = { h with isReadOnly := decide (h.currentSize ≥ M) } := by
    cases h with
    | mk f mx cs i ro =>
      simp only at hhid hmax
      have hl : f.length = cs := hT.len
      subst hhid hmax hl
      rfl
  refine ⟨hT.len, e, ?_⟩
  intro hc
  rw [e]
  have hflag : h.isReadOnly = decide (h.currentSize ≥ M) := by
    by_cases hpos : 0 < M
    · exact hro hpos
    · have hM0 : M = 0 := by omega
      rcases hc with hc | hc
      · exact absurd hc hpos
      · cases rs with
        | nil => exact absurd hns hc
        | cons r rs1 =>
          have hr : RecOK r := hT.ok r (List.mem_cons_self _ _)
          have hlen := hT.len
          rw [hT.file] at hlen
          simp only [layout, List.length_append, recBytes_length r hr] at hlen
          have hk : kFlagsSize = 24 := rfl
          obtain ⟨_, _, _, _, _, hle, _⟩ := hH.tiled hM
          omega
  rw [← hflag]

/-- Whatever the reopened volume's flag, reading and scanning it give what they gave
before it was closed. -/
theorem Haystack.Hist.reopen_reads {id M : Nat} {h : Haystack} {ns : List Needle}
    (hH : Haystack.Hist id M h ns) (hM : M < 2 ^ 64) :
    (Haystack.new id h.file M true).currentSize = h.currentSize ∧
      (Haystack.new id h.file M true).FreeCount = h.FreeCount ∧
      (∀ fuel, (Haystack.new id h.file M true).Needles fuel = h.Needles fuel) ∧
      (∀ n, (Haystack.new id h.file M true).Read n = h.Read n) := by
  obtain ⟨_, e, _⟩ := hH.reopen hM
  rw [e]
  refine ⟨rfl, rfl, ?_, ?_⟩
  · intro fuel
    exact Haystack.NeedlesLoop_congr h { h with isReadOnly := decide (h.currentSize ≥ M) }
      rfl rfl rfl fuel 0 []
  · intro n
    exact Haystack.Read_congr h { h with isReadOnly := decide (h.currentSize ≥ M) }
      rfl rfl rfl n

theorem Haystack.Delete_fields (h : Haystack) (n : Needle) :
    (h.Delete n).2.2.currentSize = h.currentSize ∧ (h.Delete n).2.2.maxSize = h.maxSize ∧
      (h.Delete n).2.2.id = h.id ∧ (h.Delete n).2.2.isReadOnly = h.isReadOnly := by
  unfold Haystack.Delete
  split
  · exact ⟨rfl, rfl, rfl, rfl⟩
  · split
    · exact ⟨rfl, rfl, rfl, rfl⟩
    · dsimp only
      split
      · exact ⟨rfl, rfl, rfl, rfl⟩
      · split <;> exact ⟨rfl, rfl, rfl, rfl⟩

/-- The first `Write` on a volume just created, when the record fits. -/
theorem Haystack.Write_fresh (id : Nat) (disk : List Byte) (M needleId : Nat) (buff : List Byte)
    (size : Nat) (hM : M < 2 ^ 64) (hfit : kFlagsSize + size ≤ M) (hsz : size < 2 ^ 63) :
    ((Haystack.new id disk M false).Write needleId buff size).1
        = .ok (Needle.new id 0 needleId size) ∧
      ((Haystack.new id disk M false).Write needleId buff size).2.FreeCount
        = M - (kFlagsSize + size) := by
  have hW := Haystack.Write_fits (Haystack.new id disk M false) needleId buff size rfl
    (by show 0 + kFlagsSize + size ≤ M; omega) hM rfl hsz
  rw [hW]
  refine ⟨rfl, ?_⟩
  show sub64 M (0 + kFlagsSize + size) = _
  rw [sub64_of_le (by omega) hM]
  omega

/-- C12 (as stated, refuted): on a volume created empty with `maxSize = 1000`, after the
`Write` of needle 42 with a 400-byte payload `FreeCount()` is 576, not 583. -/
theorem Haystack.header_cost_example :
    ((Haystack.new 0 [] 1000 false).Write 42 (List.replicate 400 0) 400).1
        = .ok ⟨0, 0, ⟨42, 400, 0⟩⟩ ∧
      ((Haystack.new 0 [] 1000 false).Write 42 (List.replicate 400 0) 400).2.FreeCount = 576 ∧
      ((Haystack.new 0 [] 1000 false).Write 42 (List.replicate 400 0) 400).2.FreeCount ≠ 583 := by
  obtain ⟨h1, h2⟩ := Haystack.Write_fresh 0 [] 1000 42 (List.replicate 400 0) 400 (by decide)
    (by decide) (by decide)
  refine ⟨h1, h2, ?_⟩
  rw [h2]
  decide

/-- C12 (amended): on a volume created empty with `maxSize = 1000`, the `Write` of
needle 42 with a 400-byte payload succeeds and leaves
`FreeCount() = 1000 - (kFlagsSize + 400) = 576`: each record consumes the
`sizeof(NeedleFlags) = 24` bytes of its header plus its payload. -/
theorem Haystack.header_cost (id : Nat) (disk buff : List Byte) :
    ((Haystack.new id disk 1000 false).Write 42 buff 400).1 = .ok ⟨id, 0, ⟨42, 400, 0⟩⟩ ∧
      ((Haystack.new id disk 1000 false).Write 42 buff 400).2.FreeCount
        = 1000 - (kFlagsSize + 400) ∧
      1000 - (kFlagsSize + 400) = 576 ∧ kFlagsSize = 24 := by
  obtain ⟨h1, h2⟩ := Haystack.Write_fresh id disk 1000 42 buff 400 (by decide) (by decide)
    (by decide)
  exact ⟨h1, h2, rfl, rfl⟩

/-! ## Sequences of calls: the size bound and the read-only flag -/

theorem wrap64_add_wrap64 (a b : Nat) : wrap64 (a + wrap64 b) = wrap64 (a + b) := by
  unfold wrap64
  omega

theorem Haystack.Write_state (h : Haystack) (needleId : Nat) (buff : List Byte) (size : Nat) :
    ((∃ e, (h.Write needleId buff size).1 = .error e) ∧
        (h.Write needleId buff size).2.maxSize = h.maxSize ∧
        (h.Write needleId buff size).2.id = h.id ∧
        (h.Write needleId buff size).2.currentSize = h.currentSize ∧
        (h.Write needleId buff size).2.isReadOnly = h.isReadOnly ∧
        ((h.Write needleId buff size).2.file = h.file ∨
          (h.Write needleId buff size).2.file
            = writeAt h.file h.currentSize (encodeFlags (NeedleFlags.new needleId size)))) ∨
      ((∃ n, (h.Write needleId buff size).1 = .ok n) ∧
        (h.Write needleId buff size).2.maxSize = h.maxSize ∧
        (h.Write needleId buff size).2.id = h.id ∧
        (h.Write needleId buff size).2.currentSize = wrap64 (h.currentSize + kFlagsSize + size) ∧
        (h.Write needleId buff size).2.currentSize ≤ h.maxSize ∧
        (h.Write needleId buff size).2.isReadOnly
          = decide ((h.Write needleId buff size).2.currentSize ≥ h.maxSize) ∧
        h.isReadOnly = false ∧
        (h.Write needleId buff size).2.file
          = writeAt (writeAt h.file h.currentSize (encodeFlags (NeedleFlags.new needleId size)))
              (h.currentSize + kFlagsSize) (buff.take size)) := by
  unfold Haystack.Write
  by_cases hg : h.isReadOnly = true ∨ wrap64 (h.currentSize + kFlagsSize + size) > h.maxSize
  · rw [if_pos hg]
    exact Or.inl ⟨⟨_, rfl⟩, rfl, rfl, rfl, rfl, Or.inl rfl⟩
  · rw [if_neg hg]
    by_cases hbad : size ≥ 2 ^ 63
    · rw [if_pos hbad]
      exact Or.inl ⟨⟨_, rfl⟩, rfl, rfl, rfl, rfl, Or.inr rfl⟩
    rw [if_neg hbad]
    right
    have hw : wrap64 (h.currentSize + wrap64 (kFlagsSize + size))
        = wrap64 (h.currentSize + kFlagsSize + size) := by
      rw [wrap64_add_wrap64, Nat.add_assoc]
    have hro : h.isReadOnly = false := by
      cases hb : h.isReadOnly
      · rfl
      · exact absurd (Or.inl hb) hg
    refine ⟨⟨_, rfl⟩, rfl, rfl, hw, ?_, rfl, hro, rfl⟩
    show wrap64 (h.currentSize + wrap64 (kFlagsSize + size)) ≤ h.maxSize
    rw [hw]
    have := fun hc => hg (Or.inr hc)
    omega

theorem Haystack.step_maxSize (h : Haystack) (op : Op) : (h.step op).maxSize = h.maxSize := by
  cases op with
  | Write needleId buff size =>
    rcases Haystack.Write_state h needleId buff size with ⟨_, hm, _⟩ | ⟨_, hm, _⟩
    · exact hm
    · exact hm
  | Delete needle => exact (Haystack.Delete_fields h needle).2.1
  | Read _ => rfl
  | Needles _ => rfl
  | FreeCount => rfl

theorem Haystack.step_le (h : Haystack) (op : Op) (hle : h.currentSize ≤ h.maxSize) :
    (h.step op).currentSize ≤ (h.step op).maxSize := by
  rw [Haystack.step_maxSize]
  cases op with
  | Write needleId buff size =>
    rcases Haystack.Write_state h needleId buff size with ⟨_, _, _, hc, _⟩ | ⟨_, _, _, _, hc, _⟩
    · show (h.Write needleId buff size).2.currentSize ≤ _
      rw [hc]
      exact hle
    · exact hc
  | Delete needle =>
    show (h.Delete needle).2.2.currentSize ≤ _
    rw [(Haystack.Delete_fields h needle).1]
    exact hle
  | Read _ => exact hle
  | Needles _ => exact hle
  | FreeCount => exact hle

theorem Haystack.step_ro (h : Haystack) (op : Op)
    (hro : h.isReadOnly = decide (h.currentSize ≥ h.maxSize)) :
    (h.step op).isReadOnly = decide ((h.step op).currentSize ≥ (h.step op).maxSize) := by
  rw [Haystack.step_maxSize]
  cases op with
  | Write needleId buff size =>
    rcases Haystack.Write_state h needleId buff size with
      ⟨_, _, _, hc, hr, _⟩ | ⟨_, _, _, _, _, hr, _⟩
    · show (h.Write needleId buff size).2.isReadOnly
        = decide ((h.Write needleId buff size).2.currentSize ≥ _)
      rw [hc, hr]
      exact hro
    · exact hr
  | Delete needle =>
    show (h.Delete needle).2.2.isReadOnly = decide ((h.Delete needle).2.2.currentSize ≥ _)
    rw [(Haystack.Delete_fields h needle).1, (Haystack.Delete_fields h needle).2.2.2]
    exact hro
  | Read _ => exact hro
  | Needles _ => exact hro
  | FreeCount => exact hro

theorem Haystack.run_cons (h : Haystack) (op : Op) (ops : List Op) :
    h.run (op :: ops) = (h.step op).run ops := rfl

theorem Haystack.run_le (ops : List Op) :
    ∀ h : Haystack, h.currentSize ≤ h.maxSize →
      (h.run ops).currentSize ≤ (h.run ops).maxSize := by
  induction ops with
  | nil => exact fun h hle => hle
  | cons op ops ih => exact fun h hle => ih (h.step op) (Haystack.step_le h op hle)

theorem Haystack.run_ro (ops : List Op) :
    ∀ h : Haystack, h.isReadOnly = decide (h.currentSize ≥ h.maxSize) →
      (h.run ops).isReadOnly = decide ((h.run ops).currentSize ≥ (h.run ops).maxSize) := by
  induction ops with
  | nil => exact fun h hro => hro
  | cons op ops ih => exact fun h hro => ih (h.step op) (Haystack.step_ro h op hro)

theorem Haystack.step_readOnly (h : Haystack) (op : Op) (hro : h.isReadOnly = true) :
    h.step op = h ∨ ∃ n, op = .Delete n ∧ h.step op = (h.Delete n).2.2 := by
  cases op with
  | Write needleId buff size =>
    left
    show (h.Write needleId buff size).2 = h
    rw [Haystack.Write_noFit h needleId buff size (Or.inl hro)]
  | Delete needle => exact Or.inr ⟨needle, rfl, rfl⟩
  | Read _ => exact Or.inl rfl
  | Needles _ => exact Or.inl rfl
  | FreeCount => exact Or.inl rfl

/-- C25 (as stated, refuted): a volume opened over an existing file of five bytes
with `maxSize = 3` has `currentSize = 5`, above `maxSize`. -/
theorem Haystack.size_bound_example :
    (Haystack.new 0 [1, 2, 3, 4, 5] 3 true).currentSize = 5 ∧
      (Haystack.new 0 [1, 2, 3, 4, 5] 3 true).maxSize = 3 ∧
      ¬ ((Haystack.new 0 [1, 2, 3, 4, 5] 3 true).run []).currentSize
          ≤ ((Haystack.new 0 [1, 2, 3, 4, 5] 3 true).run []).maxSize := by
  decide

/-- C25 (amended): for a volume created empty with any `maxSize`, or opened over an
existing file that is not longer than `maxSize`, `currentSize <= maxSize` holds
after every sequence of `Write`, `Read`, `Delete`, `Needles` and `FreeCount`
calls, whatever their arguments and whether they succeed or throw. -/
theorem Haystack.size_bound (id : Nat) (disk : List Byte) (maxSize : Nat) ( fromFile : Bool)
    (hfile : fromFile = true → disk.length ≤ maxSize) (ops : List Op) :
    ((Haystack.new id disk maxSize fromFile).run ops).currentSize
      ≤ ((Haystack.new id disk maxSize fromFile).run ops).maxSize := by
  apply Haystack.run_le
  cases fromFile with
  | false => exact Nat.zero_le _
  | true => exact hfile rfl

theorem Haystack.size_bound_witness :
    ((true = true → ([1, 2, 3] : List Byte).length ≤ 100) ∧
      ((Haystack.new 0 [1, 2, 3] 100 true).run [.Write 7 [9] 1, .Delete ⟨0, 3, ⟨7, 1, 0⟩⟩]).currentSize
        ≤ ((Haystack.new 0 [1, 2, 3] 100 true).run
            [.Write 7 [9] 1, .Delete ⟨0, 3, ⟨7, 1, 0⟩⟩]).maxSize) :=
  ⟨fun _ => by decide,
    Haystack.size_bound 0 [1, 2, 3] 100 true (fun _ => by decide)
      [.Write 7 [9] 1, .Delete ⟨0, 3, ⟨7, 1, 0⟩⟩]⟩

/-- A `Write` whose size is `2 ^ 63` or more leaves `currentSize` as it is, also when
the sum of the fit check wraps: on a volume of `maxSize = 1000` holding one record
(`currentSize = 27`), `Write` with `size = 2 ^ 64 - 51` passes the fit check and
ends in the failure of the payload write. -/
theorem Haystack.Write_huge_example (buff : List Byte) :
    ((Haystack.new 0 [] 1000 false).run [.Write 42 [1, 2, 3] 3]).currentSize = 27 ∧
      (((Haystack.new 0 [] 1000 false).run [.Write 42 [1, 2, 3] 3]).Write 1 buff
        (2 ^ 64 - 51)).1 = .error .ioFailure ∧
      ((Haystack.new 0 [] 1000 false).run
          [.Write 42 [1, 2, 3] 3, .Write 1 buff (2 ^ 64 - 51)]).currentSize = 27 :=
  ⟨rfl, rfl, rfl⟩

/-- C29 (as stated, refuted): a volume created empty with `maxSize = 0` has
`currentSize >= maxSize` and `isReadOnly = false`. -/
theorem Haystack.read_only_flag_example :
    ((Haystack.new 0 [] 0 false).run []).isReadOnly = false ∧
      ((Haystack.new 0 [] 0 false).run []).currentSize
        ≥ ((Haystack.new 0 [] 0 false).run []).maxSize := by
  decide

/-- C29 (amended): for a volume created empty with `maxSize > 0`, or opened over an
existing file (with any `maxSize`), `isReadOnly` is true if and only if
`currentSize >= maxSize`, after every sequence of `Write`, `Read`, `Delete`,
`Needles` and `FreeCount` calls, whatever their arguments and whether they
succeed or throw. -/
theorem Haystack.read_only_flag (id : Nat) (disk : List Byte) (maxSize : Nat) ( fromFile : Bool)
    (hnew : fromFile = false → 0 < maxSize) (ops : List Op) :
    ((Haystack.new id disk maxSize fromFile).run ops).isReadOnly = true ↔
      ((Haystack.new id disk maxSize fromFile).run ops).currentSize
        ≥ ((Haystack.new id disk maxSize fromFile).run ops).maxSize := by
  have h := Haystack.run_ro ops (Haystack.new id disk maxSize fromFile) (by
    cases fromFile with
    | false =>
      have := hnew rfl
      show false = decide (0 ≥ maxSize)
      symm
      rw [decide_eq_false_iff_not]
      omega
    | true => rfl)
  rw [h, decide_eq_true_iff]

theorem Haystack.read_only_flag_witness :
    ((false = false → 0 < 27) ∧
      (((Haystack.new 0 [] 27 false).run [.Write 42 [1, 2, 3] 3]).isReadOnly = true ↔
        ((Haystack.new 0 [] 27 false).run [.Write 42 [1, 2, 3] 3]).currentSize
          ≥ ((Haystack.new 0 [] 27 false).run [.Write 42 [1, 2, 3] 3]).maxSize)) :=
  ⟨fun _ => by decide, Haystack.read_only_flag 0 [] 27 false (fun _ => by decide) _⟩

/-! ## What a later call leaves in place -/

theorem Haystack.NeedlesLoop_noFuel (h : Haystack) (rs : List Rec) :
    ∀ (A : List Byte) (fuel : Nat) (acc : List Needle),
      h.file = A ++ layout rs → (∀ r ∈ rs, RecOK r) → h.file.length = h.currentSize →
      h.currentSize < 2 ^ 64 → fuel < rs.length →
      h.NeedlesLoop fuel A.length acc = .error .noFuel := by
  induction rs with
  | nil =>
    intro A fuel acc _ _ _ _ hfuel
    simp at hfuel
  | cons r rs ih =>
    intro A fuel acc hfile hok hlen hcs hfuel
    have hr : RecOK r := hok r (List.mem_cons_self _ _)
    have hrs : ∀ x ∈ rs, RecOK x := fun x hx => hok x (List.mem_cons_of_mem _ hx)
    have hfile2 : h.file = A ++ encodeFlags r.1 ++ (r.2 ++ layout rs) := by
      rw [hfile]; simp [layout, recBytes]
    have hfile3 : h.file = (A ++ recBytes r) ++ layout rs := by
      rw [hfile]; simp [layout]
    have hl : h.currentSize = A.length + (kFlagsSize + r.1.size) + (layout rs).length := by
      rw [← hlen, hfile3]
      simp only [List.length_append, recBytes_length r hr]
    have hread : readAt h.file A.length kFlagsSize = some (encodeFlags r.1) := by
      rw [hfile2, ← encodeFlags_length r.1]; exact readAt_append _ _ _
    have hk : kFlagsSize = 24 := rfl
    have w1 : wrap64 (kFlagsSize + r.1.size) = kFlagsSize + r.1.size := wrap64_of_lt (by omega)
    have w2 : wrap64 (A.length + (kFlagsSize + r.1.size)) = A.length + (kFlagsSize + r.1.size) :=
      wrap64_of_lt (by omega)
    have hnext : A.length + (kFlagsSize + r.1.size) = (A ++ recBytes r).length := by
      simp only [List.length_append, recBytes_length r hr]
    unfold Haystack.NeedlesLoop
    rw [if_pos (by omega)]
    cases fuel with
    | zero => rfl
    | succ fuel1 =>
      simp only [hread, decodeFlags_encodeFlags r.1 hr.1 hr.2.1, w1, w2]
      rw [hnext]
      exact ih (A ++ recBytes r) fuel1 _ hfile3 hrs hlen hcs (by simp at hfuel; omega)

theorem descr_length (id : Nat) (rs : List Rec) : ∀ p, (descr id p rs).length = rs.length := by
  induction rs with
  | nil => intro p; rfl
  | cons r rs ih => intro p; simp [descr, ih]

theorem Tiles.bound : ∀ {ds : List Needle} {p e : Nat}, Tiles p ds e →
    p ≤ e ∧ ∀ d ∈ ds, p ≤ d.offset ∧ d.offset + kFlagsSize + d.flags.size ≤ e := by
  intro ds
  induction ds with
  | nil =>
    intro p e ht
    exact ⟨Nat.le_of_eq ht, fun d hd => absurd hd (List.not_mem_nil _)⟩
  | cons x ds ih =>
    intro p e ht
    obtain ⟨hx, hrest⟩ := ht
    obtain ⟨hle, hall⟩ := ih hrest
    refine ⟨by omega, ?_⟩
    intro d hd
    rcases List.mem_cons.mp hd with hd | hd
    · subst hd
      exact ⟨by omega, by omega⟩
    · have := hall d hd
      exact ⟨by omega, this.2⟩

set_option maxRecDepth 100000 in
/-- C30 (as stated, refuted): a volume created empty, after `Write(1, ..., 3)` of three
zero bytes, `Write(2, ..., 10)` and `Write(3, ..., 256)` of a payload that holds,
from its byte 232 on, the 24 bytes of a header with size `2^64 - 341`, has
`currentSize = 341`.  `Delete` of the descriptor (offset 20, id `2^57`) succeeds
and sets the byte at offset 36, the second byte of the size field of the second
header, whose size becomes 266.  The scan of `Needles()` then goes from 0 to 27,
from 27 to `27 + 24 + 266 = 317`, inside the third payload, and from there to
`317 + 24 + (2^64 - 341) = 2^64`, which is position 0 again: it is cut off by
every bound on the number of iterations. -/
theorem Haystack.Needles_loops_example :
    ((Haystack.new 0 [] 1000 false).run
        [.Write 1 [0, 0, 0] 3, .Write 2 (List.replicate 10 0) 10,
          .Write 3 (List.replicate 232 0 ++ encodeFlags ⟨0, 2 ^ 64 - 341, 0⟩) 256]).currentSize
        = 341 ∧
      (((Haystack.new 0 [] 1000 false).run
        [.Write 1 [0, 0, 0] 3, .Write 2 (List.replicate 10 0) 10,
          .Write 3 (List.replicate 232 0 ++ encodeFlags ⟨0, 2 ^ 64 - 341, 0⟩) 256]).Delete
          ⟨0, 20, ⟨2 ^ 57, 0, 0⟩⟩).1 = .ok () ∧
      ∀ fuel, ((Haystack.new 0 [] 1000 false).run
        [.Write 1 [0, 0, 0] 3, .Write 2 (List.replicate 10 0) 10,
          .Write 3 (List.replicate 232 0 ++ encodeFlags ⟨0, 2 ^ 64 - 341, 0⟩) 256,
          .Delete ⟨0, 20, ⟨2 ^ 57, 0, 0⟩⟩]).Needles fuel = .error .noFuel := by
  refine ⟨rfl, rfl, ?_⟩
  intro fuel
  apply Haystack.NeedlesLoop_trapped _ (fun p => p = 0 ∨ p = 27 ∨ p = 317) _ fuel 0 []
    (Or.inl rfl)
  intro p hp
  rcases hp with rfl | rfl | rfl
  · exact ⟨by decide, _, rfl, Or.inr (Or.inl rfl)⟩
  · exact ⟨by decide, _, rfl, Or.inr (Or.inr rfl)⟩
  · exact ⟨by decide, _, rfl, Or.inl rfl⟩

/-- C30 (amended): for a volume created empty, after successful `Write`s and successful
`Delete`s of needles these `Write`s returned (no other `Delete` has succeeded),
the loop of `Needles()` ends after exactly as many iterations as there
are records: a bound below that number cuts the loop off, every bound from that
number on lets it return.  The position of each iteration is the previous one
plus `kFlagsSize` plus the size of the header read there, so positions increase
strictly, none steps past `currentSize`, and the last step lands on
`currentSize`. -/
theorem Haystack.Needles_terminates (id M : Nat) (h : Haystack) (ns : List Needle)
    (hM : M < 2 ^ 64) (hH : Haystack.Hist id M h ns) :
    (∀ fuel, fuel < ns.length → h.Needles fuel = .error .noFuel) ∧
      (∀ fuel, ns.length ≤ fuel → h.Needles fuel = .ok ns) ∧
      (∀ (i : Nat) (d x : Needle), ns[i]? = some d → ns[i + 1]? = some x →
        x.offset = d.offset + kFlagsSize + d.flags.size ∧ d.offset < x.offset) ∧
      (∀ d ∈ ns, d.offset < h.currentSize ∧
        d.offset + kFlagsSize + d.flags.size ≤ h.currentSize) ∧
      (∀ d, ns.getLast? = some d → d.offset + kFlagsSize + d.flags.size = h.currentSize) := by
  obtain ⟨rs, hT, hns, hhid, _, _, _, _, _⟩ := hH.tiled hM
  have hlen : ns.length = rs.length := by rw [hns, descr_length]
  have hTi := (hH.Needles hM h.currentSize (Nat.le_refl _)).2
  have hk : kFlagsSize = 24 := rfl
  refine ⟨?_, ?_, ?_, ?_, fun d hd => hTi.last d hd⟩
  · intro fuel hfuel
    have := Haystack.NeedlesLoop_noFuel h rs [] fuel [] (by simpa using hT.file) hT.ok hT.len
      hT.cs (by omega)
    simpa [Haystack.Needles] using this
  · intro fuel hfuel
    have := Haystack.Needles_layout h rs fuel hT.file hT.ok hT.len hT.cs (by omega)
    rw [hhid, ← hns] at this
    exact this
  · intro i d x hd hx
    have := hTi.next i d x hd hx
    exact ⟨this, by omega⟩
  · intro d hd
    have := hTi.bound.2 d hd
    exact ⟨by omega, this.2⟩

theorem Haystack.Needles_terminates_witness :
    (1000 < 2 ^ 64 ∧
      Haystack.Hist 0 1000 ((Haystack.new 0 [] 1000 false).Write 42 [1, 2, 3] 3).2
        ([] ++ [⟨0, 0, ⟨42, 3, 0⟩⟩])) ∧
      ((∀ fuel, fuel < ([] ++ [⟨0, 0, ⟨42, 3, 0⟩⟩] : List Needle).length →
          ((Haystack.new 0 [] 1000 false).Write 42 [1, 2, 3] 3).2.Needles fuel
            = .error .noFuel) ∧
        (∀ fuel, ([] ++ [⟨0, 0, ⟨42, 3, 0⟩⟩] : List Needle).length ≤ fuel →
          ((Haystack.new 0 [] 1000 false).Write 42 [1, 2, 3] 3).2.Needles fuel
            = .ok ([] ++ [⟨0, 0, ⟨42, 3, 0⟩⟩])) ∧
        (∀ (i : Nat) (d x : Needle), ([] ++ [⟨0, 0, ⟨42, 3, 0⟩⟩] : List Needle)[i]? = some d →
          ([] ++ [⟨0, 0, ⟨42, 3, 0⟩⟩] : List Needle)[i + 1]? = some x →
          x.offset = d.offset + kFlagsSize + d.flags.size ∧ d.offset < x.offset) ∧
        (∀ d ∈ ([] ++ [⟨0, 0, ⟨42, 3, 0⟩⟩] : List Needle),
          d.offset < ((Haystack.new 0 [] 1000 false).Write 42 [1, 2, 3] 3).2.currentSize ∧
          d.offset + kFlagsSize + d.flags.size
            ≤ ((Haystack.new 0 [] 1000 false).Write 42 [1, 2, 3] 3).2.currentSize) ∧
        (∀ d, ([] ++ [⟨0, 0, ⟨42, 3, 0⟩⟩] : List Needle).getLast? = some d →
          d.offset + kFlagsSize + d.flags.size
            = ((Haystack.new 0 [] 1000 false).Write 42 [1, 2, 3] 3).2.currentSize)) :=
  have hH : Haystack.Hist 0 1000 ((Haystack.new 0 [] 1000 false).Write 42 [1, 2, 3] 3).2
      ([] ++ [⟨0, 0, ⟨42, 3, 0⟩⟩]) :=
    Haystack.Hist.write _ _ 42 [1, 2, 3] 3 ⟨0, 0, ⟨42, 3, 0⟩⟩ _
      (Haystack.Hist.create []) (by decide) (by decide) rfl (by decide)
  ⟨⟨by decide, hH⟩, Haystack.Needles_terminates 0 1000 _ _ (by decide) hH⟩

/-! ## Reading a record after later calls -/

theorem layout_eq_nil (rs : List Rec) (h : layout rs = []) : rs = [] := by
  cases rs with
  | nil => rfl
  | cons r rs =>
    have := congrArg List.length h
    simp [layout, recBytes, encodeFlags_length, kFlagsSize] at this

theorem Haystack.Read_ok_id (h : Haystack) (n : Needle) (b : List Byte) (hR : h.Read n = .ok b) :
    n.haystackId = h.id := by
  by_contra hid
  rw [(Haystack.Read_refuses h n).1 hid] at hR
  cases hR

/-- The outcome of `Read` for a descriptor whose offset is the start of the record `r`. -/
theorem Tiled.Read_record {h : Haystack} {rs : List Rec} (hv : Tiled h rs) (n : Needle)
    (pre : List Rec) (r : Rec) (post : List Rec) (hrs : rs = pre ++ r :: post)
    (hoff : n.offset = (layout pre).length) (hid : n.haystackId = h.id) :
    h.Read n =
      if (r.2 = [] ∧ post = []) ∨ r.1.isDeleted ≠ 0 ∨ r.1.id ≠ n.flags.id ∨
          r.1.size ≠ n.flags.size then
        .error (.haystackErr .BadNeedle)
      else .ok r.2 := by
  have hr : RecOK r := hv.ok r (by rw [hrs]; simp)
  have hfile : h.file = layout pre ++ encodeFlags r.1 ++ (r.2 ++ layout post) := by
    rw [hv.file, hrs, layout_append]; simp [layout, recBytes]
  rw [Haystack.Read_at h n (layout pre) (r.2 ++ layout post) r.1 hfile hoff hid hv.len hv.cs
    hr.1 hr.2.1]
  have hB : (r.2 ++ layout post = []) ↔ (r.2 = [] ∧ post = []) := by
    constructor
    · intro hc
      obtain ⟨h1, h2⟩ := List.append_eq_nil.mp hc
      exact ⟨h1, layout_eq_nil post h2⟩
    · rintro ⟨h1, h2⟩
      rw [h1, h2]
      rfl
  have ht : (r.2 ++ layout post).take r.1.size = r.2 := by
    rw [← hr.2.2, List.take_left']
    rfl
  simp only [hB, ht]

theorem split_two {α : Type} (pre pre2 post post2 : List α) (r r2 : α)
    (he : pre ++ r :: post = pre2 ++ r2 :: post2) (hne : pre ≠ pre2) :
    (∃ mid, pre2 = pre ++ r :: mid ∧ post = mid ++ r2 :: post2) ∨
      (∃ mid, pre = pre2 ++ r2 :: mid ∧ post2 = mid ++ r :: post) := by
  rcases List.append_eq_append_iff.mp he with ⟨a, ha, hb⟩ | ⟨c, hc, hd⟩
  · cases a with
    | nil => exact absurd (by simpa using ha.symm) hne
    | cons x mid =>
      simp only [List.cons_append, List.cons.injEq] at hb
      left
      exact ⟨mid, by rw [ha, hb.1], hb.2⟩
  · cases c with
    | nil => exact absurd (by simpa using hc) hne
    | cons x mid =>
      simp only [List.cons_append, List.cons.injEq] at hd
      right
      exact ⟨mid, by rw [hc, hd.1], hd.2⟩

theorem layout_tombIf_length (pre : List Rec) (r : Rec) (mid : List Rec) :
    (layout (pre ++ tombIf r :: mid)).length = (layout (pre ++ r :: mid)).length := by
  have : (recBytes (tombIf r)).length = (recBytes r).length := by
    unfold tombIf
    split
    · simp [recBytes, tomb, encodeFlags_length]
    · rfl
  simp only [layout_append, layout, List.length_append, this]

/-- The volume after a successful `Write` holds one more record. -/
theorem Tiled.write_record {h : Haystack} {rs : List Rec} (hv : Tiled h rs) (needleId : Nat)
    (buff : List Byte) (size : Nat) (n : Needle) (h1 : Haystack) (hid : needleId < 2 ^ 64)
    (hsz : size ≤ buff.length) (hW : h.Write needleId buff size = (.ok n, h1))
    (hfile : h1.file.length < 2 ^ 64) :
    Tiled h1 (rs ++ [(NeedleFlags.new needleId size, buff.take size)]) ∧ h1.id = h.id := by
  obtain ⟨_, _, _, rfl⟩ := Haystack.Write_ok_inv h h1 needleId buff size n hsz hW hfile
  have hk : kFlagsSize = 24 := rfl
  have hf : writeAt h.file h.currentSize
      (encodeFlags (NeedleFlags.new needleId size) ++ buff.take size)
      = layout (rs ++ [(NeedleFlags.new needleId size, buff.take size)]) := by
    rw [← hv.len, writeAt_length_eq, hv.file, layout_append]
    simp [layout, recBytes]
  have hl : (writeAt h.file h.currentSize
      (encodeFlags (NeedleFlags.new needleId size) ++ buff.take size)).length
      = h.currentSize + kFlagsSize + size := by
    rw [← hv.len, writeAt_length_eq]
    simp only [List.length_append, encodeFlags_length, List.length_take]
    omega
  refine ⟨⟨hf, hl, ?_, ?_⟩, rfl⟩
  · show h.currentSize + kFlagsSize + size < 2 ^ 64
    rw [← hl]
    exact hfile
  · intro x hx
    rcases List.mem_append.mp hx with hx | hx
    · exact hv.ok x hx
    · rw [List.mem_singleton.mp hx]
      refine ⟨hid, ?_, ?_⟩
      · show size < 2 ^ 64
        have : (writeAt h.file h.currentSize
            (encodeFlags (NeedleFlags.new needleId size) ++ buff.take size)).length < 2 ^ 64 :=
          hfile
        rw [hl] at this
        omega
      · show (buff.take size).length = size
        rw [List.length_take]
        omega

set_option maxRecDepth 4096 in
/-- C21 (as stated, refuted): a volume that holds a record of 24 payload bytes and
after it a record of 3 payload bytes, both written by `Write`.  The payload of the
first has the form of a header (id 99, size 17), so `Read` succeeds for the
descriptor (offset 24, id 99, size 17) and returns the 17 bytes from offset 48 on,
which are the first bytes of the second record's header.  After the successful
`Delete` of the needle the second `Write` returned, `Read` of that descriptor
returns other bytes. -/
theorem Haystack.Read_disturbed_example :
    ((Haystack.new 0 [] 1000 false).run
        [.Write 1 (encodeFlags ⟨99, 17, 0⟩) 24]).Write 2 [5, 6, 7] 3
      = (.ok ⟨0, 48, ⟨2, 3, 0⟩⟩,
          (Haystack.new 0 [] 1000 false).run
            [.Write 1 (encodeFlags ⟨99, 17, 0⟩) 24, .Write 2 [5, 6, 7] 3]) ∧
      ((Haystack.new 0 [] 1000 false).run
          [.Write 1 (encodeFlags ⟨99, 17, 0⟩) 24, .Write 2 [5, 6, 7] 3]).Read ⟨0, 24, ⟨99, 17, 0⟩⟩
        = .ok [2, 0, 0, 0, 0, 0, 0, 0, 3, 0, 0, 0, 0, 0, 0, 0, 0] ∧
      (((Haystack.new 0 [] 1000 false).run
          [.Write 1 (encodeFlags ⟨99, 17, 0⟩) 24, .Write 2 [5, 6, 7] 3]).Delete
            ⟨0, 48, ⟨2, 3, 0⟩⟩).1 = .ok () ∧
      ((Haystack.new 0 [] 1000 false).run
          [.Write 1 (encodeFlags ⟨99, 17, 0⟩) 24, .Write 2 [5, 6, 7] 3,
            .Delete ⟨0, 48, ⟨2, 3, 0⟩⟩]).Read ⟨0, 24, ⟨99, 17, 0⟩⟩
        = .ok [2, 0, 0, 0, 0, 0, 0, 0, 3, 0, 0, 0, 0, 0, 0, 0, 1] := by
  refine ⟨rfl, rfl, rfl, rfl⟩

/-- C21 (amended): for every volume whose file consists of records and every needle `n`
whose offset is the start of one of them (as for the needles `Write` and
`Needles` return) and for which `Read(n)` succeeds with bytes `b`: after any
further successful `Write`, and after a successful `Delete` of any needle whose
offset is the start of a different record, `Read(n)` still succeeds and returns
the same bytes `b`. -/
theorem Haystack.Read_stable (h : Haystack) (rs : List Rec) (hT : Tiled h rs) (n : Needle)
    (b : List Byte) (hn : ∃ d ∈ descr h.id 0 rs, d.offset = n.offset) (hR : h.Read n = .ok b) :
    (∀ (needleId : Nat) (buff : List Byte) (size : Nat) (n1 : Needle) (h1 : Haystack),
        needleId < 2 ^ 64 → size ≤ buff.length → h.Write needleId buff size = (.ok n1, h1) →
        h1.file.length < 2 ^ 64 → h1.Read n = .ok b) ∧
      (∀ (m m1 : Needle) (h1 : Haystack), (∃ d ∈ descr h.id 0 rs, d.offset = m.offset) →
        m.offset ≠ n.offset → h.Delete m = (.ok (), m1, h1) → h1.Read n = .ok b) := by
  have hid := Haystack.Read_ok_id h n b hR
  obtain ⟨d, hd, hdo⟩ := hn
  obtain ⟨pre, r, post, hrs, hde⟩ := mem_descr h.id rs hT.ok 0 d hd
  have hoff : n.offset = (layout pre).length := by rw [← hdo, hde]; simp
  have hR0 := hR
  rw [Tiled.Read_record hT n pre r post hrs hoff hid] at hR0
  by_cases hc : (r.2 = [] ∧ post = []) ∨ r.1.isDeleted ≠ 0 ∨ r.1.id ≠ n.flags.id ∨
      r.1.size ≠ n.flags.size
  · rw [if_pos hc] at hR0
    cases hR0
  rw [if_neg hc] at hR0
  constructor
  · intro needleId buff size n1 h1 hnid hsz hW hfile
    obtain ⟨hT1, hid1⟩ := Tiled.write_record hT needleId buff size n1 h1 hnid hsz hW hfile
    rw [Tiled.Read_record hT1 n pre r (post ++ [(NeedleFlags.new needleId size, buff.take size)])
      (by rw [hrs]; simp) hoff (by rw [hid1]; exact hid)]
    rw [if_neg (by
      intro hc1
      apply hc
      rcases hc1 with ⟨_, h2⟩ | h2
      · simp at h2
      · exact Or.inr h2)]
    exact hR0
  · intro m m1 h1 hm hne hD
    obtain ⟨d2, hd2, hdo2⟩ := hm
    obtain ⟨pre2, r2, post2, hrs2, hde2⟩ := mem_descr h.id rs hT.ok 0 d2 hd2
    have hoff2 : m.offset = (layout pre2).length := by rw [← hdo2, hde2]; simp
    have hr2 : RecOK r2 := hT.ok r2 (by rw [hrs2]; simp)
    have hfile2 : h.file = layout pre2 ++ encodeFlags r2.1 ++ (r2.2 ++ layout post2) := by
      rw [hT.file, hrs2, layout_append]; simp [layout, recBytes]
    have hread2 : readAt h.file m.offset kFlagsSize = some (encodeFlags r2.1) := by
      rw [hfile2, hoff2, ← encodeFlags_length r2.1]; exact readAt_append _ _ _
    obtain ⟨_, bs, _, _, _, _, hrd, hmid, _, hbid, _, _, _⟩ :=
      Haystack.Delete_ok_inv h h1 m m1 (by rw [hT.len]; exact hT.cs) hD
    rw [hread2] at hrd
    have hbs : bs = encodeFlags r2.1 := (Option.some.inj hrd).symm
    rw [hbs, decodeFlags_encodeFlags r2.1 hr2.1 hr2.2.1] at hbid
    obtain ⟨hD2, hT1⟩ := Tiled.delete_record hT m pre2 r2 post2 hrs2 hoff2 hmid hbid
    rw [hD] at hD2
    have hh1 : h1 = { h with file := layout (pre2 ++ tombIf r2 :: post2) } :=
      congrArg (fun x => x.2.2) hD2
    rw [← hh1] at hT1
    have hid1 : n.haystackId = h1.id := by rw [hh1]; exact hid
    have hpne : pre ≠ pre2 := by
      intro he
      apply hne
      rw [hoff, hoff2, he]
    rcases split_two pre pre2 post post2 r r2 (by rw [← hrs, ← hrs2]) hpne with
      ⟨mid, hp2, hpost⟩ | ⟨mid, hp, hpost2⟩
    · rw [Tiled.Read_record hT1 n pre r (mid ++ tombIf r2 :: post2)
        (by rw [hp2]; simp) hoff hid1]
      rw [if_neg (by
        intro hc1
        apply hc
        rcases hc1 with ⟨_, h2⟩ | h2
        · simp at h2
        · exact Or.inr h2)]
      exact hR0
    · rw [Tiled.Read_record hT1 n (pre2 ++ tombIf r2 :: mid) r post
        (by rw [hpost2]; simp) (by rw [hoff, hp, layout_tombIf_length]) hid1]
      rw [if_neg hc]
      exact hR0

theorem Haystack.Read_stable_witness :
    (Tiled ((Haystack.new 0 [] 1000 false).run [.Write 42 [1, 2, 3] 3, .Write 43 [9] 1])
        [(⟨42, 3, 0⟩, [1, 2, 3]), (⟨43, 1, 0⟩, [9])] ∧
      (∃ d ∈ descr ((Haystack.new 0 [] 1000 false).run
            [.Write 42 [1, 2, 3] 3, .Write 43 [9] 1]).id 0
          [(⟨42, 3, 0⟩, [1, 2, 3]), (⟨43, 1, 0⟩, [9])],
        d.offset = (⟨0, 0, ⟨42, 3, 0⟩⟩ : Needle).offset) ∧
      ((Haystack.new 0 [] 1000 false).run [.Write 42 [1, 2, 3] 3, .Write 43 [9] 1]).Read
        ⟨0, 0, ⟨42, 3, 0⟩⟩ = .ok [1, 2, 3]) ∧
      ((∀ (needleId : Nat) (buff : List Byte) (size : Nat) (n1 : Needle) (h1 : Haystack),
          needleId < 2 ^ 64 → size ≤ buff.length →
          ((Haystack.new 0 [] 1000 false).run [.Write 42 [1, 2, 3] 3, .Write 43 [9] 1]).Write
            needleId buff size = (.ok n1, h1) →
          h1.file.length < 2 ^ 64 → h1.Read ⟨0, 0, ⟨42, 3, 0⟩⟩ = .ok [1, 2, 3]) ∧
        (∀ (m m1 : Needle) (h1 : Haystack),
          (∃ d ∈ descr ((Haystack.new 0 [] 1000 false).run
                [.Write 42 [1, 2, 3] 3, .Write 43 [9] 1]).id 0
              [(⟨42, 3, 0⟩, [1, 2, 3]), (⟨43, 1, 0⟩, [9])], d.offset = m.offset) →
          m.offset ≠ (⟨0, 0, ⟨42, 3, 0⟩⟩ : Needle).offset →
          ((Haystack.new 0 [] 1000 false).run [.Write 42 [1, 2, 3] 3, .Write 43 [9] 1]).Delete m
            = (.ok (), m1, h1) →
          h1.Read ⟨0, 0, ⟨42, 3, 0⟩⟩ = .ok [1, 2, 3])) :=
  have hT : Tiled ((Haystack.new 0 [] 1000 false).run [.Write 42 [1, 2, 3] 3, .Write 43 [9] 1])
      [(⟨42, 3, 0⟩, [1, 2, 3]), (⟨43, 1, 0⟩, [9])] :=
    ⟨rfl, rfl, by decide, by
      intro r hr
      simp only [List.mem_cons, List.mem_singleton, List.not_mem_nil, or_false] at hr
      rcases hr with rfl | rfl
      · exact ⟨by decide, by decide, rfl⟩
      · exact ⟨by decide, by decide, rfl⟩⟩
  have hn : ∃ d ∈ descr ((Haystack.new 0 [] 1000 false).run
        [.Write 42 [1, 2, 3] 3, .Write 43 [9] 1]).id 0
      [(⟨42, 3, 0⟩, [1, 2, 3]), (⟨43, 1, 0⟩, [9])],
      d.offset = (⟨0, 0, ⟨42, 3, 0⟩⟩ : Needle).offset :=
    ⟨⟨0, 0, ⟨42, 3, 0⟩⟩, List.mem_cons_self _ _, rfl⟩
  ⟨⟨hT, hn, rfl⟩, Haystack.Read_stable _ _ hT ⟨0, 0, ⟨42, 3, 0⟩⟩ [1, 2, 3] hn rfl⟩

/-! ## The index of the store -/

/-- C28 (as stated, refuted): after `put 0 7 0` the index holds needle 7 at offset 0
of volume 0, whose `currentSize` is `kFlagsSize`, so the offset is not below
`currentSize - kFlagsSize`; and after `put 0 7 3` and `delete 7` the index still
holds needle 7 while the header stored at its offset is tombstoned. -/
theorem Store.index_unsound_example :
    (((Store.new.RunInit (fun _ => [])).HandleConnection (.put 0 7 0 [])).2.needles.hMap
        = [(7, ⟨0, 0, ⟨7, 0, 0⟩⟩)] ∧
      (((Store.new.RunInit (fun _ => [])).HandleConnection (.put 0 7 0 [])).2.hayStacks[0]?).map
        (fun v => sub64 v.currentSize kFlagsSize) = some 0) ∧
    ((((Store.new.RunInit (fun _ => [])).HandleConnection
          (.put 0 7 3 [1, 2, 3])).2.HandleConnection (.delete 7)).2.needles.hMap
        = [(7, ⟨0, 0, ⟨7, 3, 0⟩⟩)] ∧
      ((((Store.new.RunInit (fun _ => [])).HandleConnection
          (.put 0 7 3 [1, 2, 3])).2.HandleConnection (.delete 7)).2.hayStacks[0]?).map
        (fun v => (readAt v.file 0 kFlagsSize).map decodeFlags) = some (some ⟨7, 3, 1⟩)) :=
  ⟨⟨rfl, rfl⟩, ⟨rfl, rfl⟩⟩

/-- C28 (amended): in every state of the store reachable from startup by `put`, `get`
and `delete` requests, every entry `needleId -> needle` of the index satisfies:
`needle.haystackId < kVolumes`, the header at `needle.offset` lies within the
volume (`needle.offset + kFlagsSize <= currentSize`), and the header stored
there has `id = needleId = needle.flags.id` and `size = needle.flags.size`. -/
theorem Store.index_sound (s : Store) (hs : s.Reachable) (needleId : Nat) (needle : Needle)
    (he : (needleId, needle) ∈ s.needles.hMap) :
    needle.haystackId < kVolumes ∧
      ∃ vol bs, s.hayStacks[needle.haystackId]? = some vol ∧
        needle.offset + kFlagsSize ≤ vol.currentSize ∧
        readAt vol.file needle.offset kFlagsSize = some bs ∧
        (decodeFlags bs).id = needleId ∧ needleId = needle.flags.id ∧
        (decodeFlags bs).size = needle.flags.size := by
  obtain ⟨g, hI⟩ := hs.inv
  obtain ⟨hlt, hp, hid⟩ := hI.idx _ he
  have hlt1 : needle.haystackId < s.hayStacks.length := by rw [hI.size]; exact hlt
  obtain ⟨_, hv⟩ := hI.vol needle.haystackId _ (List.getElem?_eq_getElem hlt1)
  obtain ⟨pre, r, post, hrs, hoff, hrid, hrsz⟩ := PointsTo.split hp hv.ok
  have hr : RecOK r := hv.ok r (by rw [hrs]; simp)
  have hfile : (s.hayStacks[needle.haystackId]).file
      = layout pre ++ encodeFlags r.1 ++ (r.2 ++ layout post) := by
    rw [hv.file, hrs, layout_append]; simp [layout, recBytes]
  refine ⟨hlt, _, encodeFlags r.1, List.getElem?_eq_getElem hlt1, ?_, ?_, ?_, ?_, ?_⟩
  · rw [← hv.len, hfile]
    simp only [List.length_append, encodeFlags_length]
    dsimp only at hoff
    omega
  · rw [hfile]
    dsimp only at hoff
    rw [hoff, ← encodeFlags_length r.1]
    exact readAt_append _ _ _
  · rw [decodeFlags_encodeFlags r.1 hr.1 hr.2.1, hrid]
    exact hid
  · exact hid.symm
  · rw [decodeFlags_encodeFlags r.1 hr.1 hr.2.1]
    exact hrsz

theorem Store.index_sound_witness :
    (((Store.new.RunInit (fun _ => [])).HandleConnection (.put 0 7 3 [1, 2, 3])).2.Reachable ∧
      (7, (⟨0, 0, ⟨7, 3, 0⟩⟩ : Needle)) ∈
        ((Store.new.RunInit (fun _ => [])).HandleConnection
          (.put 0 7 3 [1, 2, 3])).2.needles.hMap) ∧
      ((⟨0, 0, ⟨7, 3, 0⟩⟩ : Needle).haystackId < kVolumes ∧
        ∃ vol bs, ((Store.new.RunInit (fun _ => [])).HandleConnection
            (.put 0 7 3 [1, 2, 3])).2.hayStacks[(⟨0, 0, ⟨7, 3, 0⟩⟩ : Needle).haystackId]?
            = some vol ∧
          (⟨0, 0, ⟨7, 3, 0⟩⟩ : Needle).offset + kFlagsSize ≤ vol.currentSize ∧
          readAt vol.file (⟨0, 0, ⟨7, 3, 0⟩⟩ : Needle).offset kFlagsSize = some bs ∧
          (decodeFlags bs).id = 7 ∧ 7 = (⟨0, 0, ⟨7, 3, 0⟩⟩ : Needle).flags.id ∧
          (decodeFlags bs).size = (⟨0, 0, ⟨7, 3, 0⟩⟩ : Needle).flags.size) :=
  have hs : ((Store.new.RunInit (fun _ => [])).HandleConnection
      (.put 0 7 3 [1, 2, 3])).2.Reachable :=
    Store.Reachable.step _ (.put 0 7 3 [1, 2, 3]) (Store.Reachable.init _)
      ⟨by decide, by decide, by decide⟩
  have he : (7, (⟨0, 0, ⟨7, 3, 0⟩⟩ : Needle)) ∈
      ((Store.new.RunInit (fun _ => [])).HandleConnection
        (.put 0 7 3 [1, 2, 3])).2.needles.hMap := List.mem_cons_self _ _
  ⟨⟨hs, he⟩, Store.index_sound _ hs 7 ⟨0, 0, ⟨7, 3, 0⟩⟩ he⟩

/-! ## AsyncMap and the reference map -/

theorem AsyncMap.toRef_none {κ ν : Type} [DecidableEq κ] (m : AsyncMap κ ν) (k : κ) :
    m.toRef k = none ↔ m.find k = none := by
  unfold AsyncMap.toRef
  cases m.find k <;> simp

theorem AsyncMap.find_filter {κ ν : Type} [DecidableEq κ] (l : List (κ × ν)) (k x : κ) :
    (l.filter (fun e => !decide (e.1 = k))).find? (fun e => decide (e.1 = x))
      = if x = k then none else l.find? (fun e => decide (e.1 = x)) := by
  induction l with
  | nil => simp
  | cons e l ih =>
    by_cases hek : e.1 = k
    · rw [List.filter_cons_of_neg (by simp [hek]), ih]
      by_cases hxk : x = k
      · rw [if_pos hxk, if_pos hxk]
      · rw [if_neg hxk, if_neg hxk, List.find?_cons_of_neg]
        simp only [decide_eq_true_eq]
        intro hex
        exact hxk (hex.symm.trans hek)
    · rw [List.filter_cons_of_pos (by simp [hek])]
      by_cases hex : e.1 = x
      · rw [List.find?_cons_of_pos _ (by simp [hex]), List.find?_cons_of_pos _ (by simp [hex]),
          if_neg (by rw [← hex]; exact hek)]
      · rw [List.find?_cons_of_neg _ (by simp [hex]), List.find?_cons_of_neg _ (by simp [hex]), ih]

/-- One call: `AsyncMap` hands back what the reference map hands back, and stands for
the reference map after the call. -/
theorem AsyncMap.call_refines {κ ν : Type} [DecidableEq κ] (m : AsyncMap κ ν)
    (c : MapCall κ ν) :
    (m.call c).1 = (RefMap.call m.toRef c).1 ∧ (m.call c).2.toRef = (RefMap.call m.toRef c).2 := by
  cases c with
  | Get key value =>
    refine ⟨?_, rfl⟩
    show MapReturn.Get (m.Get key value).1 (m.Get key value).2
      = MapReturn.Get (RefMap.Get m.toRef key value).1 (RefMap.Get m.toRef key value).2
    unfold AsyncMap.Get RefMap.Get AsyncMap.toRef
    cases m.find key <;> rfl
  | Put key value =>
    show MapReturn.Put (m.Put key value).1 = MapReturn.Put (RefMap.Put m.toRef key value).1 ∧
      (m.Put key value).2.toRef = (RefMap.Put m.toRef key value).2
    unfold AsyncMap.Put RefMap.Put
    cases hf : m.find key with
    | none =>
      have hr : m.toRef key = none := (AsyncMap.toRef_none m key).mpr hf
      simp only [hr]
      refine ⟨by first | rfl | trivial, ?_⟩
      funext x
      show (List.find? (fun e => decide (e.1 = x)) ((key, value) :: m.hMap)).map Prod.snd = _
      by_cases hx : x = key
      · rw [if_pos hx, List.find?_cons_of_pos _ (by simp [hx])]
        rfl
      · rw [if_neg hx, List.find?_cons_of_neg _ (by simp [Ne.symm hx])]
        rfl
    | some e =>
      have hr : m.toRef key = some e.2 := by unfold AsyncMap.toRef; rw [hf]; rfl
      simp only [hr]
      exact ⟨by first | rfl | trivial, by first | rfl | trivial⟩
  | Remove key =>
    show MapReturn.Remove (m.Remove key).1 = MapReturn.Remove (RefMap.Remove m.toRef key).1 ∧
      (m.Remove key).2.toRef = (RefMap.Remove m.toRef key).2
    have hstate : (m.Remove key).2.toRef = fun x => if x = key then none else m.toRef x := by
      funext x
      show (List.find? (fun e => decide (e.1 = x))
        (m.hMap.filter (fun e => !decide (e.1 = key)))).map Prod.snd = _
      rw [AsyncMap.find_filter]
      by_cases hx : x = key
      · rw [if_pos hx, if_pos hx]; rfl
      · rw [if_neg hx, if_neg hx]; rfl
    rw [hstate]
    unfold AsyncMap.Remove RefMap.Remove
    cases hf : m.find key with
    | none =>
      have hr : m.toRef key = none := (AsyncMap.toRef_none m key).mpr hf
      simp only [hr]
      refine ⟨rfl, ?_⟩
      funext x
      by_cases hx : x = key
      · rw [if_pos hx, hx, hr]
      · rw [if_neg hx]
    | some e =>
      have hr : m.toRef key = some e.2 := by unfold AsyncMap.toRef; rw [hf]; rfl
      simp only [hr]
      exact ⟨rfl, trivial⟩

theorem AsyncMap.calls_refines {κ ν : Type} [DecidableEq κ] (cs : List (MapCall κ ν)) :
    ∀ m : AsyncMap κ ν, (m.calls cs).1 = (RefMap.calls m.toRef cs).1 ∧
      (m.calls cs).2.toRef = (RefMap.calls m.toRef cs).2 := by
  induction cs with
  | nil => exact fun m => ⟨rfl, rfl⟩
  | cons c cs ih =>
    intro m
    obtain ⟨h1, h2⟩ := AsyncMap.call_refines m c
    obtain ⟨h3, h4⟩ := ih (m.call c).2
    rw [h2] at h3 h4
    constructor
    · show (m.call c).1 :: ((m.call c).2.calls cs).1
        = (RefMap.call m.toRef c).1 :: (RefMap.calls (RefMap.call m.toRef c).2 cs).1
      rw [h1, h3]
    · exact h4

/-- C22: for every sequence of `Get`/`Put`/`Remove` calls, on an `AsyncMap` in any state
and in particular on the empty one, the calls hand back what the same calls hand
back on the reference map, and the `AsyncMap` afterwards holds for each key what
the reference map holds: `Put` inserts and returns true exactly when the key is
absent and otherwise returns false and changes nothing, `Get` returns true and
the stored value when the key is present and false with `value` untouched when
absent, `Remove` returns true and erases the key exactly when it is present. -/
theorem AsyncMap.refines_reference {κ ν : Type} [DecidableEq κ] (cs : List (MapCall κ ν)) :
    (∀ m : AsyncMap κ ν, (m.calls cs).1 = (RefMap.calls m.toRef cs).1 ∧
        (m.calls cs).2.toRef = (RefMap.calls m.toRef cs).2) ∧
      ((⟨[]⟩ : AsyncMap κ ν).calls cs).1 = (RefMap.calls (fun _ => none) cs).1 ∧
      ((⟨[]⟩ : AsyncMap κ ν).calls cs).2.toRef = (RefMap.calls (fun _ => none) cs).2 :=
  ⟨AsyncMap.calls_refines cs, AsyncMap.calls_refines cs ⟨[]⟩⟩

/-! ## Directory: the ids of uploads -/

/-- C24: whenever Redis is reached and answers `GET <needleId>` with a string `v`,
`Cache::Get` replies `ok <|v|>` followed by exactly the bytes of `v`, sends no
request to the store and no command to Redis besides the `GET`, whatever the
store would answer. -/
theorem Cache.Get_hit (v : List Byte) (answer : StoreAnswer) (needleId : String) :
    Cache.Get true (.string v) answer needleId
      = ⟨⟨"ok " ++ toString v.length ++ "\n", v⟩, [.GET needleId], []⟩ := rfl

end Hs
